import Mathlib

/-!
# Steiner-tree baseline: Kruskal MST, leaf pruning and Dijkstra

A shallow embedding of `cpp/src/mst.cpp`, `cpp/src/baseline_spmst.cpp` and
`cpp/src/shortest_paths.cpp`, followed by theorems about the embedded code.

Conventions of the embedding.

* Vertices are `Nat`; the vectors of the source are `List`s.
* Edge weights and distances (`double` in the source) range over an arbitrary
  linearly ordered additive group `W`, so that sums and comparisons are exact.
* Indexing a vector out of bounds is undefined behaviour in the source. In the
  DSU it yields `none`; the pruner and Dijkstra read with `getD` and write with
  `set`. Every theorem assumes the indices in range.
* A recursion or loop that need not end carries a budget and yields `none`
  when the budget is exhausted; the theorems show that it never is.
* `std::sort` is a parameter `sort` of `kruskal_mst`; the theorems assume of it
  only what the standard guarantees: the output is a permutation of the input
  and is ordered by the comparator.
-/

namespace Steiner

/-! ## Data model (`mst.hpp`) -/

/-- Edge `(w, u, v)` of `mst.hpp`: `std::tuple<double, int, int>`. -/
structure Edge (W : Type) where
  w : W
  u : Nat
  v : Nat
deriving DecidableEq, Repr

/-- Result record `MstResult` of `mst.hpp`. -/
structure MstResult (W : Type) where
  edges : List (Edge W)
  total_cost : W
deriving DecidableEq, Repr

/-! ## Disjoint-set union (`mst.cpp`, lines 6-28) -/

/-- The `DSU` struct: the `parent` and `rank` vectors. -/
structure DSU where
  parent : List Nat
  rank : List Nat
deriving DecidableEq, Repr

/-- Constructor `DSU(int n)`: `parent = iota 0..n-1`, `rank = 0`. -/
def DSU.new (n : Nat) : DSU :=
  { parent := List.range n, rank := List.replicate n 0 }

/-- Recursion of `DSU::find` with an explicit recursion budget:
`if (parent[x] == x) return x; return parent[x] = find(parent[x]);`. -/
def DSU.findAux : Nat → DSU → Nat → Option (Nat × DSU)
  | 0, _, _ => none
  | fuel + 1, d, x =>
    match d.parent[x]? with
    | none => none
    | some p =>
      if p = x then some (x, d)
      else
        match DSU.findAux fuel d p with
        | none => none
        | some (r, d1) => some (r, { d1 with parent := d1.parent.set x r })

/-- Method `DSU::find`, with path compression. The recursion budget
`parent.size() + 1` is never exhausted on a state built by `unite` calls
(`DSU.findAux_spec`). -/
def DSU.find (d : DSU) (x : Nat) : Option (Nat × DSU) :=
  DSU.findAux (d.parent.length + 1) d x

/-- Method `DSU::unite`, union by rank; returns the `bool` and the new state. -/
def DSU.unite (d : DSU) (a b : Nat) : Option (Bool × DSU) :=
  match d.find a with
  | none => none
  | some (a, d1) =>
    match d1.find b with
    | none => none
    | some (b, d2) =>
      if a = b then some (false, d2)
      else
        match d2.rank[a]?, d2.rank[b]? with
        | some ra, some rb =>
          -- if (rank[a] < rank[b]) std::swap(a, b);
          let a1 := if ra < rb then b else a
          let b1 := if ra < rb then a else b
          -- parent[b] = a;
          let d3 : DSU := { d2 with parent := d2.parent.set b1 a1 }
          -- if (rank[a] == rank[b]) rank[a]++;
          match d3.rank[a1]?, d3.rank[b1]? with
          | some ra1, some rb1 =>
            if ra1 = rb1 then some (true, { d3 with rank := d3.rank.set a1 (ra1 + 1) })
            else some (true, d3)
          | _, _ => none
        | _, _ => none

/-! ## Kruskal (`mst.cpp`, lines 30-53) -/

/-- The `for (const auto &e : edges)` loop of `kruskal_mst` over the sorted
edges, threading the DSU and the result record. -/
def kruskalLoop {W : Type} [Add W] : DSU → MstResult W → List (Edge W) → Option (MstResult W)
  | _, res, [] => some res
  | dsu, res, e :: es =>
    match dsu.unite e.u e.v with
    | none => none
    | some (true, dsu1) =>
      kruskalLoop dsu1 { edges := res.edges ++ [e], total_cost := res.total_cost + e.w } es
    | some (false, dsu1) => kruskalLoop dsu1 res es

/-- Function `kruskal_mst(n, edges)`; `sort` stands for the call
`std::sort(edges.begin(), edges.end(), by-weight comparator)`. -/
def kruskal_mst {W : Type} [Add W] [Zero W] (sort : List (Edge W) → List (Edge W))
    (n : Nat) (edges : List (Edge W)) : Option (MstResult W) :=
  kruskalLoop (DSU.new n) { edges := [], total_cost := 0 } (sort edges)

/-- What `std::sort` with the comparator `get<0>(a) < get<0>(b)` guarantees:
the result is a permutation of the input, and no later element compares
less than an earlier one. -/
def SortsByWeight {W : Type} [LinearOrder W] (sort : List (Edge W) → List (Edge W)) : Prop :=
  ∀ l, (sort l).Perm l ∧ (sort l).Pairwise (fun a b => a.w ≤ b.w)

/-- A concrete instance of the sort: insertion sort on the weight. -/
def sortByWeight {W : Type} [LinearOrder W] (l : List (Edge W)) : List (Edge W) :=
  l.insertionSort (fun a b => a.w ≤ b.w)

/-! ## Specification-level view of the DSU -/

/-- Parent of `x` (a vertex outside the vector counts as its own parent). -/
def DSU.par (d : DSU) (x : Nat) : Nat := d.parent.getD x x

/-- Rank of `x`. -/
def DSU.rk (d : DSU) (x : Nat) : Nat := d.rank.getD x 0

/-- Number of roots (`parent[x] == x`) of the state. -/
def DSU.numRoots (d : DSU) : Nat :=
  ((Finset.range d.parent.length).filter (fun x => d.par x = x)).card

/-- Walking up the `parent` pointers from `x` ends in the root `r`. -/
inductive DSU.Root (d : DSU) : Nat → Nat → Prop
  | self {x : Nat} : x < d.parent.length → d.par x = x → DSU.Root d x x
  | step {x r : Nat} : x < d.parent.length → d.par x ≠ x → DSU.Root d (d.par x) r →
      DSU.Root d x r

/-- Two vertices are in the same set: they have the same root. -/
def DSU.Same (d : DSU) (x y : Nat) : Prop := ∃ r, d.Root x r ∧ d.Root y r

/-- Invariant of every state reachable from `DSU(n)` by `find` and `unite`. -/
structure DSU.WF (n : Nat) (d : DSU) : Prop where
  plen : d.parent.length = n
  rlen : d.rank.length = n
  pbound : ∀ x, x < n → d.par x < n
  rankInc : ∀ x, x < n → d.par x ≠ x → d.rk x < d.rk (d.par x)
  rankBound : ∀ x, x < n → d.rk x + d.numRoots ≤ n

/-! ## Specification-level graph notions on edge lists -/

/-- Some edge of `F` joins `a` and `b` (edges are undirected). -/
def Adj {W : Type} (F : List (Edge W)) (a b : Nat) : Prop :=
  ∃ e, e ∈ F ∧ ((e.u = a ∧ e.v = b) ∨ (e.u = b ∧ e.v = a))

/-- Vertices `a` and `b` are joined by a path of edges of `F` (the path of
length zero included). -/
def Conn {W : Type} (F : List (Edge W)) : Nat → Nat → Prop :=
  Relation.ReflTransGen (Adj F)

/-- All endpoints lie in `[0, n)`. -/
def InRange {W : Type} (n : Nat) (F : List (Edge W)) : Prop :=
  ∀ e, e ∈ F → e.u < n ∧ e.v < n

/-- The edge list is acyclic: no edge (taken by position, so that parallel
copies count separately) has its endpoints joined by the remaining edges.
A self-loop or a pair of parallel edges is a cycle. -/
def IsForest {W : Type} (F : List (Edge W)) : Prop :=
  ∀ (i : Nat) (h : i < F.length), ¬ Conn (F.eraseIdx i) (F.get ⟨i, h⟩).u (F.get ⟨i, h⟩).v

/-- The graph `(n, F)` is connected: any two vertices of `[0, n)` are joined. -/
def Connected {W : Type} (n : Nat) (F : List (Edge W)) : Prop :=
  ∀ x y, x < n → y < n → Conn F x y

/-- The edge list is a spanning tree of the `n` vertices. -/
def IsSpanningTree {W : Type} (n : Nat) (F : List (Edge W)) : Prop :=
  IsForest F ∧ Connected n F

/-- Sum of the edge weights. -/
def weight {W : Type} [Add W] [Zero W] (F : List (Edge W)) : W :=
  (F.map (fun e => e.w)).sum

/-- The least vertex of each connected component of `(n, F)`; the number of
components is the cardinality of this set. -/
def compReps {W : Type} (n : Nat) (F : List (Edge W)) : Set Nat :=
  {x | x < n ∧ ∀ y, y < x → ¬ Conn F y x}

/-- The edges accepted by the greedy scan of `es` on top of the already
accepted `K`: an edge is accepted exactly when its endpoints are not yet
joined by the accepted edges. -/
inductive Greedy {W : Type} : List (Edge W) → List (Edge W) → List (Edge W) → Prop
  | nil (K : List (Edge W)) : Greedy K [] []
  | skip {K es D : List (Edge W)} {e : Edge W} : Conn K e.u e.v → Greedy K es D →
      Greedy K (e :: es) D
  | take {K es D : List (Edge W)} {e : Edge W} : ¬ Conn K e.u e.v → Greedy (K ++ [e]) es D →
      Greedy K (e :: es) (e :: D)

/-- Loop invariant of `kruskal_mst`: the DSU satisfies its invariant and its
sets are the connected components of the accepted edges `K`. -/
def KInv {W : Type} (n : Nat) (d : DSU) (K : List (Edge W)) : Prop :=
  d.WF n ∧ InRange n K ∧ ∀ x y, x < n → y < n → (d.Same x y ↔ Conn K x y)

/-! ## Steiner leaf pruning (`baseline_spmst.cpp`, lines 17-83)

The pruner indexes its vectors with edge endpoints and loop counters only.
Reads are `getD` and writes are `set`; on endpoints in `[0, n)`, assumed by
every theorem, these are the reads and writes of the source. The `while` loop
carries a budget of passes and yields `none` when it is exhausted. -/

/-- Statement `adj[i].push_back(x)`. -/
def pushAt (adj : List (List Nat)) (i x : Nat) : List (List Nat) :=
  adj.set i (adj.getD i [] ++ [x])

/-- Lines 23-30: the adjacency lists of the edge list. -/
def buildAdj {W : Type} (n : Nat) (mst_edges : List (Edge W)) : List (List Nat) :=
  mst_edges.foldl (fun adj e => pushAt (pushAt adj e.u e.v) e.v e.u) (List.replicate n [])

/-- The mutable vectors of the pruning loop: `degree` and `active`. -/
structure PruneState where
  degree : List Int
  active : List Bool
deriving DecidableEq, Repr

/-- Lines 33-44: `degree[u] = adj[u].size()` and `active[u] = degree[u] > 0`. -/
def pruneInit (n : Nat) (adj : List (List Nat)) : PruneState :=
  { degree := (List.range n).map (fun u => ((adj.getD u []).length : Int)),
    active := (List.range n).map (fun u => decide (0 < ((adj.getD u []).length : Int))) }

/-- Lines 62-66: `for (int v : adj[u]) if (active[v]) degree[v]--;`. -/
def decrNeighbors (active : List Bool) (degree : List Int) (nbrs : List Nat) : List Int :=
  nbrs.foldl (fun deg v => if active.getD v false then deg.set v (deg.getD v 0 - 1) else deg)
    degree

/-- The test of lines 51-55: `u` is active, has degree exactly 1 and is not
a terminal. -/
def removable (terminals : Finset Nat) (s : PruneState) (u : Nat) : Bool :=
  s.active.getD u false && decide (s.degree.getD u 0 = 1) && decide (u ∉ terminals)

/-- Lines 50-67: the body of the `for u` loop, on the state and the
`removed` flag. -/
def pruneVisit (adj : List (List Nat)) (terminals : Finset Nat) (st : PruneState × Bool)
    (u : Nat) : PruneState × Bool :=
  if removable terminals st.1 u then
    let active1 := st.1.active.set u false
    let degree1 := decrNeighbors active1 st.1.degree (adj.getD u [])
    ({ degree := degree1.set u 0, active := active1 }, true)
  else st

/-- Lines 48-68: one pass `removed = false; for (u = 0; u < n; ++u) ...`. -/
def prunePass (n : Nat) (adj : List (List Nat)) (terminals : Finset Nat) (s : PruneState) :
    PruneState × Bool :=
  (List.range n).foldl (pruneVisit adj terminals) (s, false)

/-- Lines 46-69: `while (removed)` with a budget of passes. -/
def pruneLoop (n : Nat) (adj : List (List Nat)) (terminals : Finset Nat) :
    Nat → PruneState → Option PruneState
  | 0, _ => none
  | fuel + 1, s =>
    match prunePass n adj terminals s with
    | (s1, true) => pruneLoop n adj terminals fuel s1
    | (s1, false) => some s1

/-- The `active` vector when the `while` loop of `prune_steiner_leaves` ends.
The budget of `n + 1` passes is never exhausted (`pruneLoop_spec`). -/
def pruneFinal {W : Type} (n : Nat) (mst_edges : List (Edge W)) (terminals : Finset Nat) :
    Option PruneState :=
  pruneLoop n (buildAdj n mst_edges) terminals (n + 1) (pruneInit n (buildAdj n mst_edges))

/-- Lines 71-80: keep the edges whose two endpoints are active. -/
def keepActive {W : Type} (s : PruneState) (mst_edges : List (Edge W)) : List (Edge W) :=
  mst_edges.filter (fun e => s.active.getD e.u false && s.active.getD e.v false)

/-- Function `prune_steiner_leaves(n, mst_edges, terminals)`. -/
def prune_steiner_leaves {W : Type} (n : Nat) (mst_edges : List (Edge W))
    (terminals : Finset Nat) : Option (List (Edge W)) :=
  (pruneFinal n mst_edges terminals).map (fun s => keepActive s mst_edges)

/-- Lines 114-124 of `main`: MST, pruning, and the summed cost of the pruned
edges; returns the pruned edges, their cost, and the MST result. -/
def pipeline {W : Type} [Add W] [Zero W] (sort : List (Edge W) → List (Edge W)) (n : Nat)
    (edges : List (Edge W)) (terminals : Finset Nat) : Option (List (Edge W) × W) :=
  match kruskal_mst sort n edges with
  | none => none
  | some mst =>
    match prune_steiner_leaves n mst.edges terminals with
    | none => none
    | some pruned => some (pruned, pruned.foldl (fun acc e => acc + e.w) 0)

/-- Entry `active[x]` of a state. -/
def PruneState.act (s : PruneState) (x : Nat) : Bool := s.active.getD x false

/-- Entry `degree[x]` of a state. -/
def PruneState.deg (s : PruneState) (x : Nat) : Int := s.degree.getD x 0

/-- Degree of `x` in an edge list: the number of edge ends at `x`, so that a
self-loop at `x` counts twice (as in the adjacency lists of the pruner). -/
def degreeIn {W : Type} (F : List (Edge W)) (x : Nat) : Nat :=
  F.countP (fun e => decide (e.u = x)) + F.countP (fun e => decide (e.v = x))

/-- Invariant of the pruning loop on the edge list `E` with terminals `T`:
the vectors have length `n`; the recorded degree of an active vertex is the
number of its active adjacency entries; a terminal with an incident edge is
active; active vertices joined in `E` are joined by the edges between active
vertices. -/
structure PInv {W : Type} (n : Nat) (E : List (Edge W)) (T : Finset Nat) (s : PruneState) :
    Prop where
  alen : s.active.length = n
  dlen : s.degree.length = n
  degOK : ∀ x, s.act x = true →
    s.deg x = (((buildAdj n E).getD x []).countP s.act : Nat)
  termOK : ∀ t c, t ∈ T → Adj E t c → s.act t = true
  connOK : ∀ x y, s.act x = true → s.act y = true → Conn E x y → Conn (keepActive s E) x y

/-- Number of edges of `F` incident to `x` (a self-loop at `x` is one edge). -/
def incidentCount {W : Type} (F : List (Edge W)) (x : Nat) : Nat :=
  F.countP (fun e => decide (e.u = x ∨ e.v = x))

/-! ## Dijkstra (`shortest_paths.cpp`)

Distances are `WithTop W`, with `⊤` for the `INF` of the source. The
priority queue is the list of its entries; `top` is the least entry in the
lexicographic order of `std::pair<double, int>` and `pop` removes it. The
vectors are read with `getD` and written with `set`; on neighbour indices and
a source in `[0, n)`, which the theorems assume, these are the reads and
writes of the source. The `while` loop carries a budget of iterations and
yields `none` when it is exhausted. -/

/-- Type `AdjList`: `graph[u]` is the list of `(v, w)`, an edge `u -> v` of
weight `w`. -/
abbrev AdjList (W : Type) := List (List (Nat × W))

/-- Type `State` of the queue entries: `std::pair<double, int>`. -/
abbrev QEntry (W : Type) := WithTop W × Nat

/-- Comparison `operator<` of `std::pair<double, int>`. -/
def entryLt {W : Type} [LinearOrder W] (a b : QEntry W) : Prop :=
  a.1 < b.1 ∨ (a.1 = b.1 ∧ a.2 < b.2)

instance {W : Type} [LinearOrder W] (a b : QEntry W) : Decidable (entryLt a b) := by
  unfold entryLt
  infer_instance

/-- Call `pq.top()` of the min-queue (`std::greater`): the least entry;
`none` when `pq.empty()`. -/
def pqTop {W : Type} [LinearOrder W] : List (QEntry W) → Option (QEntry W)
  | [] => none
  | a :: l => some (l.foldl (fun m b => if entryLt b m then b else m) a)

/-- Lines 29-37: the `for (const auto &edge : graph[u])` loop, on the
remaining edges of `graph[u]`, the `dist` vector and the queue. -/
def relaxEdges {W : Type} [LinearOrderedAddCommGroup W] (u : Nat) :
    List (Nat × W) → List (WithTop W) × List (QEntry W) → List (WithTop W) × List (QEntry W)
  | [], st => st
  | (v, w) :: es, (dist, pq) =>
    if dist.getD u ⊤ + (w : WithTop W) < dist.getD v ⊤ then
      relaxEdges u es (dist.set v (dist.getD u ⊤ + (w : WithTop W)),
        pq ++ [(dist.getD u ⊤ + (w : WithTop W), v)])
    else relaxEdges u es (dist, pq)

/-- Lines 21-38: the `while (!pq.empty())` loop with a budget of
iterations. -/
def dijkstraLoop {W : Type} [LinearOrderedAddCommGroup W] (graph : AdjList W) :
    Nat → List (WithTop W) → List (QEntry W) → Option (List (WithTop W))
  | 0, _, _ => none
  | fuel + 1, dist, pq =>
    match pqTop pq with
    | none => some dist
    | some (d, u) =>
      if dist.getD u ⊤ < d then dijkstraLoop graph fuel dist (pq.erase (d, u))
      else
        match relaxEdges u (graph.getD u []) (dist, pq.erase (d, u)) with
        | (dist1, pq1) => dijkstraLoop graph fuel dist1 pq1

/-- Function `dijkstra(graph, source)`. The budget, two more than the number
of edges, is never exhausted on non-negative weights (`dijkstraLoop_spec`). -/
def dijkstra {W : Type} [LinearOrderedAddCommGroup W] (graph : AdjList W) (source : Nat) :
    Option (List (WithTop W)) :=
  dijkstraLoop graph ((graph.map List.length).sum + 2)
    ((List.replicate graph.length (⊤ : WithTop W)).set source 0) [(0, source)]

/-- A directed path from `s` to `v` of total weight `c`: a sequence of edges
of the graph, each starting where the previous one ends (vertices may
repeat). -/
inductive PathW {W : Type} [AddMonoid W] (graph : AdjList W) (s : Nat) : Nat → W → Prop
  | nil : PathW graph s s 0
  | snoc {u v : Nat} {c w : W} : PathW graph s u c → (v, w) ∈ graph.getD u [] →
      PathW graph s v (c + w)

/-- Vertex `x` is settled: its distance is finite and no queue entry
carries its current distance. -/
def Settled {W : Type} (dist : List (WithTop W)) (pq : List (QEntry W)) (x : Nat) : Prop :=
  x < dist.length ∧ dist.getD x ⊤ ≠ ⊤ ∧ (dist.getD x ⊤, x) ∉ pq

instance {W : Type} [DecidableEq W] (dist : List (WithTop W)) (pq : List (QEntry W)) (x : Nat) :
    Decidable (Settled dist pq x) := by
  unfold Settled
  infer_instance

/-- Number of edges leaving the vertices that are not settled: a bound on
the pushes still to come. -/
def pending {W : Type} [DecidableEq W] (graph : AdjList W) (dist : List (WithTop W))
    (pq : List (QEntry W)) : Nat :=
  ∑ x in (Finset.range graph.length).filter (fun x => ¬ Settled dist pq x),
    (graph.getD x []).length

/-- What the theorems assume of the graph: neighbour indices in `[0, n)` and
non-negative weights. -/
def GraphOK {W : Type} [LinearOrderedAddCommGroup W] (graph : AdjList W) : Prop :=
  ∀ u v w, (v, w) ∈ graph.getD u [] → v < graph.length ∧ 0 ≤ w

/-- Invariant of the loops of `dijkstra`; `cur` is the vertex whose edges
are being relaxed and `rest` those of its edges still to be relaxed (`[]`
between two iterations of the `while` loop). -/
structure DInv {W : Type} [LinearOrderedAddCommGroup W] (graph : AdjList W) (source : Nat)
    (dist : List (WithTop W)) (pq : List (QEntry W)) (cur : Nat) (rest : List (Nat × W)) :
    Prop where
  len : dist.length = graph.length
  src : dist.getD source ⊤ = 0
  nonneg : ∀ v, 0 ≤ dist.getD v ⊤
  pqOK : ∀ d y, (d, y) ∈ pq → y < graph.length ∧ d ≠ ⊤ ∧ dist.getD y ⊤ ≤ d
  uniq : ∀ y, pq.count (dist.getD y ⊤, y) ≤ 1
  settledLe : ∀ x, Settled dist pq x → ∀ d y, (d, y) ∈ pq → dist.getD x ⊤ ≤ d
  curOK : rest ≠ [] →
    Settled dist pq cur ∧ ∀ x, Settled dist pq x → dist.getD x ⊤ ≤ dist.getD cur ⊤
  restOK : ∀ e, e ∈ rest → e ∈ graph.getD cur []
  relaxed : ∀ x, Settled dist pq x → ∀ v w, (v, w) ∈ graph.getD x [] →
    (x = cur ∧ (v, w) ∈ rest) ∨ dist.getD v ⊤ ≤ dist.getD x ⊤ + (w : WithTop W)
  reach : ∀ (v : Nat) (c : W), dist.getD v ⊤ = (c : WithTop W) → PathW graph source v c

/-! ## The documented end-to-end input -/

/-- The documented input: `n = 5` and the six edges `(0,1,1.0) (1,2,1.0)
(2,3,1.0) (3,4,1.0) (0,4,10.0) (1,3,5.0)`, as `(w, u, v)`. -/
def scenarioEdges : List (Edge Int) :=
  [⟨1, 0, 1⟩, ⟨1, 1, 2⟩, ⟨1, 2, 3⟩, ⟨1, 3, 4⟩, ⟨10, 0, 4⟩, ⟨5, 1, 3⟩]

/-- The four weight-1 edges of the path `0-1-2-3-4`. -/
def scenarioPath : List (Edge Int) :=
  [⟨1, 0, 1⟩, ⟨1, 1, 2⟩, ⟨1, 2, 3⟩, ⟨1, 3, 4⟩]

/-! ## Sequences of DSU calls

A client of the `DSU` struct calls `unite` any number of times and compares
`find(a)` with `find(b)`. The two definitions below are such clients; they
add nothing to the methods they call. -/

/-- The calls `unite(a, b)` for the pairs of the list, in order, on the state
`d`: the answers of the calls and the final state. -/
def DSU.uniteAll : DSU → List (Nat × Nat) → Option (List Bool × DSU)
  | d, [] => some ([], d)
  | d, p :: ops =>
    match d.unite p.1 p.2 with
    | none => none
    | some (ok, d1) =>
      match DSU.uniteAll d1 ops with
      | none => none
      | some (oks, d2) => some (ok :: oks, d2)

/-- The test `find(a) == find(b)`: both calls run, the left operand first,
and each compresses the path it walks. -/
def DSU.sameSet (d : DSU) (a b : Nat) : Option (Bool × DSU) :=
  match d.find a with
  | none => none
  | some (ra, d1) =>
    match d1.find b with
    | none => none
    | some (rb, d2) => some (decide (ra = rb), d2)

/-! ## The pruning loop with its passes counted, and with other scan orders -/

/-- The `while (removed)` loop of lines 46-69 with a counter of the passes
it executes (the last pass, which removes nothing, included). -/
def pruneLoopCount (n : Nat) (adj : List (List Nat)) (terminals : Finset Nat) :
    Nat → PruneState → Option (PruneState × Nat)
  | 0, _ => none
  | fuel + 1, s =>
    match prunePass n adj terminals s with
    | (s1, true) =>
      match pruneLoopCount n adj terminals fuel s1 with
      | none => none
      | some (s2, k) => some (s2, k + 1)
    | (s1, false) => some (s1, 1)

/-- Number of passes of the `while` loop of `prune_steiner_leaves`. -/
def prunePassCount {W : Type} (n : Nat) (mst_edges : List (Edge W)) (terminals : Finset Nat) :
    Option Nat :=
  (pruneLoopCount n (buildAdj n mst_edges) terminals (n + 1)
    (pruneInit n (buildAdj n mst_edges))).map Prod.snd

/-- Any number of removals of lines 57-66, each of a vertex that passes the
test of lines 51-55 at the time it is removed, in any order. -/
inductive LeafRemovals (adj : List (List Nat)) (terminals : Finset Nat) :
    PruneState → PruneState → Prop
  | done (s : PruneState) : LeafRemovals adj terminals s s
  | step {s s2 : PruneState} (u : Nat) : removable terminals s u = true →
      LeafRemovals adj terminals (pruneVisit adj terminals (s, false) u).1 s2 →
      LeafRemovals adj terminals s s2

/-- The `while (removed)` loop in which pass number `k` scans the vertices in
the order `orders k` in place of `0, 1, ..., n-1`. -/
def pruneLoopIn (adj : List (List Nat)) (terminals : Finset Nat) (orders : Nat → List Nat) :
    Nat → Nat → PruneState → Option PruneState
  | 0, _, _ => none
  | fuel + 1, k, s =>
    match (orders k).foldl (pruneVisit adj terminals) (s, false) with
    | (s1, true) => pruneLoopIn adj terminals orders fuel (k + 1) s1
    | (s1, false) => some s1

/-- The pruner with pass number `k` scanning in the order `orders k`. -/
def pruneInOrder {W : Type} (n : Nat) (mst_edges : List (Edge W)) (terminals : Finset Nat)
    (orders : Nat → List Nat) : Option (List (Edge W)) :=
  (pruneLoopIn (buildAdj n mst_edges) terminals orders (n + 1) 0
    (pruneInit n (buildAdj n mst_edges))).map (fun s => keepActive s mst_edges)

/-- A work-queue in place of the passes: the vertex at the head of the queue
is removed if it still passes the test of lines 51-55, and then those of its
neighbours that pass the test after the removal join the queue. -/
def pruneQueueLoop (adj : List (List Nat)) (terminals : Finset Nat) :
    Nat → List Nat → PruneState → Option PruneState
  | _, [], s => some s
  | 0, _ :: _, _ => none
  | fuel + 1, u :: q, s =>
    if removable terminals s u then
      pruneQueueLoop adj terminals fuel
        (q ++ (adj.getD u []).filter
          (removable terminals (pruneVisit adj terminals (s, false) u).1))
        (pruneVisit adj terminals (s, false) u).1
    else pruneQueueLoop adj terminals fuel q s

/-- The pruner with a work-queue, which starts with the vertices that pass
the test of lines 51-55 in the initial state. -/
def pruneWithQueue {W : Type} (n : Nat) (mst_edges : List (Edge W)) (terminals : Finset Nat) :
    Option (List (Edge W)) :=
  (pruneQueueLoop (buildAdj n mst_edges) terminals (2 * n + 1)
    ((List.range n).filter (removable terminals (pruneInit n (buildAdj n mst_edges))))
    (pruneInit n (buildAdj n mst_edges))).map (fun s => keepActive s mst_edges)

/-! ## Theorems: the DSU invariant -/

theorem DSU.par_eq_of_get {d : DSU} {x p : Nat} (h : d.parent[x]? = some p) : d.par x = p := by
  simp [DSU.par, List.getD_eq_getElem?_getD, h]

theorem DSU.get_of_lt {d : DSU} {x : Nat} (h : x < d.parent.length) :
    d.parent[x]? = some (d.par x) := by
  simp [DSU.par, List.getD_eq_getElem?_getD, List.getElem?_eq_getElem h]

theorem DSU.rank_get_of_lt {d : DSU} {x : Nat} (h : x < d.rank.length) :
    d.rank[x]? = some (d.rk x) := by
  simp [DSU.rk, List.getD_eq_getElem?_getD, List.getElem?_eq_getElem h]

theorem DSU.par_set (d : DSU) (x r y : Nat) (hx : x < d.parent.length) :
    DSU.par { d with parent := d.parent.set x r } y = if y = x then r else d.par y := by
  unfold DSU.par
  simp only [List.getD_eq_getElem?_getD, List.getElem?_set]
  by_cases h : y = x
  · subst h; simp [hx]
  · have h2 : ¬ x = y := fun e => h e.symm
    simp [h, h2]

theorem DSU.rk_set (d : DSU) (x r y : Nat) (hx : x < d.rank.length) :
    DSU.rk { d with rank := d.rank.set x r } y = if y = x then r else d.rk y := by
  unfold DSU.rk
  simp only [List.getD_eq_getElem?_getD, List.getElem?_set]
  by_cases h : y = x
  · subst h; simp [hx]
  · have h2 : ¬ x = y := fun e => h e.symm
    simp [h, h2]

theorem DSU.Root.lt {d : DSU} {x r : Nat} (h : d.Root x r) : x < d.parent.length := by
  cases h with
  | self h _ => exact h
  | step h _ _ => exact h

theorem DSU.Root.isRoot {d : DSU} {x r : Nat} (h : d.Root x r) : d.par r = r := by
  induction h with
  | self _ h => exact h
  | step _ _ _ ih => exact ih

theorem DSU.Root.root_lt {d : DSU} {x r : Nat} (h : d.Root x r) : r < d.parent.length := by
  induction h with
  | self h _ => exact h
  | step _ _ _ ih => exact ih

theorem DSU.Root.root_self {d : DSU} {x r : Nat} (h : d.Root x r) : d.Root r r :=
  DSU.Root.self h.root_lt h.isRoot

theorem DSU.Root.unique {d : DSU} {x r s : Nat} (h : d.Root x r) (h2 : d.Root x s) : r = s := by
  induction h with
  | self _ hp =>
    cases h2 with
    | self _ _ => rfl
    | step _ hne _ => exact absurd hp hne
  | step _ hne _ ih =>
    cases h2 with
    | self _ hp => exact absurd hp hne
    | step _ _ h3 => exact ih h3

theorem DSU.Root.of_isRoot {d : DSU} {x r : Nat} (h : d.Root x r) (hx : d.par x = x) : r = x :=
  h.unique (DSU.Root.self h.lt hx)

theorem DSU.Root.rk_le {n : Nat} {d : DSU} (wf : d.WF n) {x r : Nat} (h : d.Root x r) :
    d.rk x ≤ d.rk r ∧ (x ≠ r → d.rk x < d.rk r) := by
  induction h with
  | self _ _ => exact ⟨le_refl _, fun h => absurd rfl h⟩
  | step hx hne _ ih =>
    have := wf.rankInc _ (wf.plen ▸ hx) hne
    exact ⟨by omega, fun _ => by omega⟩

theorem DSU.Root.ne_of_step {d : DSU} {x r : Nat} (h : d.Root x r) (hne : d.par x ≠ x) : x ≠ r := by
  intro e
  subst e
  exact hne h.isRoot

/-- Under the invariant every vertex has a root. -/
theorem DSU.WF.exists_root {n : Nat} {d : DSU} (wf : d.WF n) :
    ∀ (k x : Nat), x < n → n - d.rk x ≤ k → ∃ r, d.Root x r := by
  intro k
  induction k with
  | zero =>
    intro x hx hk
    by_cases hp : d.par x = x
    · exact ⟨x, DSU.Root.self (wf.plen ▸ hx) hp⟩
    · have h1 := wf.rankInc x hx hp
      have h2 := wf.rankBound _ (wf.pbound x hx)
      omega
  | succ k ih =>
    intro x hx hk
    by_cases hp : d.par x = x
    · exact ⟨x, DSU.Root.self (wf.plen ▸ hx) hp⟩
    · have h1 := wf.rankInc x hx hp
      obtain ⟨r, hr⟩ := ih (d.par x) (wf.pbound x hx) (by omega)
      exact ⟨r, DSU.Root.step (wf.plen ▸ hx) hp hr⟩

theorem DSU.WF.root_total {n : Nat} {d : DSU} (wf : d.WF n) {x : Nat} (hx : x < n) :
    ∃ r, d.Root x r :=
  wf.exists_root n x hx (by omega)

theorem DSU.Root.congr {d e : DSU} (hp : d.parent = e.parent) {x r : Nat} (h : d.Root x r) :
    e.Root x r := by
  have hpar : ∀ y, e.par y = d.par y := fun y => by simp [DSU.par, hp]
  induction h with
  | self hx hpx => exact DSU.Root.self (hp ▸ hx) (by rw [hpar]; exact hpx)
  | step hx hne _ ih =>
    refine DSU.Root.step (hp ▸ hx) (by rw [hpar]; exact hne) ?_
    rw [hpar]; exact ih

theorem DSU.numRoots_congr {d e : DSU} (hl : d.parent.length = e.parent.length)
    (h : ∀ y, y < d.parent.length → (e.par y = y ↔ d.par y = y)) : e.numRoots = d.numRoots := by
  unfold DSU.numRoots
  rw [← hl]
  congr 1
  apply Finset.filter_congr
  intro y hy
  exact h y (Finset.mem_range.mp hy)

/-- Path compression step `parent[x] = r` with `r` the root of `x`. -/
theorem DSU.compress {n : Nat} {d : DSU} (wf : d.WF n) {x r : Nat} (hr : d.Root x r)
    (hne : x ≠ r) :
    DSU.WF n { d with parent := d.parent.set x r } ∧
    (∀ y s, DSU.Root { d with parent := d.parent.set x r } y s ↔ d.Root y s) := by
  have hx : x < d.parent.length := hr.lt
  have hpx : d.par x ≠ x := fun h => hne (hr.of_isRoot h).symm
  have hpar : ∀ y, DSU.par { d with parent := d.parent.set x r } y =
      if y = x then r else d.par y := fun y => DSU.par_set d x r y hx
  have hlen : (DSU.parent { d with parent := d.parent.set x r }).length = d.parent.length := by
    simp
  have hroots : ∀ y, (DSU.par { d with parent := d.parent.set x r } y = y ↔ d.par y = y) := by
    intro y
    rw [hpar]
    by_cases hy : y = x
    · subst hy; simp only [if_true]
      exact ⟨fun h => absurd h.symm hne, fun h => absurd h hpx⟩
    · simp [hy]
  have hiff : ∀ y s, DSU.Root { d with parent := d.parent.set x r } y s ↔ d.Root y s := by
    intro y s
    constructor
    · intro h
      induction h with
      | self hy hp => exact DSU.Root.self (hlen ▸ hy) ((hroots _).mp hp)
      | @step y s hy hp _ ih =>
        have hp2 : d.par y ≠ y := fun h => hp ((hroots _).mpr h)
        rw [hpar] at ih
        by_cases hyx : y = x
        · subst hyx
          simp only [if_true] at ih
          have : s = r := ih.unique hr.root_self
          subst this
          exact hr
        · simp only [hyx, if_false] at ih
          exact DSU.Root.step (hlen ▸ hy) hp2 ih
    · intro h
      induction h with
      | self hy hp => exact DSU.Root.self (hlen ▸ hy) ((hroots _).mpr hp)
      | @step y s hy hp h ih =>
        have hp2 : DSU.par { d with parent := d.parent.set x r } y ≠ y :=
          fun h => hp ((hroots _).mp h)
        refine DSU.Root.step (hlen ▸ hy) hp2 ?_
        rw [hpar]
        by_cases hyx : y = x
        · subst hyx
          simp only [if_true]
          have : s = r := (DSU.Root.step hy hp h).unique hr
          subst this
          have hrr := hr.root_self
          exact DSU.Root.self (hlen ▸ hrr.lt) ((hroots _).mpr hr.isRoot)
        · simp only [hyx, if_false]
          exact ih
  refine ⟨?_, hiff⟩
  have hrk : ∀ y, DSU.rk { d with parent := d.parent.set x r } y = d.rk y := fun _ => rfl
  refine ⟨by rw [hlen]; exact wf.plen, wf.rlen, ?_, ?_, ?_⟩
  · intro y hy
    rw [hpar]
    split
    · exact wf.plen ▸ hr.root_lt
    · exact wf.pbound y hy
  · intro y hy hp
    rw [hpar] at hp ⊢
    rw [hrk, hrk]
    by_cases hyx : y = x
    · subst hyx
      simp only [if_true]
      exact (hr.rk_le wf).2 hne
    · simp only [hyx, if_false] at hp ⊢
      exact wf.rankInc y hy hp
  · intro y hy
    rw [hrk, DSU.numRoots_congr hlen.symm (fun y _ => hroots y)]
    exact wf.rankBound y hy

/-- The recursion of `find` returns the root, never runs out of budget when
the budget exceeds `n - rank[x]`, and leaves roots and ranks as they were. -/
theorem DSU.findAux_spec {n : Nat} : ∀ (fuel : Nat) (d : DSU) (x : Nat), d.WF n → x < n →
    n - d.rk x < fuel →
    ∃ r d1, DSU.findAux fuel d x = some (r, d1) ∧ d.Root x r ∧ d1.WF n ∧
      (∀ y s, d1.Root y s ↔ d.Root y s) ∧ d1.rank = d.rank := by
  intro fuel
  induction fuel with
  | zero => intro d x _ _ h; omega
  | succ f ih =>
    intro d x wf hx hf
    have hxl : x < d.parent.length := wf.plen ▸ hx
    rw [DSU.findAux, DSU.get_of_lt hxl]
    by_cases hp : d.par x = x
    · simp only [hp, if_true]
      exact ⟨x, d, rfl, DSU.Root.self hxl hp, wf, fun _ _ => Iff.rfl, rfl⟩
    · simp only [hp, if_false]
      have h1 := wf.rankInc x hx hp
      have h2 := wf.rankBound _ (wf.pbound x hx)
      obtain ⟨r, d1, he, hr, wf1, hroot1, hrank1⟩ :=
        ih d (d.par x) wf (wf.pbound x hx) (by omega)
      rw [he]
      have hxr : d.Root x r := DSU.Root.step hxl hp hr
      have hxr1 : d1.Root x r := (hroot1 x r).mpr hxr
      have hne : x ≠ r := hxr.ne_of_step hp
      obtain ⟨wf2, hroot2⟩ := DSU.compress wf1 hxr1 hne
      exact ⟨r, _, rfl, hxr, wf2, fun y s => (hroot2 y s).trans (hroot1 y s), hrank1⟩

theorem DSU.find_spec {n : Nat} {d : DSU} (wf : d.WF n) {x : Nat} (hx : x < n) :
    ∃ r d1, d.find x = some (r, d1) ∧ d.Root x r ∧ d1.WF n ∧
      (∀ y s, d1.Root y s ↔ d.Root y s) ∧ d1.rank = d.rank := by
  unfold DSU.find
  apply DSU.findAux_spec _ d x wf hx
  rw [wf.plen]
  omega

/-- Linking root `rb` below root `ra` (`parent[b] = a`): the vertices whose
root was `rb` now have root `ra`, every other root is unchanged. -/
theorem DSU.link_root {d : DSU} {ra rb : Nat} (hra : d.Root ra ra) (hrb : d.Root rb rb)
    (hne : ra ≠ rb) (y s : Nat) :
    DSU.Root { d with parent := d.parent.set rb ra } y s ↔
      (d.Root y s ∧ s ≠ rb) ∨ (d.Root y rb ∧ s = ra) := by
  have hb : rb < d.parent.length := hrb.lt
  have hpar : ∀ y, DSU.par { d with parent := d.parent.set rb ra } y =
      if y = rb then ra else d.par y := fun y => DSU.par_set d rb ra y hb
  have hlen : (DSU.parent { d with parent := d.parent.set rb ra }).length = d.parent.length := by
    simp
  constructor
  · intro h
    induction h with
    | @self y hy hp =>
      rw [hpar] at hp
      by_cases hyb : y = rb
      · subst hyb; simp only [if_true] at hp; exact absurd hp hne
      · simp only [hyb, if_false] at hp
        exact Or.inl ⟨DSU.Root.self (hlen ▸ hy) hp, hyb⟩
    | @step y s hy hp _ ih =>
      rw [hpar] at hp ih
      by_cases hyb : y = rb
      · subst hyb
        simp only [if_true] at ih
        rcases ih with ⟨h1, _⟩ | ⟨h1, _⟩
        · exact Or.inr ⟨hrb, h1.unique hra⟩
        · exact absurd (h1.unique hra) (fun e => hne e.symm)
      · simp only [hyb, if_false] at ih hp
        rcases ih with ⟨h1, h2⟩ | ⟨h1, h2⟩
        · exact Or.inl ⟨DSU.Root.step (hlen ▸ hy) hp h1, h2⟩
        · exact Or.inr ⟨DSU.Root.step (hlen ▸ hy) hp h1, h2⟩
  · rintro (⟨h, hs⟩ | ⟨h, hs⟩)
    · induction h with
      | @self y hy hp =>
        refine DSU.Root.self (hlen ▸ hy) ?_
        rw [hpar]; simp only [hs, if_false]; exact hp
      | @step y s hy hp _ ih =>
        have hyb : y ≠ rb := fun e => hp (e ▸ hrb.isRoot)
        refine DSU.Root.step (hlen ▸ hy) ?_ ?_
        · rw [hpar]; simp only [hyb, if_false]; exact hp
        · rw [hpar]; simp only [hyb, if_false]; exact ih hs
    · rw [hs]
      have hraa : DSU.Root { d with parent := d.parent.set rb ra } ra ra := by
        refine DSU.Root.self (hlen ▸ hra.lt) ?_
        rw [hpar]; simp only [hne, if_false]; exact hra.isRoot
      generalize hr : rb = r at h
      induction h with
      | @self y hy hp =>
        subst hr
        refine DSU.Root.step (hlen ▸ hy) ?_ ?_
        · rw [hpar]; simp only [if_true]; exact hne
        · rw [hpar]; simp only [if_true]; exact hraa
      | @step y s hy hp _ ih =>
        subst hr
        have hyb : y ≠ rb := fun e => hp (e ▸ hrb.isRoot)
        refine DSU.Root.step (hlen ▸ hy) ?_ ?_
        · rw [hpar]; simp only [hyb, if_false]; exact hp
        · rw [hpar]; simp only [hyb, if_false]; exact ih rfl

theorem DSU.link_numRoots {d : DSU} {ra rb : Nat} (hrb : d.Root rb rb) (hne : ra ≠ rb) :
    DSU.numRoots { d with parent := d.parent.set rb ra } + 1 = d.numRoots := by
  have hb : rb < d.parent.length := hrb.lt
  have hpar : ∀ y, DSU.par { d with parent := d.parent.set rb ra } y =
      if y = rb then ra else d.par y := fun y => DSU.par_set d rb ra y hb
  unfold DSU.numRoots
  have hlen : (DSU.parent { d with parent := d.parent.set rb ra }).length = d.parent.length := by
    simp
  rw [hlen]
  have hmem : rb ∈ (Finset.range d.parent.length).filter (fun x => d.par x = x) := by
    simp [hb, hrb.isRoot]
  have : (Finset.range d.parent.length).filter
      (fun x => DSU.par { d with parent := d.parent.set rb ra } x = x) =
      ((Finset.range d.parent.length).filter (fun x => d.par x = x)).erase rb := by
    ext y
    simp only [Finset.mem_filter, Finset.mem_range, Finset.mem_erase, hpar]
    by_cases hy : y = rb
    · subst hy; simp [hne]
    · simp [hy]
  rw [this, Finset.card_erase_of_mem hmem]
  have := Finset.card_pos.mpr ⟨rb, hmem⟩
  omega

/-- The linking step of `unite` keeps the invariant. -/
theorem DSU.link_wf {n : Nat} {d : DSU} (wf : d.WF n) {ra rb : Nat} (hra : d.Root ra ra)
    (hrb : d.Root rb rb) (hne : ra ≠ rb) (hle : d.rk rb ≤ d.rk ra) :
    DSU.WF n (if d.rk ra = d.rk rb then
      { parent := d.parent.set rb ra, rank := d.rank.set ra (d.rk ra + 1) }
      else { d with parent := d.parent.set rb ra }) := by
  have hb : rb < d.parent.length := hrb.lt
  have ha : ra < d.parent.length := hra.lt
  have han : ra < n := wf.plen ▸ ha
  have hnr := DSU.link_numRoots hrb hne
  have hpar : ∀ y, DSU.par { d with parent := d.parent.set rb ra } y =
      if y = rb then ra else d.par y := fun y => DSU.par_set d rb ra y hb
  by_cases htie : d.rk ra = d.rk rb
  · simp only [htie, if_true]
    have hpar2 : ∀ y, DSU.par (DSU.mk (d.parent.set rb ra) (d.rank.set ra (d.rk rb + 1))) y =
        if y = rb then ra else d.par y := hpar
    have hrk2 : ∀ y, DSU.rk (DSU.mk (d.parent.set rb ra) (d.rank.set ra (d.rk rb + 1))) y =
        if y = ra then d.rk rb + 1 else d.rk y :=
      fun y => DSU.rk_set { d with parent := d.parent.set rb ra } ra _ y (by
        show ra < d.rank.length
        rw [wf.rlen]; exact han)
    have hnr2 : DSU.numRoots (DSU.mk (d.parent.set rb ra) (d.rank.set ra (d.rk rb + 1))) + 1 =
        d.numRoots := hnr
    refine ⟨by simpa using wf.plen, by simpa using wf.rlen, ?_, ?_, ?_⟩
    · intro y hy
      rw [hpar2]; split
      · exact han
      · exact wf.pbound y hy
    · intro y hy hp
      rw [hpar2] at hp ⊢
      rw [hrk2, hrk2]
      by_cases hyb : y = rb
      · subst hyb
        simp only [if_true]
        simp only [hne.symm, if_false]
        omega
      · simp only [hyb, if_false] at hp ⊢
        have hya : y ≠ ra := fun e => hp (e ▸ hra.isRoot)
        simp only [hya, if_false]
        have h3 := wf.rankInc y hy hp
        by_cases hpa : d.par y = ra
        · simp only [hpa, if_true]; rw [hpa] at h3; omega
        · simp only [hpa, if_false]; exact h3
    · intro y hy
      rw [hrk2]
      have h1 := wf.rankBound y hy
      have h2 := wf.rankBound ra han
      split <;> omega
  · simp only [htie, if_false]
    have hrk : ∀ y, DSU.rk { d with parent := d.parent.set rb ra } y = d.rk y := fun _ => rfl
    refine ⟨by simpa using wf.plen, wf.rlen, ?_, ?_, ?_⟩
    · intro y hy
      rw [hpar]; split
      · exact han
      · exact wf.pbound y hy
    · intro y hy hp
      rw [hpar] at hp ⊢
      rw [hrk, hrk]
      by_cases hyb : y = rb
      · subst hyb
        simp only [if_true]
        omega
      · simp only [hyb, if_false] at hp ⊢
        exact wf.rankInc y hy hp
    · intro y hy
      rw [hrk]
      have h1 := wf.rankBound y hy
      omega

/-- The constructor `DSU(n)` establishes the invariant; every vertex is its
own root. -/
theorem DSU.new_wf (n : Nat) : (DSU.new n).WF n := by
  have hpar : ∀ x, (DSU.new n).par x = x := by
    intro x
    simp only [DSU.par, DSU.new, List.getD_eq_getElem?_getD]
    by_cases hx : x < n
    · simp [List.getElem?_range hx]
    · simp [List.getElem?_eq_none (show (List.range n).length ≤ x by simp; omega)]
  have hrk : ∀ x, (DSU.new n).rk x = 0 := by
    intro x
    simp only [DSU.rk, DSU.new, List.getD_eq_getElem?_getD, List.getElem?_replicate]
    split <;> simp
  refine ⟨by simp [DSU.new], by simp [DSU.new], ?_, ?_, ?_⟩
  · intro x hx; rw [hpar]; exact hx
  · intro x _ h; exact absurd (hpar x) h
  · intro x _
    rw [hrk]
    have : (DSU.new n).numRoots ≤ n := by
      unfold DSU.numRoots
      calc _ ≤ (Finset.range (DSU.new n).parent.length).card := Finset.card_filter_le _ _
        _ = n := by simp [DSU.new]
    omega

theorem DSU.new_root (n : Nat) {x r : Nat} : (DSU.new n).Root x r ↔ (x < n ∧ r = x) := by
  have hpar : ∀ x, (DSU.new n).par x = x := by
    intro x
    simp only [DSU.par, DSU.new, List.getD_eq_getElem?_getD]
    by_cases hx : x < n
    · simp [List.getElem?_range hx]
    · simp [List.getElem?_eq_none (show (List.range n).length ≤ x by simp; omega)]
  constructor
  · intro h
    have hl := h.lt
    simp only [DSU.new, List.length_range] at hl
    exact ⟨hl, h.of_isRoot (hpar x)⟩
  · rintro ⟨h, h2⟩
    rw [h2]
    exact DSU.Root.self (by simpa [DSU.new] using h) (hpar x)

theorem DSU.Same.comm {d : DSU} {x y : Nat} (h : d.Same x y) : d.Same y x := by
  obtain ⟨r, h1, h2⟩ := h
  exact ⟨r, h2, h1⟩

theorem DSU.Same.chain {d : DSU} {x y z : Nat} (h : d.Same x y) (hyz : d.Same y z) :
    d.Same x z := by
  obtain ⟨r, h1, h2⟩ := h
  obtain ⟨s, h3, h4⟩ := hyz
  have : r = s := h2.unique h3
  subst this
  exact ⟨r, h1, h4⟩

theorem DSU.WF.same_refl {n : Nat} {d : DSU} (wf : d.WF n) {x : Nat} (hx : x < n) :
    d.Same x x := by
  obtain ⟨r, hr⟩ := wf.root_total hx
  exact ⟨r, hr, hr⟩

theorem DSU.same_congr {d e : DSU} (h : ∀ y s, e.Root y s ↔ d.Root y s) (x y : Nat) :
    e.Same x y ↔ d.Same x y := by
  unfold DSU.Same
  simp only [h]

/-- The sets after linking root `rb` below root `ra`. -/
theorem DSU.link_same {d : DSU} {ra rb : Nat} (hra : d.Root ra ra) (hrb : d.Root rb rb)
    (hne : ra ≠ rb) (x y : Nat) :
    DSU.Same { d with parent := d.parent.set rb ra } x y ↔
      (d.Same x y ∨ (d.Root x ra ∧ d.Root y rb) ∨ (d.Root x rb ∧ d.Root y ra)) := by
  unfold DSU.Same
  simp only [DSU.link_root hra hrb hne]
  constructor
  · rintro ⟨s, (⟨h1, h2⟩ | ⟨h1, h2⟩), (⟨h3, h4⟩ | ⟨h3, h4⟩)⟩
    · exact Or.inl ⟨s, h1, h3⟩
    · subst h4; exact Or.inr (Or.inl ⟨h1, h3⟩)
    · subst h2; exact Or.inr (Or.inr ⟨h1, h3⟩)
    · exact Or.inl ⟨rb, h1, h3⟩
  · rintro (⟨s, h1, h2⟩ | ⟨h1, h2⟩ | ⟨h1, h2⟩)
    · by_cases hs : s = rb
      · subst hs
        exact ⟨ra, Or.inr ⟨h1, rfl⟩, Or.inr ⟨h2, rfl⟩⟩
      · exact ⟨s, Or.inl ⟨h1, hs⟩, Or.inl ⟨h2, hs⟩⟩
    · exact ⟨ra, Or.inl ⟨h1, hne⟩, Or.inr ⟨h2, rfl⟩⟩
    · exact ⟨ra, Or.inr ⟨h1, rfl⟩, Or.inl ⟨h2, hne⟩⟩

/-- Specification of `unite`: on a state satisfying the invariant and
in-range arguments it returns, keeps the invariant, answers `false` exactly
when the two arguments were already in one set, and merges exactly their
two sets. -/
theorem DSU.unite_spec {n : Nat} {d : DSU} (wf : d.WF n) {a b : Nat} (ha : a < n) (hb : b < n) :
    ∃ ok d1, d.unite a b = some (ok, d1) ∧ d1.WF n ∧ (ok = false ↔ d.Same a b) ∧
      (∀ x y, d1.Same x y ↔
        (d.Same x y ∨ (d.Same x a ∧ d.Same b y) ∨ (d.Same x b ∧ d.Same a y))) := by
  obtain ⟨ra, d1, hfa, hra, wf1, hroot1, hrank1⟩ := DSU.find_spec wf ha
  obtain ⟨rb, d2, hfb, hrb1, wf2, hroot2, hrank2⟩ := DSU.find_spec wf1 hb
  have hrb : d.Root b rb := (hroot1 b rb).mp hrb1
  have hroot : ∀ y s, d2.Root y s ↔ d.Root y s := fun y s => (hroot2 y s).trans (hroot1 y s)
  have hsame : ∀ x y, d2.Same x y ↔ d.Same x y := DSU.same_congr hroot
  have hxa : ∀ x, d.Same x a ↔ d.Root x ra := fun x =>
    ⟨fun ⟨r, h1, h2⟩ => (h2.unique hra) ▸ h1, fun h => ⟨ra, h, hra⟩⟩
  have hxb : ∀ x, d.Same x b ↔ d.Root x rb := fun x =>
    ⟨fun ⟨r, h1, h2⟩ => (h2.unique hrb) ▸ h1, fun h => ⟨rb, h, hrb⟩⟩
  have hax : ∀ x, d.Same a x ↔ d.Root x ra := fun x =>
    ⟨fun h => (hxa x).mp h.comm, fun h => ((hxa x).mpr h).comm⟩
  have hbx : ∀ x, d.Same b x ↔ d.Root x rb := fun x =>
    ⟨fun h => (hxb x).mp h.comm, fun h => ((hxb x).mpr h).comm⟩
  unfold DSU.unite
  rw [hfa]
  simp only [hfb]
  by_cases hab : ra = rb
  · simp only [hab, if_true]
    refine ⟨false, d2, rfl, wf2, ?_, ?_⟩
    · simp only [true_iff]
      exact ⟨rb, hab ▸ hra, hrb⟩
    · intro x y
      rw [hsame]
      constructor
      · exact Or.inl
      · rintro (h | ⟨h1, h2⟩ | ⟨h1, h2⟩)
        · exact h
        · rw [hxa] at h1; rw [hbx] at h2
          exact ⟨rb, hab ▸ h1, h2⟩
        · rw [hxb] at h1; rw [hax] at h2
          exact ⟨rb, h1, hab ▸ h2⟩
  · simp only [hab, if_false]
    have hra2 : d2.Root ra ra := (hroot ra ra).mpr hra.root_self
    have hrb2 : d2.Root rb rb := (hroot rb rb).mpr hrb.root_self
    have hran : ra < n := wf2.plen ▸ hra2.lt
    have hrbn : rb < n := wf2.plen ▸ hrb2.lt
    rw [DSU.rank_get_of_lt (wf2.rlen.symm ▸ hran), DSU.rank_get_of_lt (wf2.rlen.symm ▸ hrbn)]
    simp only
    have hnotsame : ¬ d.Same a b := by
      rintro ⟨r, h1, h2⟩
      exact hab ((hra.unique h1).trans (h2.unique hrb))
    by_cases hlt : d2.rk ra < d2.rk rb
    · -- swapped: `ra` is linked below `rb`
      simp only [hlt, if_true]
      have hr1 : (DSU.mk (d2.parent.set ra rb) d2.rank).rank[rb]? = some (d2.rk rb) :=
        DSU.rank_get_of_lt (d := d2) (wf2.rlen.symm ▸ hrbn)
      have hr2 : (DSU.mk (d2.parent.set ra rb) d2.rank).rank[ra]? = some (d2.rk ra) :=
        DSU.rank_get_of_lt (d := d2) (wf2.rlen.symm ▸ hran)
      rw [hr1, hr2]
      simp only
      have hne : d2.rk rb ≠ d2.rk ra := by omega
      simp only [hne, if_false]
      have hwf := DSU.link_wf wf2 hrb2 hra2 (fun e => hab e.symm) (by omega)
      simp only [hne, if_false] at hwf
      refine ⟨true, _, rfl, hwf, ?_, ?_⟩
      · simp only [Bool.true_eq_false, false_iff]; exact hnotsame
      · intro x y
        rw [DSU.link_same hrb2 hra2 (fun e => hab e.symm), hsame]
        simp only [hroot, hxa, hxb, hax, hbx]
        tauto
    · simp only [hlt, if_false]
      have hr1 : (DSU.mk (d2.parent.set rb ra) d2.rank).rank[rb]? = some (d2.rk rb) :=
        DSU.rank_get_of_lt (d := d2) (wf2.rlen.symm ▸ hrbn)
      have hr2 : (DSU.mk (d2.parent.set rb ra) d2.rank).rank[ra]? = some (d2.rk ra) :=
        DSU.rank_get_of_lt (d := d2) (wf2.rlen.symm ▸ hran)
      rw [hr1, hr2]
      simp only
      have hwf := DSU.link_wf wf2 hra2 hrb2 hab (by omega)
      have hs : ∀ x y, DSU.Same { d2 with parent := d2.parent.set rb ra } x y ↔
          (d.Same x y ∨ (d.Same x a ∧ d.Same b y) ∨ (d.Same x b ∧ d.Same a y)) := by
        intro x y
        rw [DSU.link_same hra2 hrb2 hab, hsame]
        simp only [hroot, hxa, hxb, hax, hbx]
      by_cases htie : d2.rk ra = d2.rk rb
      · simp only [htie, if_true] at hwf ⊢
        refine ⟨true, _, rfl, hwf, ?_, ?_⟩
        · simp only [Bool.true_eq_false, false_iff]; exact hnotsame
        · intro x y
          rw [← hs x y]
          exact DSU.same_congr (d := DSU.mk (d2.parent.set rb ra) d2.rank)
            (e := DSU.mk (d2.parent.set rb ra) (d2.rank.set ra (d2.rk rb + 1)))
            (fun y s => ⟨fun h => DSU.Root.congr
                (d := DSU.mk (d2.parent.set rb ra) (d2.rank.set ra (d2.rk rb + 1)))
                (e := DSU.mk (d2.parent.set rb ra) d2.rank) rfl h,
              fun h => DSU.Root.congr (d := DSU.mk (d2.parent.set rb ra) d2.rank)
                (e := DSU.mk (d2.parent.set rb ra) (d2.rank.set ra (d2.rk rb + 1))) rfl h⟩) x y
      · simp only [htie, if_false] at hwf ⊢
        refine ⟨true, _, rfl, hwf, ?_, hs⟩
        simp only [Bool.true_eq_false, false_iff]; exact hnotsame

/-! ## Theorems: paths, components and forests -/

variable {W : Type}

theorem Adj.swap {F : List (Edge W)} {a b : Nat} (h : Adj F a b) : Adj F b a := by
  obtain ⟨e, he, h⟩ := h
  exact ⟨e, he, h.symm⟩

theorem Adj.widen {F G : List (Edge W)} (hs : ∀ e, e ∈ F → e ∈ G) {a b : Nat} (h : Adj F a b) :
    Adj G a b := by
  obtain ⟨e, he, h⟩ := h
  exact ⟨e, hs e he, h⟩

theorem Conn.refl (F : List (Edge W)) (a : Nat) : Conn F a a := Relation.ReflTransGen.refl

theorem Conn.trans {F : List (Edge W)} {a b c : Nat} (h : Conn F a b) (h2 : Conn F b c) :
    Conn F a c := Relation.ReflTransGen.trans h h2

theorem Conn.symm {F : List (Edge W)} {a b : Nat} (h : Conn F a b) : Conn F b a := by
  induction h with
  | refl => exact Conn.refl F a
  | tail _ hbc ih => exact Relation.ReflTransGen.head hbc.swap ih

theorem Conn.mono {F G : List (Edge W)} (hs : ∀ e, e ∈ F → e ∈ G) {a b : Nat}
    (h : Conn F a b) : Conn G a b :=
  Relation.ReflTransGen.mono (fun _ _ h => Adj.widen hs h) h

theorem Conn.of_edge {F : List (Edge W)} {e : Edge W} (he : e ∈ F) : Conn F e.u e.v :=
  Relation.ReflTransGen.single ⟨e, he, Or.inl ⟨rfl, rfl⟩⟩

/-- If every edge of `F` has its endpoints joined in `G`, then `G` joins
whatever `F` joins. -/
theorem Conn.of_edges {F G : List (Edge W)} (hs : ∀ e, e ∈ F → Conn G e.u e.v) {a b : Nat}
    (h : Conn F a b) : Conn G a b := by
  induction h with
  | refl => exact Conn.refl G a
  | tail _ hbc ih =>
    obtain ⟨e, he, ⟨h1, h2⟩ | ⟨h1, h2⟩⟩ := hbc
    · subst h1; subst h2
      exact ih.trans (hs e he)
    · subst h1; subst h2
      exact ih.trans (hs e he).symm

theorem Conn.nil {a b : Nat} (h : Conn ([] : List (Edge W)) a b) : a = b := by
  induction h with
  | refl => rfl
  | tail _ hbc _ =>
    obtain ⟨e, he, _⟩ := hbc
    simp at he

theorem Conn.lt_of_inRange {n : Nat} {F : List (Edge W)} (hF : InRange n F) {a b : Nat}
    (h : Conn F a b) (ha : a < n) : b < n := by
  induction h with
  | refl => exact ha
  | tail _ hbc _ =>
    obtain ⟨e, he, h | h⟩ := hbc
    · rw [← h.2]; exact (hF e he).2
    · rw [← h.1]; exact (hF e he).1

/-- Effect of one more edge on the joined pairs. -/
theorem conn_cons {F : List (Edge W)} {e : Edge W} {a b : Nat} :
    Conn (e :: F) a b ↔
      (Conn F a b ∨ (Conn F a e.u ∧ Conn F e.v b) ∨ (Conn F a e.v ∧ Conn F e.u b)) := by
  have hsub : ∀ x, x ∈ F → x ∈ e :: F := fun x hx => List.mem_cons_of_mem _ hx
  have hedge : Conn (e :: F) e.u e.v := Conn.of_edge (List.mem_cons_self _ _)
  constructor
  · intro h
    induction h with
    | refl => exact Or.inl (Conn.refl F a)
    | @tail b c _ hbc ih =>
      obtain ⟨x, hx, hxe⟩ := hbc
      rcases List.mem_cons.mp hx with rfl | hxF
      · rcases hxe with ⟨h1, h2⟩ | ⟨h1, h2⟩
        · subst h1; subst h2
          rcases ih with h | ⟨h3, _⟩ | ⟨h3, _⟩
          · exact Or.inr (Or.inl ⟨h, Conn.refl F _⟩)
          · exact Or.inr (Or.inl ⟨h3, Conn.refl F _⟩)
          · exact Or.inl h3
        · subst h1; subst h2
          rcases ih with h | ⟨h3, _⟩ | ⟨h3, _⟩
          · exact Or.inr (Or.inr ⟨h, Conn.refl F _⟩)
          · exact Or.inl h3
          · exact Or.inr (Or.inr ⟨h3, Conn.refl F _⟩)
      · have hbc2 : Conn F b c := Relation.ReflTransGen.single ⟨x, hxF, hxe⟩
        rcases ih with h | ⟨h3, h4⟩ | ⟨h3, h4⟩
        · exact Or.inl (h.trans hbc2)
        · exact Or.inr (Or.inl ⟨h3, h4.trans hbc2⟩)
        · exact Or.inr (Or.inr ⟨h3, h4.trans hbc2⟩)
  · rintro (h | ⟨h1, h2⟩ | ⟨h1, h2⟩)
    · exact h.mono hsub
    · exact ((h1.mono hsub).trans hedge).trans (h2.mono hsub)
    · exact ((h1.mono hsub).trans hedge.symm).trans (h2.mono hsub)

/-- An edge whose endpoints are already joined adds nothing. -/
theorem conn_cons_of_conn {F : List (Edge W)} {e : Edge W} (he : Conn F e.u e.v) {a b : Nat} :
    Conn (e :: F) a b ↔ Conn F a b := by
  rw [conn_cons]
  constructor
  · rintro (h | ⟨h1, h2⟩ | ⟨h1, h2⟩)
    · exact h
    · exact (h1.trans he).trans h2
    · exact (h1.trans he.symm).trans h2
  · exact Or.inl

theorem compReps_finite (n : Nat) (F : List (Edge W)) : (compReps n F).Finite :=
  (Set.finite_lt_nat n).subset (fun _ hx => hx.1)

/-- More joined pairs, fewer components. -/
theorem ncard_compReps_anti {n : Nat} {F G : List (Edge W)}
    (h : ∀ x y, Conn F x y → Conn G x y) : (compReps n G).ncard ≤ (compReps n F).ncard := by
  apply Set.ncard_le_ncard _ (compReps_finite n F)
  intro x hx
  exact ⟨hx.1, fun y hy hc => hx.2 y hy (h y x hc)⟩

theorem ncard_compReps_nil (n : Nat) : (compReps n ([] : List (Edge W))).ncard = n := by
  have : compReps n ([] : List (Edge W)) = ((Finset.range n : Finset Nat) : Set Nat) := by
    ext x
    simp only [compReps, Set.mem_setOf_eq, Finset.coe_range, Set.mem_Iio]
    constructor
    · exact fun h => h.1
    · intro h
      refine ⟨h, fun y hy hc => ?_⟩
      have := Conn.nil hc
      omega
  rw [this, Set.ncard_coe_Finset, Finset.card_range]

/-- Every vertex has a least vertex in its component. -/
theorem exists_rep (F : List (Edge W)) (u : Nat) :
    ∃ m, m ≤ u ∧ Conn F m u ∧ ∀ y, y < m → ¬ Conn F y m := by
  obtain ⟨m, hm, hmin⟩ := WellFounded.has_min Nat.lt_wfRel.wf {m | Conn F m u} ⟨u, Conn.refl F u⟩
  refine ⟨m, ?_, hm, fun y hy hc => hmin y (hc.trans hm) hy⟩
  by_contra hlt
  exact hmin u (Conn.refl F u) (Nat.lt_of_not_le hlt)

theorem rep_unique {F : List (Edge W)} {x m : Nat} (hx : ∀ y, y < x → ¬ Conn F y x)
    (hm : ∀ y, y < m → ¬ Conn F y m) (hc : Conn F x m) : x = m := by
  rcases Nat.lt_trichotomy x m with h | h | h
  · exact absurd hc (hm x h)
  · exact h
  · exact absurd hc.symm (hx m h)

theorem compReps_merge {n : Nat} {F G : List (Edge W)} {p q mp mq : Nat}
    (hc : ∀ x y, Conn G x y ↔
      (Conn F x y ∨ (Conn F x p ∧ Conn F q y) ∨ (Conn F x q ∧ Conn F p y)))
    (hp : Conn F mp p) (hpm : ∀ y, y < mp → ¬ Conn F y mp)
    (hq : Conn F mq q) (hqm : ∀ y, y < mq → ¬ Conn F y mq) (hlt : mp < mq) :
    compReps n G = compReps n F \ {mq} := by
  ext x
  simp only [compReps, Set.mem_setOf_eq, Set.mem_diff, Set.mem_singleton_iff]
  constructor
  · rintro ⟨hx, hmin⟩
    refine ⟨⟨hx, fun y hy h => hmin y hy ((hc y x).mpr (Or.inl h))⟩, ?_⟩
    intro hxq
    subst hxq
    exact hmin mp hlt ((hc mp x).mpr (Or.inr (Or.inl ⟨hp, hq.symm⟩)))
  · rintro ⟨⟨hx, hmin⟩, hne⟩
    refine ⟨hx, fun y hy h => ?_⟩
    rcases (hc y x).mp h with h1 | ⟨h1, h2⟩ | ⟨h1, h2⟩
    · exact hmin y hy h1
    · exact hne (rep_unique hmin hqm (h2.symm.trans hq.symm))
    · have hxp : x = mp := rep_unique hmin hpm (h2.symm.trans hp.symm)
      subst hxp
      exact hqm y (by omega) (h1.trans hq.symm)

/-- An edge joining two different components lowers their number by one. -/
theorem ncard_compReps_cons_of_not_conn {n : Nat} {F : List (Edge W)} {e : Edge W}
    (hu : e.u < n) (hv : e.v < n) (h : ¬ Conn F e.u e.v) :
    (compReps n (e :: F)).ncard + 1 = (compReps n F).ncard := by
  obtain ⟨mu, hule, hcu, hminu⟩ := exists_rep F e.u
  obtain ⟨mv, hvle, hcv, hminv⟩ := exists_rep F e.v
  have hne : mu ≠ mv := by
    intro e1
    subst e1
    exact h (hcu.symm.trans hcv)
  rcases Nat.lt_or_gt_of_ne hne with hlt | hlt
  · have := compReps_merge (n := n) (G := e :: F) (fun x y => conn_cons) hcu hminu hcv hminv hlt
    rw [this]
    exact Set.ncard_diff_singleton_add_one ⟨by omega, hminv⟩ (compReps_finite n F)
  · have hc : ∀ x y, Conn (e :: F) x y ↔
        (Conn F x y ∨ (Conn F x e.v ∧ Conn F e.u y) ∨ (Conn F x e.u ∧ Conn F e.v y)) := by
      intro x y
      rw [conn_cons]
      tauto
    have := compReps_merge (n := n) (G := e :: F) hc hcv hminv hcu hminu hlt
    rw [this]
    exact Set.ncard_diff_singleton_add_one ⟨by omega, hminu⟩ (compReps_finite n F)

/-- An edge inside one component leaves the number of components alone. -/
theorem ncard_compReps_cons_of_conn {n : Nat} {F : List (Edge W)} {e : Edge W}
    (h : Conn F e.u e.v) : (compReps n (e :: F)).ncard = (compReps n F).ncard := by
  apply Nat.le_antisymm
  · exact ncard_compReps_anti (fun x y hc => hc.mono (fun _ hx => List.mem_cons_of_mem _ hx))
  · exact ncard_compReps_anti (fun x y hc => (conn_cons_of_conn h).mp hc)

/-- Any edge list has at least `n - (number of components)` edges. -/
theorem le_length_add_ncard_compReps {n : Nat} (F : List (Edge W)) (hF : InRange n F) :
    n ≤ F.length + (compReps n F).ncard := by
  induction F with
  | nil => simp [ncard_compReps_nil]
  | cons e F ih =>
    have ih2 := ih (fun x hx => hF x (List.mem_cons_of_mem _ hx))
    have he := hF e (List.mem_cons_self _ _)
    by_cases h : Conn F e.u e.v
    · rw [ncard_compReps_cons_of_conn h]
      simp only [List.length_cons]; omega
    · have := ncard_compReps_cons_of_not_conn (n := n) he.1 he.2 h
      simp only [List.length_cons]; omega

theorem isForest_nil : IsForest ([] : List (Edge W)) := by
  intro i h
  simp at h

/-- A list is acyclic iff its tail is and its head joins two components of
the tail. -/
theorem isForest_cons {F : List (Edge W)} {e : Edge W} :
    IsForest (e :: F) ↔ (IsForest F ∧ ¬ Conn F e.u e.v) := by
  constructor
  · intro h
    refine ⟨fun i hi hc => ?_, ?_⟩
    · have := h (i + 1) (by simpa using hi)
      simp only [List.eraseIdx_cons_succ, List.get_eq_getElem, List.getElem_cons_succ] at this
      exact this (hc.mono (fun x hx => List.mem_cons_of_mem _ hx))
    · have := h 0 (by simp)
      simpa using this
  · rintro ⟨hF, he⟩ i hi
    cases i with
    | zero => simpa using he
    | succ i =>
      have hi2 : i < F.length := by simpa using hi
      simp only [List.eraseIdx_cons_succ, List.get_eq_getElem, List.getElem_cons_succ]
      intro hc
      have hFi := hF i hi2
      simp only [List.get_eq_getElem] at hFi
      have hmem : F[i] ∈ F := List.getElem_mem hi2
      have hsub : ∀ x, x ∈ F.eraseIdx i → x ∈ F := fun x hx => (List.eraseIdx_subset F i) hx
      have hedge : Conn F (F[i]).u (F[i]).v := Conn.of_edge hmem
      rcases conn_cons.mp hc with h | ⟨h1, h2⟩ | ⟨h1, h2⟩
      · exact hFi h
      · exact he (((h1.mono hsub).symm.trans hedge).trans (h2.mono hsub).symm)
      · exact he (((h2.mono hsub).trans hedge.symm).trans (h1.mono hsub))

theorem IsForest.of_sublist {F T : List (Edge W)} (hF : IsForest F) (h : T.Sublist F) :
    IsForest T := by
  induction h with
  | slnil => exact isForest_nil
  | cons a _ ih => exact ih (isForest_cons.mp hF).1
  | cons₂ a hs ih =>
    have := isForest_cons.mp hF
    exact isForest_cons.mpr ⟨ih this.1, fun hc => this.2 (hc.mono (fun x hx => hs.subset hx))⟩

/-- Joined pairs depend only on which edges occur, not on their order or
multiplicity. -/
theorem conn_congr {F G : List (Edge W)} (h : ∀ e, e ∈ F ↔ e ∈ G) (a b : Nat) :
    Conn F a b ↔ Conn G a b :=
  ⟨fun hc => hc.mono (fun e he => (h e).mp he), fun hc => hc.mono (fun e he => (h e).mpr he)⟩

/-- Appending an edge that joins two components keeps the list acyclic. -/
theorem IsForest.append_single {F : List (Edge W)} {e : Edge W} (hF : IsForest F)
    (he : ¬ Conn F e.u e.v) : IsForest (F ++ [e]) := by
  intro i hi hc
  have hi2 : i < F.length + 1 := by simpa using hi
  by_cases hlt : i < F.length
  · rw [List.eraseIdx_append_of_lt_length hlt] at hc
    simp only [List.get_eq_getElem, List.getElem_append_left hlt] at hc
    have hFi := hF i hlt
    simp only [List.get_eq_getElem] at hFi
    have hc2 : Conn (e :: F.eraseIdx i) (F[i]).u (F[i]).v :=
      (conn_congr (fun x => by simp [or_comm]) _ _).mp hc
    have hmem : F[i] ∈ F := List.getElem_mem hlt
    have hsub : ∀ x, x ∈ F.eraseIdx i → x ∈ F := fun x hx => (List.eraseIdx_subset F i) hx
    have hedge : Conn F (F[i]).u (F[i]).v := Conn.of_edge hmem
    rcases conn_cons.mp hc2 with h | ⟨h1, h2⟩ | ⟨h1, h2⟩
    · exact hFi h
    · exact he (((h1.mono hsub).symm.trans hedge).trans (h2.mono hsub).symm)
    · exact he (((h2.mono hsub).trans hedge.symm).trans (h1.mono hsub))
  · have hieq : i = F.length := by omega
    subst hieq
    rw [List.eraseIdx_append_of_length_le (le_refl _)] at hc
    simp only [Nat.sub_self, List.eraseIdx_cons_zero, List.append_nil, List.get_eq_getElem,
      List.getElem_concat_length] at hc
    exact he hc

/-- A forest on `n` vertices with `k` edges has `n - k` components. -/
theorem IsForest.length_add_ncard {n : Nat} {F : List (Edge W)} (hF : IsForest F)
    (hr : InRange n F) : F.length + (compReps n F).ncard = n := by
  induction F with
  | nil => simp [ncard_compReps_nil]
  | cons e F ih =>
    have h := isForest_cons.mp hF
    have ih2 := ih h.1 (fun x hx => hr x (List.mem_cons_of_mem _ hx))
    have he := hr e (List.mem_cons_self _ _)
    have := ncard_compReps_cons_of_not_conn (n := n) he.1 he.2 h.2
    simp only [List.length_cons]; omega

/-- A connected graph on `n ≥ 1` vertices has one component. -/
theorem ncard_compReps_of_connected {n : Nat} {F : List (Edge W)} (hn : 0 < n)
    (hc : Connected n F) : (compReps n F).ncard = 1 := by
  have : compReps n F = {0} := by
    ext x
    simp only [compReps, Set.mem_setOf_eq, Set.mem_singleton_iff]
    constructor
    · rintro ⟨hx, hmin⟩
      by_contra h0
      exact hmin 0 (by omega) (hc 0 x hn hx)
    · rintro rfl
      exact ⟨hn, fun y hy => by omega⟩
  rw [this, Set.ncard_singleton]

/-- One component means connected. -/
theorem connected_of_ncard_compReps {n : Nat} {F : List (Edge W)}
    (h : (compReps n F).ncard ≤ 1) : Connected n F := by
  have key : ∀ x, x < n → ∃ m, m ∈ compReps n F ∧ Conn F m x := by
    intro x hx
    obtain ⟨m, hle, hc, hmin⟩ := exists_rep F x
    exact ⟨m, ⟨by omega, hmin⟩, hc⟩
  intro x y hx hy
  obtain ⟨mx, hmx, hcx⟩ := key x hx
  obtain ⟨my, hmy, hcy⟩ := key y hy
  have : mx = my := by
    by_contra hne
    have h2 : ({mx, my} : Set Nat) ⊆ compReps n F := by
      intro z hz
      rcases hz with rfl | rfl
      · exact hmx
      · exact hmy
    have h3 := Set.ncard_le_ncard h2 (compReps_finite n F)
    rw [Set.ncard_pair hne] at h3
    omega
  subst this
  exact hcx.symm.trans hcy

/-! ## Theorems: the Kruskal loop -/

theorem Greedy.accepted_sublist {K es D : List (Edge W)} (h : Greedy K es D) : D.Sublist es := by
  induction h with
  | nil _ => exact List.Sublist.slnil
  | skip _ _ ih => exact List.Sublist.cons _ ih
  | take _ _ ih => exact List.Sublist.cons₂ _ ih

theorem Greedy.isForest {K es D : List (Edge W)} (h : Greedy K es D) (hK : IsForest K) :
    IsForest (K ++ D) := by
  induction h with
  | nil _ => simpa using hK
  | skip _ _ ih => exact ih hK
  | @take K es D e hc _ ih =>
    have := ih (hK.append_single hc)
    simpa using this

/-- The accepted edges join whatever the scanned edges join. -/
theorem Greedy.conn {K es D : List (Edge W)} (h : Greedy K es D) {x y : Nat}
    (hc : Conn (K ++ es) x y) : Conn (K ++ D) x y := by
  induction h with
  | nil _ => exact hc
  | @skip K es D e he _ ih =>
    apply ih
    refine Conn.of_edges (fun a ha => ?_) hc
    rcases List.mem_append.mp ha with h1 | h1
    · exact Conn.of_edge (List.mem_append_left _ h1)
    · rcases List.mem_cons.mp h1 with rfl | h2
      · exact he.mono (fun _ hx => List.mem_append_left _ hx)
      · exact Conn.of_edge (List.mem_append_right _ h2)
  | @take K es D e he _ ih =>
    have := ih (by simpa using hc)
    simpa using this

/-- At every weight threshold, the accepted edges below the threshold join
whatever the scanned edges below the threshold join (for a weight-sorted
scan). -/
theorem Greedy.conn_threshold [LinearOrder W] {K es D : List (Edge W)} (h : Greedy K es D)
    (hs : es.Pairwise (fun a b => a.w ≤ b.w)) (w0 : W) {x y : Nat}
    (hc : Conn (K ++ es.filter (fun e => decide (e.w ≤ w0))) x y) :
    Conn (K ++ D.filter (fun e => decide (e.w ≤ w0))) x y := by
  induction h with
  | nil _ => exact hc
  | @skip K es D e he _ ih =>
    apply ih (List.Pairwise.of_cons hs)
    refine Conn.of_edges (fun a ha => ?_) hc
    rcases List.mem_append.mp ha with h1 | h1
    · exact Conn.of_edge (List.mem_append_left _ h1)
    · rcases List.mem_filter.mp h1 with ⟨h2, h3⟩
      rcases List.mem_cons.mp h2 with rfl | h4
      · exact he.mono (fun _ hx => List.mem_append_left _ hx)
      · exact Conn.of_edge (List.mem_append_right _ (List.mem_filter.mpr ⟨h4, h3⟩))
  | @take K es D e he _ ih =>
    by_cases hw : e.w ≤ w0
    · have h1 : (e :: es).filter (fun e => decide (e.w ≤ w0)) =
          e :: es.filter (fun e => decide (e.w ≤ w0)) := by simp [List.filter_cons, hw]
      have h2 : (e :: D).filter (fun e => decide (e.w ≤ w0)) =
          e :: D.filter (fun e => decide (e.w ≤ w0)) := by simp [List.filter_cons, hw]
      rw [h1] at hc
      rw [h2]
      have := ih (List.Pairwise.of_cons hs) (by simpa using hc)
      simpa using this
    · have h1 : (e :: es).filter (fun e => decide (e.w ≤ w0)) = [] := by
        rw [List.filter_eq_nil_iff]
        intro a ha
        rcases List.mem_cons.mp ha with rfl | h2
        · simpa using hw
        · have := List.rel_of_pairwise_cons hs h2
          simp only [decide_eq_true_eq, not_le] at hw ⊢
          exact lt_of_lt_of_le hw this
      rw [h1] at hc
      exact hc.mono (fun a ha => by
        simp only [List.append_nil] at ha
        exact List.mem_append_left _ ha)

theorem weight_nil [AddMonoid W] : weight ([] : List (Edge W)) = 0 := rfl

theorem weight_cons [AddMonoid W] (e : Edge W) (F : List (Edge W)) :
    weight (e :: F) = e.w + weight F := by
  simp [weight]

theorem weight_append [AddMonoid W] (F G : List (Edge W)) :
    weight (F ++ G) = weight F + weight G := by
  simp [weight]

theorem KInv.new (n : Nat) : KInv n (DSU.new n) ([] : List (Edge W)) := by
  refine ⟨DSU.new_wf n, fun e he => by simp at he, fun x y hx hy => ?_⟩
  constructor
  · rintro ⟨r, h1, h2⟩
    rw [DSU.new_root] at h1 h2
    rw [← h1.2, ← h2.2]
    exact Conn.refl _ _
  · intro h
    have := Conn.nil h
    subst this
    exact ⟨x, (DSU.new_root n).mpr ⟨hx, rfl⟩, (DSU.new_root n).mpr ⟨hx, rfl⟩⟩

/-- The loop of `kruskal_mst` returns, and returns the greedy selection with
its weight added to the running total. -/
theorem kruskalLoop_spec [AddMonoid W] {n : Nat} : ∀ (es : List (Edge W)) (d : DSU)
    (res : MstResult W), KInv n d res.edges → InRange n es →
    ∃ D, kruskalLoop d res es =
        some { edges := res.edges ++ D, total_cost := res.total_cost + weight D } ∧
      Greedy res.edges es D := by
  intro es
  induction es with
  | nil =>
    intro d res _ _
    exact ⟨[], by simp [kruskalLoop, weight_nil], Greedy.nil _⟩
  | cons e es ih =>
    intro d res hinv hr
    obtain ⟨wf, hK, hsame⟩ := hinv
    have he := hr e (List.mem_cons_self _ _)
    have hr2 : InRange n es := fun x hx => hr x (List.mem_cons_of_mem _ hx)
    obtain ⟨ok, d1, hu, wf1, hok, hmerge⟩ := DSU.unite_spec wf he.1 he.2
    have hsameK : ∀ x y, x < n → y < n →
        (d1.Same x y ↔ Conn (e :: res.edges) x y) := by
      intro x y hx hy
      rw [hmerge, conn_cons, hsame x y hx hy, hsame x e.u hx he.1, hsame e.v y he.2 hy,
        hsame x e.v hx he.2, hsame e.u y he.1 hy]
    cases ok with
    | false =>
      have hc : Conn res.edges e.u e.v := (hsame _ _ he.1 he.2).mp (hok.mp rfl)
      have hinv1 : KInv n d1 res.edges :=
        ⟨wf1, hK, fun x y hx hy => (hsameK x y hx hy).trans (conn_cons_of_conn hc)⟩
      obtain ⟨D, hD, hg⟩ := ih d1 res hinv1 hr2
      refine ⟨D, ?_, Greedy.skip hc hg⟩
      simp only [kruskalLoop, hu]
      exact hD
    | true =>
      have hc : ¬ Conn res.edges e.u e.v := by
        intro hc
        have := hok.mpr ((hsame _ _ he.1 he.2).mpr hc)
        simp at this
      have hinv1 : KInv n d1 (res.edges ++ [e]) := by
        refine ⟨wf1, ?_, fun x y hx hy => ?_⟩
        · intro a ha
          rcases List.mem_append.mp ha with h1 | h1
          · exact hK a h1
          · simp only [List.mem_singleton] at h1
            subst h1
            exact he
        · rw [hsameK x y hx hy]
          exact conn_congr (fun a => by simp [or_comm]) x y
      obtain ⟨D, hD, hg⟩ := ih d1
        { edges := res.edges ++ [e], total_cost := res.total_cost + e.w } hinv1 hr2
      refine ⟨e :: D, ?_, Greedy.take hc hg⟩
      simp only [kruskalLoop, hu]
      rw [hD]
      simp [weight_cons, add_assoc]

theorem exists_min_mem [LinearOrder W] : ∀ (B : List W), B ≠ [] → ∃ b, b ∈ B ∧ ∀ x, x ∈ B → b ≤ x
  | [], h => absurd rfl h
  | [a], _ => ⟨a, List.mem_singleton_self a, fun x hx => by
      rw [List.mem_singleton] at hx; exact le_of_eq hx.symm⟩
  | a :: c :: B, _ => by
    obtain ⟨b, hb, hmin⟩ := exists_min_mem (c :: B) (by simp)
    by_cases hab : a ≤ b
    · refine ⟨a, List.mem_cons_self _ _, fun x hx => ?_⟩
      rcases List.mem_cons.mp hx with rfl | h
      · exact le_refl _
      · exact le_trans hab (hmin x h)
    · refine ⟨b, List.mem_cons_of_mem _ hb, fun x hx => ?_⟩
      rcases List.mem_cons.mp hx with rfl | h
      · exact le_of_lt (not_le.mp hab)
      · exact hmin x h

/-- If `A` is sorted, has as many elements as `B`, and below every threshold
has at least as many elements as `B`, then its sum is at most that of `B`. -/
theorem sum_le_sum_of_dominates [LinearOrderedAddCommGroup W] : ∀ (A B : List W),
    A.Pairwise (fun a b => a ≤ b) → A.length = B.length →
    (∀ w, B.countP (fun x => decide (x ≤ w)) ≤ A.countP (fun x => decide (x ≤ w))) →
    A.sum ≤ B.sum
  | [], B, _, hl, _ => by
    have : B = [] := List.length_eq_zero.mp hl.symm
    subst this
    exact le_refl _
  | a :: A, B, hs, hl, hdom => by
    have hBne : B ≠ [] := by
      intro h
      subst h
      simp at hl
    obtain ⟨b, hb, hmin⟩ := exists_min_mem B hBne
    have hperm : B.Perm (b :: B.erase b) := List.perm_cons_erase hb
    have hab : a ≤ b := by
      have h1 : 0 < B.countP (fun x => decide (x ≤ b)) :=
        List.countP_pos_iff.mpr ⟨b, hb, by simp⟩
      have h2 := hdom b
      obtain ⟨a1, ha1, hle⟩ := List.countP_pos_iff.mp (lt_of_lt_of_le h1 h2)
      simp only [decide_eq_true_eq] at hle
      rcases List.mem_cons.mp ha1 with rfl | h3
      · exact hle
      · exact le_trans (List.rel_of_pairwise_cons hs h3) hle
    have hdom2 : ∀ w, (B.erase b).countP (fun x => decide (x ≤ w)) ≤
        A.countP (fun x => decide (x ≤ w)) := by
      intro w
      have h1 := hdom w
      rw [hperm.countP_eq, List.countP_cons, List.countP_cons] at h1
      by_cases hbw : b ≤ w
      · have haw : a ≤ w := le_trans hab hbw
        simp only [hbw, haw, decide_True, if_true] at h1
        omega
      · have : (B.erase b).countP (fun x => decide (x ≤ w)) = 0 := by
          rw [List.countP_eq_zero]
          intro x hx
          simp only [decide_eq_true_eq]
          intro hxw
          exact hbw (le_trans (hmin x (List.mem_of_mem_erase hx)) hxw)
        omega
    have hl2 : A.length = (B.erase b).length := by
      rw [List.length_erase_of_mem hb]
      simp only [List.length_cons] at hl
      omega
    have ih := sum_le_sum_of_dominates A (B.erase b) (List.Pairwise.of_cons hs) hl2 hdom2
    rw [hperm.sum_eq, List.sum_cons, List.sum_cons]
    exact add_le_add hab ih

theorem sortByWeight_sorts [LinearOrder W] : SortsByWeight (sortByWeight (W := W)) := by
  intro l
  haveI : IsTotal (Edge W) (fun a b => a.w ≤ b.w) := ⟨fun a b => le_total a.w b.w⟩
  haveI : IsTrans (Edge W) (fun a b => a.w ≤ b.w) := ⟨fun a b c h1 h2 => le_trans h1 h2⟩
  exact ⟨List.perm_insertionSort _ l, List.sorted_insertionSort _ l⟩

theorem InRange.of_subset {n : Nat} {F G : List (Edge W)} (hG : InRange n G)
    (h : ∀ e, e ∈ F → e ∈ G) : InRange n F := fun e he => hG e (h e he)

/-- On in-range edges `kruskal_mst` returns the greedy selection over the
sorted edge list, with `total_cost` the sum of its weights. -/
theorem kruskal_mst_spec [LinearOrderedAddCommGroup W] {sort : List (Edge W) → List (Edge W)}
    (hsort : SortsByWeight sort) {n : Nat} {edges : List (Edge W)} (hr : InRange n edges) :
    ∃ D, kruskal_mst sort n edges = some { edges := D, total_cost := weight D } ∧
      Greedy [] (sort edges) D := by
  have hr2 : InRange n (sort edges) := hr.of_subset (fun e he => (hsort edges).1.subset he)
  obtain ⟨D, h1, h2⟩ := kruskalLoop_spec (sort edges) (DSU.new n)
    { edges := [], total_cost := 0 } (KInv.new n) hr2
  refine ⟨D, ?_, h2⟩
  unfold kruskal_mst
  rw [h1]
  simp

/-- Among weight-sorted scans, the greedy selection is at least as light as
any forest of the same size made of scanned edges. -/
theorem Greedy.weight_le [LinearOrderedAddCommGroup W] {n : Nat} {es D T : List (Edge W)}
    (hg : Greedy [] es D) (hs : es.Pairwise (fun a b => a.w ≤ b.w)) (hr : InRange n es)
    (hT : IsForest T) (hsub : ∀ e, e ∈ T → e ∈ es) (hlen : D.length = T.length) :
    weight D ≤ weight T := by
  unfold weight
  apply sum_le_sum_of_dominates
  · rw [List.pairwise_map]
    exact hs.sublist hg.accepted_sublist
  · simpa using hlen
  · intro w0
    rw [List.countP_map, List.countP_map, List.countP_eq_length_filter,
      List.countP_eq_length_filter]
    have hTw : IsForest (T.filter ((fun x => decide (x ≤ w0)) ∘ fun e => e.w)) :=
      hT.of_sublist (List.filter_sublist _)
    have hTr : InRange n (T.filter ((fun x => decide (x ≤ w0)) ∘ fun e => e.w)) :=
      hr.of_subset (fun e he => hsub e (List.mem_filter.mp he).1)
    have hDr : InRange n (D.filter ((fun x => decide (x ≤ w0)) ∘ fun e => e.w)) :=
      hr.of_subset (fun e he => hg.accepted_sublist.subset (List.mem_filter.mp he).1)
    have h1 := hTw.length_add_ncard hTr
    have h2 := le_length_add_ncard_compReps _ hDr
    have h3 : (compReps n (D.filter ((fun x => decide (x ≤ w0)) ∘ fun e => e.w))).ncard ≤
        (compReps n (T.filter ((fun x => decide (x ≤ w0)) ∘ fun e => e.w))).ncard := by
      apply ncard_compReps_anti
      intro x y hc
      refine Conn.of_edges (fun e he => ?_) hc
      have hmem := List.mem_filter.mp he
      have h4 : Conn ([] ++ es.filter (fun e => decide (e.w ≤ w0))) e.u e.v :=
        Conn.of_edge (by
          simp only [List.nil_append]
          exact List.mem_filter.mpr ⟨hsub e hmem.1, hmem.2⟩)
      have h5 := hg.conn_threshold hs w0 h4
      simpa using h5
    omega

/-! ## Theorems: Kruskal on connected and disconnected graphs -/

theorem connected_of_conn_zero {n : Nat} {F : List (Edge W)} (h : ∀ x, x < n → Conn F 0 x) :
    Connected n F :=
  fun x y hx hy => (h x hx).symm.trans (h y hy)

/-- The facts about `kruskal_mst` on a connected graph that the claims about
spanning trees share. -/
theorem kruskal_mst_connected [LinearOrderedAddCommGroup W]
    {sort : List (Edge W) → List (Edge W)} (hsort : SortsByWeight sort) {n : Nat}
    {edges : List (Edge W)} (hn : 1 ≤ n) (hr : InRange n edges) (hc : Connected n edges) :
    ∃ D, kruskal_mst sort n edges = some { edges := D, total_cost := weight D } ∧
      Greedy [] (sort edges) D ∧ D.length = n - 1 ∧ IsForest D ∧ Connected n D := by
  obtain ⟨D, hk, hg⟩ := kruskal_mst_spec hsort hr
  have hperm := (hsort edges).1
  have hF : IsForest D := by simpa using hg.isForest isForest_nil
  have hDr : InRange n D :=
    hr.of_subset (fun e he => hperm.subset (hg.accepted_sublist.subset he))
  have hcD : Connected n D := by
    intro x y hx hy
    have h1 : Conn ([] ++ sort edges) x y :=
      (hc x y hx hy).mono (fun e he => by simpa using hperm.symm.subset he)
    simpa using hg.conn h1
  have h1 := hF.length_add_ncard hDr
  have h2 := ncard_compReps_of_connected (by omega) hcD
  exact ⟨D, hk, hg, by omega, hF, hcD⟩

/-- C1. For `n ≥ 1` and a connected graph with endpoints in `[0, n)`,
`kruskal_mst` returns, its `total_cost` is the weight of a spanning tree made
of input edges (the returned one), and no spanning tree made of input edges
weighs less. -/
theorem kruskal_mst_total_cost_minimal [LinearOrderedAddCommGroup W]
    (sort : List (Edge W) → List (Edge W)) (hsort : SortsByWeight sort) (n : Nat)
    (edges : List (Edge W)) (hn : 1 ≤ n) (hr : InRange n edges) (hc : Connected n edges) :
    ∃ res, kruskal_mst sort n edges = some res ∧
      (∃ S, (∀ e, e ∈ S → e ∈ edges) ∧ IsSpanningTree n S ∧ weight S = res.total_cost) ∧
      ∀ T, (∀ e, e ∈ T → e ∈ edges) → IsSpanningTree n T → res.total_cost ≤ weight T := by
  obtain ⟨D, hk, hg, hlen, hF, hcD⟩ := kruskal_mst_connected hsort hn hr hc
  have hperm := (hsort edges).1
  refine ⟨_, hk, ⟨D, fun e he => hperm.subset (hg.accepted_sublist.subset he), ⟨hF, hcD⟩, rfl⟩, ?_⟩
  intro T hT hST
  have hTr : InRange n T := hr.of_subset hT
  have h1 := hST.1.length_add_ncard hTr
  have h2 := ncard_compReps_of_connected (by omega) hST.2
  exact hg.weight_le (hsort edges).2 (hr.of_subset (fun e he => hperm.subset he)) hST.1
    (fun e he => hperm.symm.subset (hT e he)) (by omega)

/-- Instance: the triangle on three vertices with weights 3, 1 and 2. -/
theorem kruskal_mst_total_cost_minimal_witness :
    ∃ res, kruskal_mst sortByWeight 3
        [⟨(3 : Int), 0, 1⟩, ⟨1, 1, 2⟩, ⟨2, 0, 2⟩] = some res ∧
      (∃ S, (∀ e, e ∈ S → e ∈ [(⟨(3 : Int), 0, 1⟩ : Edge Int), ⟨1, 1, 2⟩, ⟨2, 0, 2⟩]) ∧
        IsSpanningTree 3 S ∧ weight S = res.total_cost) ∧
      ∀ T, (∀ e, e ∈ T → e ∈ [(⟨(3 : Int), 0, 1⟩ : Edge Int), ⟨1, 1, 2⟩, ⟨2, 0, 2⟩]) →
        IsSpanningTree 3 T → res.total_cost ≤ weight T :=
  kruskal_mst_total_cost_minimal sortByWeight sortByWeight_sorts 3
    [⟨(3 : Int), 0, 1⟩, ⟨1, 1, 2⟩, ⟨2, 0, 2⟩] (by decide)
    (by
      intro e he
      simp only [List.mem_cons, List.mem_singleton, List.not_mem_nil, or_false] at he
      rcases he with rfl | rfl | rfl <;> decide)
    (connected_of_conn_zero (by
      intro x hx
      have h01 : Conn [(⟨(3 : Int), 0, 1⟩ : Edge Int), ⟨1, 1, 2⟩, ⟨2, 0, 2⟩] 0 1 :=
        Conn.of_edge (e := ⟨3, 0, 1⟩) (by simp)
      have h02 : Conn [(⟨(3 : Int), 0, 1⟩ : Edge Int), ⟨1, 1, 2⟩, ⟨2, 0, 2⟩] 0 2 :=
        Conn.of_edge (e := ⟨2, 0, 2⟩) (by simp)
      interval_cases x
      · exact Conn.refl _ _
      · exact h01
      · exact h02))

/-- C2. For `n ≥ 1` and a connected graph with endpoints in `[0, n)`,
`kruskal_mst` returns exactly `n - 1` edges, taken from the input (each no
more often than it occurs there), acyclic and connecting all `n` vertices. -/
theorem kruskal_mst_spanning_tree [LinearOrderedAddCommGroup W]
    (sort : List (Edge W) → List (Edge W)) (hsort : SortsByWeight sort) (n : Nat)
    (edges : List (Edge W)) (hn : 1 ≤ n) (hr : InRange n edges) (hc : Connected n edges) :
    ∃ res, kruskal_mst sort n edges = some res ∧ res.edges.length = n - 1 ∧
      res.edges.Subperm edges ∧ IsForest res.edges ∧ Connected n res.edges := by
  obtain ⟨D, hk, hg, hlen, hF, hcD⟩ := kruskal_mst_connected hsort hn hr hc
  exact ⟨_, hk, hlen, hg.accepted_sublist.subperm.trans (hsort edges).1.subperm, hF, hcD⟩

/-- Instance: four vertices, a cycle, two edges of equal weight and a self-loop. -/
theorem kruskal_mst_spanning_tree_witness :
    ∃ res, kruskal_mst sortByWeight 4
        [⟨(5 : Int), 0, 1⟩, ⟨1, 1, 2⟩, ⟨2, 0, 2⟩, ⟨2, 2, 3⟩, ⟨0, 3, 3⟩] = some res ∧
      res.edges.length = 4 - 1 ∧
      res.edges.Subperm [⟨(5 : Int), 0, 1⟩, ⟨1, 1, 2⟩, ⟨2, 0, 2⟩, ⟨2, 2, 3⟩, ⟨0, 3, 3⟩] ∧
      IsForest res.edges ∧ Connected 4 res.edges :=
  kruskal_mst_spanning_tree sortByWeight sortByWeight_sorts 4
    [⟨(5 : Int), 0, 1⟩, ⟨1, 1, 2⟩, ⟨2, 0, 2⟩, ⟨2, 2, 3⟩, ⟨0, 3, 3⟩] (by decide)
    (by
      intro e he
      simp only [List.mem_cons, List.mem_singleton, List.not_mem_nil, or_false] at he
      rcases he with rfl | rfl | rfl | rfl | rfl <;> decide)
    (connected_of_conn_zero (by
      intro x hx
      have h01 : Conn [(⟨(5 : Int), 0, 1⟩ : Edge Int), ⟨1, 1, 2⟩, ⟨2, 0, 2⟩, ⟨2, 2, 3⟩,
          ⟨0, 3, 3⟩] 0 1 := Conn.of_edge (e := ⟨5, 0, 1⟩) (by simp)
      have h02 : Conn [(⟨(5 : Int), 0, 1⟩ : Edge Int), ⟨1, 1, 2⟩, ⟨2, 0, 2⟩, ⟨2, 2, 3⟩,
          ⟨0, 3, 3⟩] 0 2 := Conn.of_edge (e := ⟨2, 0, 2⟩) (by simp)
      have h23 : Conn [(⟨(5 : Int), 0, 1⟩ : Edge Int), ⟨1, 1, 2⟩, ⟨2, 0, 2⟩, ⟨2, 2, 3⟩,
          ⟨0, 3, 3⟩] 2 3 := Conn.of_edge (e := ⟨2, 2, 3⟩) (by simp)
      interval_cases x
      · exact Conn.refl _ _
      · exact h01
      · exact h02
      · exact h02.trans h23))

/-- The accepted edges of `kruskal_mst` form a forest with the same joined
pairs as the input, whatever the input. -/
theorem kruskal_mst_forest [LinearOrderedAddCommGroup W]
    {sort : List (Edge W) → List (Edge W)} (hsort : SortsByWeight sort) {n : Nat}
    {edges : List (Edge W)} (hr : InRange n edges) :
    ∃ D, kruskal_mst sort n edges = some { edges := D, total_cost := weight D } ∧
      D.Sublist (sort edges) ∧ IsForest D ∧ InRange n D ∧
      (∀ x y, Conn D x y ↔ Conn edges x y) ∧
      D.length + (compReps n edges).ncard = n := by
  obtain ⟨D, hk, hg⟩ := kruskal_mst_spec hsort hr
  have hperm := (hsort edges).1
  have hF : IsForest D := by simpa using hg.isForest isForest_nil
  have hsub : ∀ e, e ∈ D → e ∈ edges := fun e he => hperm.subset (hg.accepted_sublist.subset he)
  have hDr : InRange n D := hr.of_subset hsub
  have hconn : ∀ x y, Conn D x y ↔ Conn edges x y := by
    intro x y
    constructor
    · exact fun h => h.mono hsub
    · intro h
      have h1 : Conn ([] ++ sort edges) x y :=
        h.mono (fun e he => by simpa using hperm.symm.subset he)
      simpa using hg.conn h1
  have h1 := hF.length_add_ncard hDr
  have h2 : (compReps n D).ncard = (compReps n edges).ncard :=
    Nat.le_antisymm (ncard_compReps_anti (fun x y h => (hconn x y).mpr h))
      (ncard_compReps_anti (fun x y h => (hconn x y).mp h))
  exact ⟨D, hk, hg.accepted_sublist, hF, hDr, hconn, by omega⟩

/-- C10. If the `n = p + q` vertices split into a set `A` of `p ≥ 1` vertices
and its complement of `q ≥ 1` vertices, each of them connected and no edge
between them, `kruskal_mst` returns (no error) exactly `(p - 1) + (q - 1)`
edges. -/
theorem kruskal_mst_two_components [LinearOrderedAddCommGroup W]
    (sort : List (Edge W) → List (Edge W)) (hsort : SortsByWeight sort) (n p q : Nat)
    (edges : List (Edge W)) (A : Finset Nat) (hp : 1 ≤ p) (hq : 1 ≤ q) (hn : n = p + q)
    (hr : InRange n edges) (hA : ∀ x, x ∈ A → x < n) (hcard : A.card = p)
    (hcA : ∀ x y, x ∈ A → y ∈ A → Conn edges x y)
    (hcB : ∀ x y, x < n → y < n → x ∉ A → y ∉ A → Conn edges x y)
    (hsep : ∀ e, e ∈ edges → (e.u ∈ A ↔ e.v ∈ A)) :
    ∃ res, kruskal_mst sort n edges = some res ∧ res.edges.length = (p - 1) + (q - 1) := by
  obtain ⟨D, hk, _, _, _, _, hcount⟩ := kruskal_mst_forest hsort hr
  refine ⟨_, hk, ?_⟩
  show D.length = (p - 1) + (q - 1)
  have hside : ∀ x y, Conn edges x y → (x ∈ A ↔ y ∈ A) := by
    intro x y h
    induction h with
    | refl => exact Iff.rfl
    | tail _ hbc ih =>
      obtain ⟨e, he, ⟨h1, h2⟩ | ⟨h1, h2⟩⟩ := hbc
      · subst h1; subst h2; exact ih.trans (hsep e he)
      · subst h1; subst h2; exact ih.trans (hsep e he).symm
  -- a vertex of `A` and a vertex outside `A`
  obtain ⟨a, ha⟩ : ∃ a, a ∈ A := by
    apply Finset.card_pos.mp
    omega
  obtain ⟨b, hbn, hb⟩ : ∃ b, b < n ∧ b ∉ A := by
    by_contra hall
    push_neg at hall
    have : Finset.range n ⊆ A := fun x hx => hall x (Finset.mem_range.mp hx)
    have := Finset.card_le_card this
    simp only [Finset.card_range] at this
    omega
  obtain ⟨ma, hale, hca, hmina⟩ := exists_rep edges a
  obtain ⟨mb, hble, hcb, hminb⟩ := exists_rep edges b
  have hmaA : ma ∈ A := (hside ma a hca).mpr ha
  have hmbA : mb ∉ A := fun h => hb ((hside mb b hcb).mp h)
  have hne : ma ≠ mb := fun e => hmbA (e ▸ hmaA)
  have hreps : compReps n edges = {ma, mb} := by
    ext x
    simp only [compReps, Set.mem_setOf_eq, Set.mem_insert_iff, Set.mem_singleton_iff]
    constructor
    · rintro ⟨hx, hmin⟩
      by_cases hxA : x ∈ A
      · exact Or.inl (rep_unique hmin hmina (hcA x ma hxA hmaA))
      · exact Or.inr (rep_unique hmin hminb (hcB x mb hx (by omega) hxA hmbA))
    · rintro (rfl | rfl)
      · exact ⟨hA _ hmaA, hmina⟩
      · exact ⟨by omega, hminb⟩
  rw [hreps, Set.ncard_pair hne] at hcount
  omega

/-- Instance: the components `{0, 1}` and `{2, 3, 4}`, the second with a cycle. -/
theorem kruskal_mst_two_components_witness :
    ∃ res, kruskal_mst sortByWeight 5
        [⟨(4 : Int), 0, 1⟩, ⟨7, 2, 3⟩, ⟨1, 3, 4⟩, ⟨2, 4, 2⟩] = some res ∧
      res.edges.length = (2 - 1) + (3 - 1) :=
  kruskal_mst_two_components sortByWeight sortByWeight_sorts 5 2 3
    [⟨(4 : Int), 0, 1⟩, ⟨7, 2, 3⟩, ⟨1, 3, 4⟩, ⟨2, 4, 2⟩] {0, 1}
    (by decide) (by decide) (by decide)
    (by
      intro e he
      simp only [List.mem_cons, List.mem_singleton, List.not_mem_nil, or_false] at he
      rcases he with rfl | rfl | rfl | rfl <;> decide)
    (by decide) (by decide)
    (by
      have h01 : Conn [(⟨(4 : Int), 0, 1⟩ : Edge Int), ⟨7, 2, 3⟩, ⟨1, 3, 4⟩, ⟨2, 4, 2⟩] 0 1 :=
        Conn.of_edge (e := ⟨4, 0, 1⟩) (by simp)
      intro x y hx hy
      simp only [Finset.mem_insert, Finset.mem_singleton] at hx hy
      rcases hx with rfl | rfl <;> rcases hy with rfl | rfl
      · exact Conn.refl _ _
      · exact h01
      · exact h01.symm
      · exact Conn.refl _ _)
    (by
      have h23 : Conn [(⟨(4 : Int), 0, 1⟩ : Edge Int), ⟨7, 2, 3⟩, ⟨1, 3, 4⟩, ⟨2, 4, 2⟩] 2 3 :=
        Conn.of_edge (e := ⟨7, 2, 3⟩) (by simp)
      have h34 : Conn [(⟨(4 : Int), 0, 1⟩ : Edge Int), ⟨7, 2, 3⟩, ⟨1, 3, 4⟩, ⟨2, 4, 2⟩] 3 4 :=
        Conn.of_edge (e := ⟨1, 3, 4⟩) (by simp)
      have key : ∀ x, x < 5 → x ∉ ({0, 1} : Finset Nat) →
          Conn [(⟨(4 : Int), 0, 1⟩ : Edge Int), ⟨7, 2, 3⟩, ⟨1, 3, 4⟩, ⟨2, 4, 2⟩] 2 x := by
        intro x hx hxA
        interval_cases x
        · exact absurd (by decide) hxA
        · exact absurd (by decide) hxA
        · exact Conn.refl _ _
        · exact h23
        · exact h23.trans h34
      intro x y hx hy hxA hyA
      exact (key x hx hxA).symm.trans (key y hy hyA))
    (by
      intro e he
      simp only [List.mem_cons, List.mem_singleton, List.not_mem_nil, or_false] at he
      rcases he with rfl | rfl | rfl | rfl <;> decide)

/-! ## Theorems: the pruning loop -/

theorem pushAt_length (adj : List (List Nat)) (i y : Nat) : (pushAt adj i y).length = adj.length := by
  simp [pushAt]

theorem pushAt_getD (adj : List (List Nat)) (i y x : Nat) (hi : i < adj.length) :
    (pushAt adj i y).getD x [] = if x = i then adj.getD i [] ++ [y] else adj.getD x [] := by
  unfold pushAt
  simp only [List.getD_eq_getElem?_getD, List.getElem?_set]
  by_cases h : x = i
  · subst h; simp [hi]
  · have h2 : ¬ i = x := fun e => h e.symm
    simp [h, h2]

theorem adjFold_length (E : List (Edge W)) : ∀ (init : List (List Nat)),
    (E.foldl (fun adj e => pushAt (pushAt adj e.u e.v) e.v e.u) init).length = init.length := by
  induction E with
  | nil => intro init; rfl
  | cons e E ih =>
    intro init
    simp only [List.foldl_cons]
    rw [ih, pushAt_length, pushAt_length]

theorem adjFold_countP {n : Nat} (E : List (Edge W)) (hr : InRange n E) (x : Nat)
    (p : Nat → Bool) : ∀ (init : List (List Nat)), init.length = n →
    ((E.foldl (fun adj e => pushAt (pushAt adj e.u e.v) e.v e.u) init).getD x []).countP p =
      (init.getD x []).countP p + E.countP (fun e => decide (e.u = x) && p e.v) +
        E.countP (fun e => decide (e.v = x) && p e.u) := by
  induction E with
  | nil => intro init _; simp
  | cons e E ih =>
    intro init hlen
    have he := hr e (List.mem_cons_self _ _)
    have hr2 : InRange n E := fun a ha => hr a (List.mem_cons_of_mem _ ha)
    simp only [List.foldl_cons]
    rw [ih hr2 _ (by rw [pushAt_length, pushAt_length, hlen])]
    rw [pushAt_getD _ _ _ _ (by rw [pushAt_length, hlen]; exact he.2)]
    rw [pushAt_getD _ _ _ _ (by rw [hlen]; exact he.1)]
    rw [pushAt_getD _ _ _ _ (by rw [hlen]; exact he.1)]
    simp only [List.countP_cons]
    by_cases h1 : x = e.u <;> by_cases h2 : x = e.v
    · subst h1
      simp only [h2.symm, if_true, decide_True, Bool.true_and, List.countP_append,
        List.countP_singleton]
      omega
    · have h2b : ¬ e.v = x := fun e => h2 e.symm
      subst h1
      simp only [h2, h2b, if_true, if_false, decide_True, decide_False, Bool.true_and,
        Bool.false_and, List.countP_append, List.countP_singleton]
      simp only [Bool.false_eq_true, if_false]
      omega
    · have h1b : ¬ e.u = x := fun e => h1 e.symm
      subst h2
      simp only [h1, h1b, if_true, if_false, decide_True, decide_False, Bool.true_and,
        Bool.false_and, List.countP_append, List.countP_singleton]
      simp only [Bool.false_eq_true, if_false]
      omega
    · have h1b : ¬ e.u = x := fun e => h1 e.symm
      have h2b : ¬ e.v = x := fun e => h2 e.symm
      simp only [h1, h2, h1b, h2b, if_false, decide_False, Bool.false_and]
      simp only [Bool.false_eq_true, if_false]
      omega

theorem buildAdj_length (n : Nat) (E : List (Edge W)) : (buildAdj n E).length = n := by
  unfold buildAdj
  rw [adjFold_length]
  simp

/-- The adjacency list of `x` holds the other endpoint of every edge at `x`,
once for each end of the edge that is `x`. -/
theorem buildAdj_countP {n : Nat} {E : List (Edge W)} (hr : InRange n E) (x : Nat)
    (p : Nat → Bool) :
    ((buildAdj n E).getD x []).countP p =
      E.countP (fun e => decide (e.u = x) && p e.v) +
        E.countP (fun e => decide (e.v = x) && p e.u) := by
  unfold buildAdj
  rw [adjFold_countP E hr x p _ (by simp)]
  have : (List.replicate n ([] : List Nat)).getD x [] = [] := by
    simp only [List.getD_eq_getElem?_getD, List.getElem?_replicate]
    split <;> rfl
  rw [this]
  simp

theorem decrNeighbors_length (a : List Bool) (L : List Nat) : ∀ (deg : List Int),
    (decrNeighbors a deg L).length = deg.length := by
  induction L with
  | nil => intro deg; rfl
  | cons v L ih =>
    intro deg
    simp only [decrNeighbors, List.foldl_cons] at ih ⊢
    rw [ih]
    split <;> simp

theorem decrNeighbors_getD (a : List Bool) (L : List Nat) (x : Nat) : ∀ (deg : List Int),
    x < deg.length →
    (decrNeighbors a deg L).getD x 0 =
      deg.getD x 0 - (if a.getD x false = true then (L.count x : Int) else 0) := by
  induction L with
  | nil => intro deg _; simp [decrNeighbors]
  | cons v L ih =>
    intro deg hx
    simp only [decrNeighbors, List.foldl_cons] at ih ⊢
    by_cases hav : a.getD v false = true
    · simp only [hav, if_true]
      rw [ih _ (by simpa using hx)]
      simp only [List.getD_eq_getElem?_getD, List.getElem?_set]
      by_cases hvx : v = x
      · subst hvx
        simp only [if_true, hx, List.count_cons_self]
        simp only [← List.getD_eq_getElem?_getD, hav, if_true]
        simp only [List.getD_eq_getElem?_getD, Option.getD_some]
        push_cast
        omega
      · have : ¬ (v == x) = true := by simpa using hvx
        simp only [hvx, if_false, List.count_cons, this]
        simp
    · simp only [hav, Bool.false_eq_true, if_false]
      rw [ih _ hx]
      by_cases hvx : v = x
      · subst hvx
        simp only [hav, Bool.false_eq_true, if_false]
      · have : ¬ (v == x) = true := by simpa using hvx
        simp only [List.count_cons, this, if_false]
        simp

theorem count_true_set_false : ∀ (l : List Bool) (u : Nat), l.getD u false = true →
    (l.set u false).count true + 1 = l.count true
  | [], u, h => by simp at h
  | b :: l, 0, h => by
    simp only [List.getD_cons_zero] at h
    subst h
    simp
  | b :: l, u + 1, h => by
    simp only [List.getD_cons_succ] at h
    have ih := count_true_set_false l u h
    simp only [List.set_cons_succ, List.count_cons]
    omega

theorem countP_eq_one_unique {p : Nat → Bool} : ∀ (L : List Nat), L.countP p = 1 →
    ∀ a b, a ∈ L → b ∈ L → p a = true → p b = true → a = b
  | [], h, _, _, _, _, _, _ => by simp at h
  | c :: L, h, a, b, ha, hb, hpa, hpb => by
    rw [List.countP_cons] at h
    by_cases hpc : p c = true
    · simp only [hpc, if_true] at h
      have h0 : L.countP p = 0 := by omega
      rw [List.countP_eq_zero] at h0
      rcases List.mem_cons.mp ha with rfl | ha2
      · rcases List.mem_cons.mp hb with rfl | hb2
        · rfl
        · exact absurd hpb (h0 b hb2)
      · exact absurd hpa (h0 a ha2)
    · simp only [hpc, if_false, Bool.false_eq_true] at h
      have hac : a ∈ L := by
        rcases List.mem_cons.mp ha with rfl | ha2
        · exact absurd hpa hpc
        · exact ha2
      have hbc : b ∈ L := by
        rcases List.mem_cons.mp hb with rfl | hb2
        · exact absurd hpb hpc
        · exact hb2
      exact countP_eq_one_unique L (by omega) a b hac hbc hpa hpb

/-- Active entries lost when `u` is deactivated. -/
theorem countP_split_at {p q : Nat → Bool} {u : Nat} (hpu : p u = true)
    (hq : ∀ x, q x = (if x = u then false else p x)) : ∀ (L : List Nat),
    L.countP p = L.countP q + L.count u
  | [] => by simp
  | c :: L => by
    have ih := countP_split_at hpu hq L
    rw [List.countP_cons, List.countP_cons, List.count_cons, ih, hq c]
    by_cases hc : c = u
    · subst hc
      simp [hpu]
      omega
    · have : ¬ (c == u) = true := by simpa using hc
      simp only [hc, if_false, this, Bool.false_eq_true]
      omega

theorem mem_buildAdj {n : Nat} {E : List (Edge W)} (hr : InRange n E) {x c : Nat}
    (h : Adj E x c) : c ∈ (buildAdj n E).getD x [] := by
  have h1 := buildAdj_countP hr x (fun y => decide (y = c))
  have h2 : 0 < ((buildAdj n E).getD x []).countP (fun y => decide (y = c)) := by
    rw [h1]
    obtain ⟨e, he, ⟨hu, hv⟩ | ⟨hu, hv⟩⟩ := h
    · have : 0 < E.countP (fun e => decide (e.u = x) && decide (e.v = c)) :=
        List.countP_pos_iff.mpr ⟨e, he, by simp [hu, hv]⟩
      omega
    · have : 0 < E.countP (fun e => decide (e.v = x) && decide (e.u = c)) :=
        List.countP_pos_iff.mpr ⟨e, he, by simp [hu, hv]⟩
      omega
  obtain ⟨y, hy, hyc⟩ := List.countP_pos_iff.mp h2
  simp only [decide_eq_true_eq] at hyc
  exact hyc ▸ hy

theorem adj_of_mem_buildAdj {n : Nat} {E : List (Edge W)} (hr : InRange n E) {x c : Nat}
    (h : c ∈ (buildAdj n E).getD x []) : Adj E x c := by
  have h1 := buildAdj_countP hr x (fun y => decide (y = c))
  have h2 : 0 < ((buildAdj n E).getD x []).countP (fun y => decide (y = c)) :=
    List.countP_pos_iff.mpr ⟨c, h, by simp⟩
  rw [h1] at h2
  by_cases h3 : 0 < E.countP (fun e => decide (e.u = x) && decide (e.v = c))
  · obtain ⟨e, he, hh⟩ := List.countP_pos_iff.mp h3
    simp only [Bool.and_eq_true, decide_eq_true_eq] at hh
    exact ⟨e, he, Or.inl hh⟩
  · have h4 : 0 < E.countP (fun e => decide (e.v = x) && decide (e.u = c)) := by omega
    obtain ⟨e, he, hh⟩ := List.countP_pos_iff.mp h4
    simp only [Bool.and_eq_true, decide_eq_true_eq] at hh
    exact ⟨e, he, Or.inr ⟨hh.2, hh.1⟩⟩

/-- The adjacency lists are symmetric, with multiplicity. -/
theorem buildAdj_count_symm {n : Nat} {E : List (Edge W)} (hr : InRange n E) (x y : Nat) :
    ((buildAdj n E).getD x []).count y = ((buildAdj n E).getD y []).count x := by
  have h1 := buildAdj_countP hr x (fun z => z == y)
  have h2 := buildAdj_countP hr y (fun z => z == x)
  rw [List.count, List.count, h1, h2, Nat.add_comm]
  congr 1
  · apply List.countP_congr
    intro e _
    simp only [Bool.and_eq_true, decide_eq_true_eq, beq_iff_eq]
    tauto
  · apply List.countP_congr
    intro e _
    simp only [Bool.and_eq_true, decide_eq_true_eq, beq_iff_eq]
    tauto

theorem PruneState.lt_of_act {s : PruneState} {x : Nat} (h : s.act x = true) :
    x < s.active.length := by
  by_contra hx
  simp [PruneState.act, List.getD_eq_getElem?_getD, List.getElem?_eq_none (Nat.le_of_not_lt hx)] at h

theorem mem_keepActive {s : PruneState} {E : List (Edge W)} {e : Edge W} :
    e ∈ keepActive s E ↔ (e ∈ E ∧ s.act e.u = true ∧ s.act e.v = true) := by
  simp [keepActive, PruneState.act, List.mem_filter]

theorem removable_iff {T : Finset Nat} {s : PruneState} {u : Nat} :
    removable T s u = true ↔ (s.act u = true ∧ s.deg u = 1 ∧ u ∉ T) := by
  simp [removable, PruneState.act, PruneState.deg, and_assoc]

theorem pruneVisit_of_removable {adj : List (List Nat)} {T : Finset Nat} {s : PruneState}
    {b : Bool} {u : Nat} (h : removable T s u = true) :
    pruneVisit adj T (s, b) u =
      ({ degree := (decrNeighbors (s.active.set u false) s.degree (adj.getD u [])).set u 0,
         active := s.active.set u false }, true) := by
  simp [pruneVisit, h]

theorem pruneVisit_of_not_removable {adj : List (List Nat)} {T : Finset Nat} {s : PruneState}
    {b : Bool} {u : Nat} (h : removable T s u = false) :
    pruneVisit adj T (s, b) u = (s, b) := by
  simp [pruneVisit, h]

/-- Removing a removable vertex keeps the loop invariant and lowers the
number of active vertices by one. -/
theorem PInv.remove {n : Nat} {E : List (Edge W)} {T : Finset Nat} {s : PruneState}
    (hr : InRange n E) (inv : PInv n E T s) {u : Nat} (hrem : removable T s u = true) :
    PInv n E T
      { degree := (decrNeighbors (s.active.set u false) s.degree
          ((buildAdj n E).getD u [])).set u 0,
        active := s.active.set u false } ∧
    (s.active.set u false).count true + 1 = s.active.count true := by
  obtain ⟨hact, hdeg, hT⟩ := removable_iff.mp hrem
  have hun : u < n := inv.alen ▸ PruneState.lt_of_act hact
  have hact2 : ∀ x, PruneState.act
      { degree := (decrNeighbors (s.active.set u false) s.degree
          ((buildAdj n E).getD u [])).set u 0,
        active := s.active.set u false } x = (if x = u then false else s.act x) := by
    intro x
    simp only [PruneState.act, List.getD_eq_getElem?_getD, List.getElem?_set]
    by_cases hx : x = u
    · subst hx; simp [inv.alen, hun]
    · have : ¬ u = x := fun e => hx e.symm
      simp [hx, this]
  have hdeg2 : ∀ x, x < n → x ≠ u → PruneState.deg
      { degree := (decrNeighbors (s.active.set u false) s.degree
          ((buildAdj n E).getD u [])).set u 0,
        active := s.active.set u false } x =
      s.deg x - (if s.act x = true then (((buildAdj n E).getD u []).count x : Int) else 0) := by
    intro x hx hxu
    have h1 : ¬ u = x := fun e => hxu e.symm
    simp only [PruneState.deg, List.getD_eq_getElem?_getD, List.getElem?_set, h1, if_false]
    have := decrNeighbors_getD (s.active.set u false) ((buildAdj n E).getD u []) x s.degree
      (inv.dlen.symm ▸ hx)
    simp only [List.getD_eq_getElem?_getD] at this
    rw [this]
    have h3 := hact2 x
    simp only [PruneState.act, List.getD_eq_getElem?_getD, hxu, if_false] at h3
    rw [h3]
    simp only [PruneState.act, List.getD_eq_getElem?_getD]
  have hcount1 : ((buildAdj n E).getD u []).countP s.act = 1 := by
    have := inv.degOK u hact
    rw [hdeg] at this
    exact_mod_cast this.symm
  refine ⟨⟨?_, ?_, ?_, ?_, ?_⟩, count_true_set_false _ _ hact⟩
  · simpa using inv.alen
  · simp only [List.length_set, decrNeighbors_length]
    exact inv.dlen
  · intro x hx
    rw [hact2] at hx
    by_cases hxu : x = u
    · simp [hxu] at hx
    · simp only [hxu, if_false] at hx
      have hxn : x < n := inv.alen ▸ PruneState.lt_of_act hx
      rw [hdeg2 x hxn hxu, inv.degOK x hx]
      simp only [hx, if_true]
      have h1 := countP_split_at (p := s.act) (u := u) hact hact2 ((buildAdj n E).getD x [])
      have h2 := buildAdj_count_symm hr x u
      rw [h1, h2]
      push_cast
      omega
  · intro t c ht hadj
    rw [hact2]
    have : t ≠ u := fun e => hT (e ▸ ht)
    simp only [this, if_false]
    exact inv.termOK t c ht hadj
  · -- connectivity among the remaining active vertices
    obtain ⟨v, hv, hav⟩ := List.countP_pos_iff.mp (by omega :
      0 < ((buildAdj n E).getD u []).countP s.act)
    have hedge : ∀ e, e ∈ keepActive s E →
        Conn (keepActive { degree := (decrNeighbors (s.active.set u false) s.degree
            ((buildAdj n E).getD u [])).set u 0, active := s.active.set u false } E)
          (if e.u = u then v else e.u) (if e.v = u then v else e.v) := by
      intro e he
      obtain ⟨heE, hau, hav2⟩ := mem_keepActive.mp he
      by_cases hu1 : e.u = u <;> by_cases hv1 : e.v = u
      · simp only [hu1, hv1, if_true]; exact Conn.refl _ _
      · simp only [hu1, hv1, if_true, if_false]
        have hmem : e.v ∈ (buildAdj n E).getD u [] :=
          mem_buildAdj hr ⟨e, heE, Or.inl ⟨hu1, rfl⟩⟩
        rw [countP_eq_one_unique _ hcount1 v e.v hv hmem hav hav2]
        exact Conn.refl _ _
      · simp only [hu1, hv1, if_true, if_false]
        have hmem : e.u ∈ (buildAdj n E).getD u [] :=
          mem_buildAdj hr ⟨e, heE, Or.inr ⟨rfl, hv1⟩⟩
        rw [countP_eq_one_unique _ hcount1 v e.u hv hmem hav hau]
        exact Conn.refl _ _
      · simp only [hu1, hv1, if_false]
        apply Conn.of_edge
        rw [mem_keepActive]
        refine ⟨heE, ?_, ?_⟩
        · rw [hact2]; simp only [hu1, if_false]; exact hau
        · rw [hact2]; simp only [hv1, if_false]; exact hav2
    have hphi : ∀ a b, Conn (keepActive s E) a b →
        Conn (keepActive { degree := (decrNeighbors (s.active.set u false) s.degree
            ((buildAdj n E).getD u [])).set u 0, active := s.active.set u false } E)
          (if a = u then v else a) (if b = u then v else b) := by
      intro a b h
      induction h with
      | refl => exact Conn.refl _ _
      | tail _ hbc ih =>
        obtain ⟨e, he, ⟨h1, h2⟩ | ⟨h1, h2⟩⟩ := hbc
        · subst h1; subst h2
          exact ih.trans (hedge e he)
        · subst h1; subst h2
          exact ih.trans (hedge e he).symm
    intro x y hx hy hc
    rw [hact2] at hx hy
    by_cases hxu : x = u
    · simp [hxu] at hx
    by_cases hyu : y = u
    · simp [hyu] at hy
    simp only [hxu, hyu, if_false] at hx hy
    have := hphi x y (inv.connOK x y hx hy hc)
    simpa only [hxu, hyu, if_false] using this

theorem pruneInit_act (n : Nat) (adj : List (List Nat)) (x : Nat) :
    (pruneInit n adj).act x = decide (x < n ∧ 0 < (adj.getD x []).length) := by
  simp only [PruneState.act, pruneInit, List.getD_eq_getElem?_getD, List.getElem?_map]
  by_cases hx : x < n
  · simp [List.getElem?_range hx, hx]
  · simp [List.getElem?_eq_none (show (List.range n).length ≤ x by simp; omega), hx]

theorem pruneInit_deg (n : Nat) (adj : List (List Nat)) {x : Nat} (hx : x < n) :
    (pruneInit n adj).deg x = ((adj.getD x []).length : Int) := by
  simp [PruneState.deg, pruneInit, List.getD_eq_getElem?_getD, List.getElem?_map,
    List.getElem?_range hx]

theorem Adj.endpoints_lt {n : Nat} {E : List (Edge W)} (hr : InRange n E) {x c : Nat}
    (h : Adj E x c) : x < n ∧ c < n := by
  obtain ⟨e, he, ⟨h1, h2⟩ | ⟨h1, h2⟩⟩ := h
  · exact ⟨h1 ▸ (hr e he).1, h2 ▸ (hr e he).2⟩
  · exact ⟨h2 ▸ (hr e he).2, h1 ▸ (hr e he).1⟩

theorem pruneInit_act_of_adj {n : Nat} {E : List (Edge W)} (hr : InRange n E) {x c : Nat}
    (h : Adj E x c) : (pruneInit n (buildAdj n E)).act x = true := by
  rw [pruneInit_act]
  simp only [decide_eq_true_eq]
  exact ⟨(h.endpoints_lt hr).1, List.length_pos_of_mem (mem_buildAdj hr h)⟩

/-- The state built before the loop satisfies the loop invariant. -/
theorem PInv.init {n : Nat} {E : List (Edge W)} (T : Finset Nat) (hr : InRange n E) :
    PInv n E T (pruneInit n (buildAdj n E)) := by
  refine ⟨by simp [pruneInit], by simp [pruneInit], ?_, ?_, ?_⟩
  · intro x hx
    have hx2 := hx
    rw [pruneInit_act] at hx2
    simp only [decide_eq_true_eq] at hx2
    rw [pruneInit_deg n _ hx2.1]
    congr 1
    symm
    rw [List.countP_eq_length]
    intro w hw
    exact pruneInit_act_of_adj hr (adj_of_mem_buildAdj hr hw).swap
  · intro t c _ hadj
    exact pruneInit_act_of_adj hr hadj
  · intro x y _ _ hc
    have : keepActive (pruneInit n (buildAdj n E)) E = E := by
      unfold keepActive
      rw [List.filter_eq_self]
      intro e he
      have h1 : (pruneInit n (buildAdj n E)).act e.u = true :=
        pruneInit_act_of_adj hr ⟨e, he, Or.inl ⟨rfl, rfl⟩⟩
      have h2 : (pruneInit n (buildAdj n E)).act e.v = true :=
        pruneInit_act_of_adj hr ⟨e, he, Or.inr ⟨rfl, rfl⟩⟩
      simp only [PruneState.act] at h1 h2
      rw [h1, h2]
      rfl
    rw [this]
    exact hc

/-- One scan over the vertices `L`: the invariant is kept; the flag, once
set, stays set; if the flag gets set, an active vertex was removed; if it
is still unset, nothing changed and no vertex of `L` was removable. -/
theorem pruneFold_spec {n : Nat} {E : List (Edge W)} {T : Finset Nat} (hr : InRange n E) :
    ∀ (L : List Nat) (s : PruneState) (b : Bool), PInv n E T s →
    ∃ s1 b1, L.foldl (pruneVisit (buildAdj n E) T) (s, b) = (s1, b1) ∧ PInv n E T s1 ∧
      s1.active.count true ≤ s.active.count true ∧
      (b = true → b1 = true) ∧
      (b = false → b1 = true → s1.active.count true < s.active.count true) ∧
      (b1 = false → s1 = s ∧ ∀ u, u ∈ L → removable T s u = false) := by
  intro L
  induction L with
  | nil =>
    intro s b inv
    refine ⟨s, b, rfl, inv, le_refl _, fun h => h, fun h1 h2 => ?_, fun _ => ⟨rfl, ?_⟩⟩
    · rw [h1] at h2; exact absurd h2 (by decide)
    · intro u hu; simp at hu
  | cons u L ih =>
    intro s b inv
    simp only [List.foldl_cons]
    by_cases hrem : removable T s u = true
    · rw [pruneVisit_of_removable hrem]
      obtain ⟨inv1, hcount⟩ := inv.remove hr hrem
      obtain ⟨s1, b1, hfold, inv2, hle, htrue, _, _⟩ := ih _ true inv1
      have hb1 : b1 = true := htrue rfl
      refine ⟨s1, b1, hfold, inv2, ?_, fun _ => hb1, fun _ _ => ?_, fun h => ?_⟩
      · simp only at hle; omega
      · simp only at hle; omega
      · rw [hb1] at h; exact absurd h (by decide)
    · have hrem2 : removable T s u = false := by simpa using hrem
      rw [pruneVisit_of_not_removable hrem2]
      obtain ⟨s1, b1, hfold, inv2, hle, htrue, hlt, hfalse⟩ := ih s b inv
      refine ⟨s1, b1, hfold, inv2, hle, htrue, hlt, fun h => ⟨(hfalse h).1, ?_⟩⟩
      intro x hx
      rcases List.mem_cons.mp hx with rfl | hx2
      · exact hrem2
      · exact (hfalse h).2 x hx2

/-- The `while` loop ends within its budget whenever the budget exceeds the
number of active vertices; it ends in a state satisfying the invariant in
which no vertex is removable. -/
theorem pruneLoop_spec {n : Nat} {E : List (Edge W)} {T : Finset Nat} (hr : InRange n E) :
    ∀ (fuel : Nat) (s : PruneState), PInv n E T s → s.active.count true < fuel →
    ∃ s1, pruneLoop n (buildAdj n E) T fuel s = some s1 ∧ PInv n E T s1 ∧
      ∀ u, removable T s1 u = false := by
  intro fuel
  induction fuel with
  | zero => intro s _ h; omega
  | succ fuel ih =>
    intro s inv hlt
    obtain ⟨s1, b1, hfold, inv1, _, _, hdec, hfix⟩ := pruneFold_spec hr (List.range n) s false inv
    have hpass : prunePass n (buildAdj n E) T s = (s1, b1) := hfold
    cases b1 with
    | true =>
      have := hdec rfl rfl
      obtain ⟨s2, h2, inv2, hno⟩ := ih s1 inv1 (by omega)
      refine ⟨s2, ?_, inv2, hno⟩
      simp only [pruneLoop, hpass]
      exact h2
    | false =>
      obtain ⟨heq, hno⟩ := hfix rfl
      refine ⟨s1, ?_, inv1, fun u => ?_⟩
      · simp only [pruneLoop, hpass]
      · rw [heq]
        by_cases hu : u < n
        · exact hno u (List.mem_range.mpr hu)
        · by_contra hne
          have h1 : removable T s u = true := by simpa using hne
          have := PruneState.lt_of_act (removable_iff.mp h1).1
          rw [inv.alen] at this
          exact hu this

/-- The pruning loop of `prune_steiner_leaves` ends on in-range edges. -/
theorem pruneFinal_spec {n : Nat} {E : List (Edge W)} (T : Finset Nat) (hr : InRange n E) :
    ∃ s, pruneFinal n E T = some s ∧ PInv n E T s ∧ ∀ u, removable T s u = false := by
  apply pruneLoop_spec hr (n + 1) _ (PInv.init T hr)
  have h1 : (pruneInit n (buildAdj n E)).active.length = n := by simp [pruneInit]
  have h2 := List.count_le_length true (pruneInit n (buildAdj n E)).active
  omega

theorem prune_steiner_leaves_spec {n : Nat} {E : List (Edge W)} (T : Finset Nat)
    (hr : InRange n E) :
    ∃ s, pruneFinal n E T = some s ∧ prune_steiner_leaves n E T = some (keepActive s E) ∧
      PInv n E T s ∧ ∀ u, removable T s u = false := by
  obtain ⟨s, h1, h2, h3⟩ := pruneFinal_spec T hr
  exact ⟨s, h1, by simp [prune_steiner_leaves, h1], h2, h3⟩

theorem keepActive_sublist (s : PruneState) (E : List (Edge W)) : (keepActive s E).Sublist E :=
  List.filter_sublist _

theorem keepActive_pruneInit {n : Nat} {E : List (Edge W)} (hr : InRange n E) :
    keepActive (pruneInit n (buildAdj n E)) E = E := by
  unfold keepActive
  rw [List.filter_eq_self]
  intro e he
  have h1 : (pruneInit n (buildAdj n E)).act e.u = true :=
    pruneInit_act_of_adj hr ⟨e, he, Or.inl ⟨rfl, rfl⟩⟩
  have h2 : (pruneInit n (buildAdj n E)).act e.v = true :=
    pruneInit_act_of_adj hr ⟨e, he, Or.inr ⟨rfl, rfl⟩⟩
  simp only [PruneState.act] at h1 h2
  rw [h1, h2]
  rfl

/-- A vertex joined to a different vertex has an incident edge. -/
theorem Conn.exists_adj {F : List (Edge W)} {a b : Nat} (h : Conn F a b) (hne : a ≠ b) :
    ∃ c, Adj F a c := by
  rcases Relation.ReflTransGen.cases_head h with h1 | ⟨c, hc, _⟩
  · exact absurd h1 hne
  · exact ⟨c, hc⟩

/-- Terminals joined in the input stay joined among the active vertices. -/
theorem PInv.conn_terminals {n : Nat} {E : List (Edge W)} {T : Finset Nat} {s : PruneState}
    (inv : PInv n E T s) {t1 t2 : Nat} (h1 : t1 ∈ T) (h2 : t2 ∈ T) (hc : Conn E t1 t2) :
    Conn (keepActive s E) t1 t2 := by
  by_cases hne : t1 = t2
  · subst hne; exact Conn.refl _ _
  · obtain ⟨c1, hc1⟩ := hc.exists_adj hne
    obtain ⟨c2, hc2⟩ := hc.symm.exists_adj (fun e => hne e.symm)
    exact inv.connOK t1 t2 (inv.termOK t1 c1 h1 hc1) (inv.termOK t2 c2 h2 hc2) hc

/-- Degree of a vertex in the kept edges: zero for an inactive vertex, the
number of active adjacency entries for an active one. -/
theorem degreeIn_keepActive {n : Nat} {E : List (Edge W)} (hr : InRange n E) (s : PruneState)
    (x : Nat) :
    degreeIn (keepActive s E) x =
      if s.act x = true then ((buildAdj n E).getD x []).countP s.act else 0 := by
  unfold degreeIn keepActive
  rw [List.countP_filter, List.countP_filter]
  by_cases hx : s.act x = true
  · simp only [hx, if_true]
    rw [buildAdj_countP hr x s.act]
    congr 1
    · apply List.countP_congr
      intro e _
      simp only [Bool.and_eq_true, decide_eq_true_eq]
      constructor
      · rintro ⟨h1, _, h3⟩; exact ⟨h1, h3⟩
      · rintro ⟨h1, h3⟩; exact ⟨h1, by rw [h1]; exact hx, h3⟩
    · apply List.countP_congr
      intro e _
      simp only [Bool.and_eq_true, decide_eq_true_eq]
      constructor
      · rintro ⟨h1, h2, _⟩; exact ⟨h1, h2⟩
      · rintro ⟨h1, h2⟩; exact ⟨h1, h2, by rw [h1]; exact hx⟩
  · simp only [hx, Bool.false_eq_true, if_false]
    have hx2 : s.active.getD x false = false := by simpa [PruneState.act] using hx
    rw [Nat.add_eq_zero_iff]
    constructor
    · rw [List.countP_eq_zero]
      intro e _
      simp only [Bool.and_eq_true, decide_eq_true_eq, not_and]
      intro h1 h2
      rw [h1, hx2] at h2
      exact absurd h2 (by decide)
    · rw [List.countP_eq_zero]
      intro e _
      simp only [Bool.and_eq_true, decide_eq_true_eq, not_and]
      intro h1 _ h3
      rw [h1, hx2] at h3
      exact absurd h3 (by decide)

/-- When the loop has ended, no non-terminal has degree one in the kept
edges. -/
theorem PInv.degreeIn_ne_one {n : Nat} {E : List (Edge W)} {T : Finset Nat} {s : PruneState}
    (hr : InRange n E) (inv : PInv n E T s) (hno : ∀ u, removable T s u = false) {x : Nat}
    (hx : x ∉ T) : degreeIn (keepActive s E) x ≠ 1 := by
  rw [degreeIn_keepActive hr]
  by_cases hact : s.act x = true
  · simp only [hact, if_true]
    intro h1
    have h2 := inv.degOK x hact
    rw [h1] at h2
    have h3 : removable T s x = true := removable_iff.mpr ⟨hact, by simpa using h2, hx⟩
    rw [hno x] at h3
    exact absurd h3 (by decide)
  · simp only [hact, Bool.false_eq_true, if_false]
    decide

theorem degreeIn_eq_length_buildAdj {n : Nat} {E : List (Edge W)} (hr : InRange n E) (x : Nat) :
    ((buildAdj n E).getD x []).length = degreeIn E x := by
  have := buildAdj_countP hr x (fun _ => true)
  rw [List.countP_true] at this
  rw [this]
  simp [degreeIn]

theorem pruneFold_of_not_removable {adj : List (List Nat)} {T : Finset Nat} {s : PruneState} :
    ∀ (L : List Nat) (b : Bool), (∀ u, u ∈ L → removable T s u = false) →
    L.foldl (pruneVisit adj T) (s, b) = (s, b) := by
  intro L
  induction L with
  | nil => intro b _; rfl
  | cons u L ih =>
    intro b h
    simp only [List.foldl_cons]
    rw [pruneVisit_of_not_removable (h u (List.mem_cons_self _ _))]
    exact ih b (fun x hx => h x (List.mem_cons_of_mem _ hx))

/-- Pruning an edge list without non-terminal vertices of degree one returns
it unchanged. -/
theorem prune_steiner_leaves_fixed {n : Nat} {E : List (Edge W)} {T : Finset Nat}
    (hr : InRange n E) (h : ∀ x, x ∉ T → degreeIn E x ≠ 1) :
    prune_steiner_leaves n E T = some E := by
  have hno : ∀ u, removable T (pruneInit n (buildAdj n E)) u = false := by
    intro u
    by_contra hne
    have h1 : removable T (pruneInit n (buildAdj n E)) u = true := by simpa using hne
    obtain ⟨hact, hdeg, hT⟩ := removable_iff.mp h1
    rw [pruneInit_act] at hact
    simp only [decide_eq_true_eq] at hact
    rw [pruneInit_deg n _ hact.1, degreeIn_eq_length_buildAdj hr] at hdeg
    exact h u hT (by exact_mod_cast hdeg)
  have hpass : prunePass n (buildAdj n E) T (pruneInit n (buildAdj n E)) =
      (pruneInit n (buildAdj n E), false) :=
    pruneFold_of_not_removable _ _ (fun u _ => hno u)
  simp only [prune_steiner_leaves, pruneFinal, pruneLoop, hpass, Option.map_some',
    keepActive_pruneInit hr]

/-! ## Theorems: the pruner -/

/-- C3. On edges with endpoints in `[0, n)`, `prune_steiner_leaves` returns,
and any two terminals joined by a path of input edges are joined by a path of
returned edges. -/
theorem prune_steiner_leaves_keeps_terminals_joined (n : Nat) (E : List (Edge W))
    (T : Finset Nat) (hr : InRange n E) :
    ∃ out, prune_steiner_leaves n E T = some out ∧
      ∀ t1 t2, t1 ∈ T → t2 ∈ T → Conn E t1 t2 → Conn out t1 t2 := by
  obtain ⟨s, _, hout, inv, _⟩ := prune_steiner_leaves_spec T hr
  exact ⟨_, hout, fun t1 t2 h1 h2 hc => inv.conn_terminals h1 h2 hc⟩

/-- Instance: a tree on five vertices with terminals `0` and `3`. -/
theorem prune_steiner_leaves_keeps_terminals_joined_witness :
    ∃ out, prune_steiner_leaves 5
        [(⟨(2 : Int), 0, 1⟩ : Edge Int), ⟨3, 1, 2⟩, ⟨1, 1, 3⟩, ⟨4, 3, 4⟩] {0, 3} = some out ∧
      ∀ t1 t2, t1 ∈ ({0, 3} : Finset Nat) → t2 ∈ ({0, 3} : Finset Nat) →
        Conn [(⟨(2 : Int), 0, 1⟩ : Edge Int), ⟨3, 1, 2⟩, ⟨1, 1, 3⟩, ⟨4, 3, 4⟩] t1 t2 →
        Conn out t1 t2 :=
  prune_steiner_leaves_keeps_terminals_joined 5
    [(⟨(2 : Int), 0, 1⟩ : Edge Int), ⟨3, 1, 2⟩, ⟨1, 1, 3⟩, ⟨4, 3, 4⟩] {0, 3}
    (by
      intro e he
      simp only [List.mem_cons, List.mem_singleton, List.not_mem_nil, or_false] at he
      rcases he with rfl | rfl | rfl | rfl <;> decide)

/-- C4, as stated, fails on a self-loop: on `n = 1`, the single edge `(0, 0)`
and no terminals, the pruner returns the edge, and the non-terminal vertex
`0` is incident to exactly one returned edge. -/
theorem prune_steiner_leaves_self_loop_incident_once :
    InRange 1 [(⟨(1 : Int), 0, 0⟩ : Edge Int)] ∧
    prune_steiner_leaves 1 [(⟨(1 : Int), 0, 0⟩ : Edge Int)] ∅ = some [⟨1, 0, 0⟩] ∧
    0 ∉ (∅ : Finset Nat) ∧
    incidentCount [(⟨(1 : Int), 0, 0⟩ : Edge Int)] 0 = 1 := by
  refine ⟨?_, by decide, by decide, by decide⟩
  intro e he
  simp only [List.mem_singleton] at he
  subst he
  decide

/-- C4, amended. On edges with endpoints in `[0, n)`, `prune_steiner_leaves`
returns a list in which no non-terminal vertex has degree exactly one, a
self-loop counting twice; hence a non-terminal vertex incident to exactly
one returned edge has a self-loop as that edge. -/
theorem prune_steiner_leaves_no_nonterminal_leaf (n : Nat) (E : List (Edge W))
    (T : Finset Nat) (hr : InRange n E) :
    ∃ out, prune_steiner_leaves n E T = some out ∧
      (∀ x, x ∉ T → degreeIn out x ≠ 1) ∧
      (∀ x, x ∉ T → incidentCount out x = 1 → ∃ e, e ∈ out ∧ e.u = x ∧ e.v = x) := by
  obtain ⟨s, _, hout, inv, hno⟩ := prune_steiner_leaves_spec T hr
  refine ⟨_, hout, fun x hx => inv.degreeIn_ne_one hr hno hx, fun x hx hinc => ?_⟩
  have hdeg := inv.degreeIn_ne_one hr hno hx
  by_contra hnone
  apply hdeg
  have hsplit : ∀ (F : List (Edge W)), (∀ e, e ∈ F → ¬ (e.u = x ∧ e.v = x)) →
      degreeIn F x = incidentCount F x := by
    intro F
    induction F with
    | nil => intro _; rfl
    | cons a F ih =>
      intro hF
      have ih2 := ih (fun e he => hF e (List.mem_cons_of_mem _ he))
      have ha := hF a (List.mem_cons_self _ _)
      simp only [degreeIn, incidentCount, List.countP_cons] at ih2 ⊢
      by_cases h1 : a.u = x <;> by_cases h2 : a.v = x
      · exact absurd ⟨h1, h2⟩ ha
      · simp only [h1, h2, decide_True, decide_False, or_false, if_true, Bool.false_eq_true,
          if_false]
        omega
      · simp only [h1, h2, decide_True, decide_False, false_or, if_true, Bool.false_eq_true,
          if_false]
        omega
      · simp only [h1, h2, decide_False, or_self, Bool.false_eq_true, if_false]
        omega
  rw [hsplit _ (fun e he h => hnone ⟨e, he, h⟩)]
  exact hinc

/-- Instance: a tree with a self-loop at vertex `3` and terminal `0`. -/
theorem prune_steiner_leaves_no_nonterminal_leaf_witness :
    ∃ out, prune_steiner_leaves 4
        [(⟨(2 : Int), 0, 1⟩ : Edge Int), ⟨3, 1, 2⟩, ⟨1, 1, 3⟩, ⟨5, 3, 3⟩] {0} = some out ∧
      (∀ x, x ∉ ({0} : Finset Nat) → degreeIn out x ≠ 1) ∧
      (∀ x, x ∉ ({0} : Finset Nat) → incidentCount out x = 1 →
        ∃ e, e ∈ out ∧ e.u = x ∧ e.v = x) :=
  prune_steiner_leaves_no_nonterminal_leaf 4
    [(⟨(2 : Int), 0, 1⟩ : Edge Int), ⟨3, 1, 2⟩, ⟨1, 1, 3⟩, ⟨5, 3, 3⟩] {0}
    (by
      intro e he
      simp only [List.mem_cons, List.mem_singleton, List.not_mem_nil, or_false] at he
      rcases he with rfl | rfl | rfl | rfl <;> decide)

/-- C5. On edges with endpoints in `[0, n)`, `prune_steiner_leaves` returns,
and pruning its result again returns the same edge list. -/
theorem prune_steiner_leaves_idempotent (n : Nat) (E : List (Edge W)) (T : Finset Nat)
    (hr : InRange n E) :
    ∃ out, prune_steiner_leaves n E T = some out ∧ prune_steiner_leaves n out T = some out := by
  obtain ⟨s, _, hout, inv, hno⟩ := prune_steiner_leaves_spec T hr
  refine ⟨_, hout, ?_⟩
  apply prune_steiner_leaves_fixed
  · exact hr.of_subset (fun e he => (keepActive_sublist s E).subset he)
  · exact fun x hx => inv.degreeIn_ne_one hr hno hx

/-- Instance: a path with two pendant leaves and terminals `0` and `2`. -/
theorem prune_steiner_leaves_idempotent_witness :
    ∃ out, prune_steiner_leaves 5
        [(⟨(1 : Int), 0, 1⟩ : Edge Int), ⟨1, 1, 2⟩, ⟨1, 2, 3⟩, ⟨1, 2, 4⟩] {0, 2} = some out ∧
      prune_steiner_leaves 5 out {0, 2} = some out :=
  prune_steiner_leaves_idempotent 5
    [(⟨(1 : Int), 0, 1⟩ : Edge Int), ⟨1, 1, 2⟩, ⟨1, 2, 3⟩, ⟨1, 2, 4⟩] {0, 2}
    (by
      intro e he
      simp only [List.mem_cons, List.mem_singleton, List.not_mem_nil, or_false] at he
      rcases he with rfl | rfl | rfl | rfl <;> decide)

/-- C6. On edges with endpoints in `[0, n)`, `prune_steiner_leaves` returns
exactly the input edges whose two endpoints are active when the loop ends,
in input order; the result is a sublist of the input. -/
theorem prune_steiner_leaves_sublist (n : Nat) (E : List (Edge W)) (T : Finset Nat)
    (hr : InRange n E) :
    ∃ s out, pruneFinal n E T = some s ∧ prune_steiner_leaves n E T = some out ∧
      out = E.filter (fun e => s.active.getD e.u false && s.active.getD e.v false) ∧
      out.Sublist E := by
  obtain ⟨s, hs, hout, _, _⟩ := prune_steiner_leaves_spec T hr
  exact ⟨s, _, hs, hout, rfl, keepActive_sublist s E⟩

/-- Instance: the path `0-1-2-3` given out of order, with terminals `1` and `2`. -/
theorem prune_steiner_leaves_sublist_witness :
    ∃ s out, pruneFinal 4 [(⟨(7 : Int), 2, 3⟩ : Edge Int), ⟨1, 0, 1⟩, ⟨4, 1, 2⟩] {1, 2} = some s ∧
      prune_steiner_leaves 4 [(⟨(7 : Int), 2, 3⟩ : Edge Int), ⟨1, 0, 1⟩, ⟨4, 1, 2⟩] {1, 2} =
        some out ∧
      out = [(⟨(7 : Int), 2, 3⟩ : Edge Int), ⟨1, 0, 1⟩, ⟨4, 1, 2⟩].filter
        (fun e => s.active.getD e.u false && s.active.getD e.v false) ∧
      out.Sublist [(⟨(7 : Int), 2, 3⟩ : Edge Int), ⟨1, 0, 1⟩, ⟨4, 1, 2⟩] :=
  prune_steiner_leaves_sublist 4 [(⟨(7 : Int), 2, 3⟩ : Edge Int), ⟨1, 0, 1⟩, ⟨4, 1, 2⟩] {1, 2}
    (by
      intro e he
      simp only [List.mem_cons, List.mem_singleton, List.not_mem_nil, or_false] at he
      rcases he with rfl | rfl | rfl <;> decide)

/-! ## Theorems: the MST-then-prune pipeline -/

theorem foldl_add_weight [AddCommMonoid W] (F : List (Edge W)) (c : W) :
    F.foldl (fun acc e => acc + e.w) c = c + weight F := by
  induction F generalizing c with
  | nil => simp [weight]
  | cons e F ih =>
    simp only [List.foldl_cons]
    rw [ih, weight_cons, add_assoc]

theorem weight_le_of_sublist [LinearOrderedAddCommGroup W] {F G : List (Edge W)}
    (h : F.Sublist G) (hpos : ∀ e, e ∈ G → 0 ≤ e.w) : weight F ≤ weight G := by
  induction h with
  | slnil => exact le_refl _
  | cons a _ ih =>
    rw [weight_cons]
    have h1 := ih (fun e he => hpos e (List.mem_cons_of_mem _ he))
    have h2 := hpos a (List.mem_cons_self _ _)
    calc weight _ ≤ weight _ := h1
      _ = 0 + weight _ := (zero_add _).symm
      _ ≤ a.w + weight _ := add_le_add_right h2 _
  | cons₂ a _ ih =>
    rw [weight_cons, weight_cons]
    exact add_le_add_left (ih (fun e he => hpos e (List.mem_cons_of_mem _ he))) _

/-- The pipeline of `main` returns on in-range edges; the facts about its
result that the claims on its cost share. -/
theorem pipeline_spec [LinearOrderedAddCommGroup W] {sort : List (Edge W) → List (Edge W)}
    (hsort : SortsByWeight sort) {n : Nat} {edges : List (Edge W)} (T : Finset Nat)
    (hr : InRange n edges) :
    ∃ D s, kruskal_mst sort n edges = some { edges := D, total_cost := weight D } ∧
      Greedy [] (sort edges) D ∧
      prune_steiner_leaves n D T = some (keepActive s D) ∧ PInv n D T s ∧
      pipeline sort n edges T = some (keepActive s D, weight (keepActive s D)) := by
  obtain ⟨D, hk, hg⟩ := kruskal_mst_spec hsort hr
  have hDr : InRange n D :=
    hr.of_subset (fun e he => (hsort edges).1.subset (hg.accepted_sublist.subset he))
  obtain ⟨s, _, hp, inv, _⟩ := prune_steiner_leaves_spec T hDr
  refine ⟨D, s, hk, hg, hp, inv, ?_⟩
  simp only [pipeline, hk, hp, foldl_add_weight, zero_add]

/-- C7, as stated, fails for a negative weight: on `n = 2`, the single edge
`(0, 1)` of weight `-1` and no terminals, the MST has `total_cost = -1`, the
pruner removes the edge, and the pruned cost `0` exceeds `-1`. -/
theorem pruned_cost_exceeds_mst_cost_negative_weight :
    InRange 2 [(⟨(-1 : Int), 0, 1⟩ : Edge Int)] ∧
    kruskal_mst sortByWeight 2 [(⟨(-1 : Int), 0, 1⟩ : Edge Int)] =
      some { edges := [⟨-1, 0, 1⟩], total_cost := -1 } ∧
    prune_steiner_leaves 2 [(⟨(-1 : Int), 0, 1⟩ : Edge Int)] ∅ = some [] ∧
    pipeline sortByWeight 2 [(⟨(-1 : Int), 0, 1⟩ : Edge Int)] ∅ = some ([], 0) ∧
    ¬ ((0 : Int) ≤ -1) := by
  refine ⟨?_, by decide, by decide, by decide, by decide⟩
  intro e he
  simp only [List.mem_singleton] at he
  subst he
  decide

/-- C7, amended. On edges with endpoints in `[0, n)` and non-negative
weights, for every terminal set, the pipeline returns and the summed weight
of the pruned edges is at most `total_cost` of the MST. -/
theorem pruned_cost_le_mst_cost [LinearOrderedAddCommGroup W]
    (sort : List (Edge W) → List (Edge W)) (hsort : SortsByWeight sort) (n : Nat)
    (edges : List (Edge W)) (T : Finset Nat) (hr : InRange n edges)
    (hpos : ∀ e, e ∈ edges → 0 ≤ e.w) :
    ∃ mst pruned cost, kruskal_mst sort n edges = some mst ∧
      prune_steiner_leaves n mst.edges T = some pruned ∧
      pipeline sort n edges T = some (pruned, cost) ∧
      cost = weight pruned ∧ cost ≤ mst.total_cost := by
  obtain ⟨D, s, hk, hg, hp, _, hpipe⟩ := pipeline_spec hsort T hr
  refine ⟨_, _, _, hk, hp, hpipe, rfl, ?_⟩
  apply weight_le_of_sublist (keepActive_sublist s D)
  exact fun e he => hpos e ((hsort edges).1.subset (hg.accepted_sublist.subset he))

/-- Instance: four vertices, a cycle and an edge of weight 0, terminals `0` and `2`. -/
theorem pruned_cost_le_mst_cost_witness :
    ∃ mst pruned cost, kruskal_mst sortByWeight 4
        [(⟨(2 : Int), 0, 1⟩ : Edge Int), ⟨0, 1, 2⟩, ⟨5, 2, 3⟩, ⟨1, 0, 2⟩] = some mst ∧
      prune_steiner_leaves 4 mst.edges {0, 2} = some pruned ∧
      pipeline sortByWeight 4
        [(⟨(2 : Int), 0, 1⟩ : Edge Int), ⟨0, 1, 2⟩, ⟨5, 2, 3⟩, ⟨1, 0, 2⟩] {0, 2} =
          some (pruned, cost) ∧
      cost = weight pruned ∧ cost ≤ mst.total_cost :=
  pruned_cost_le_mst_cost sortByWeight sortByWeight_sorts 4
    [(⟨(2 : Int), 0, 1⟩ : Edge Int), ⟨0, 1, 2⟩, ⟨5, 2, 3⟩, ⟨1, 0, 2⟩] {0, 2}
    (by
      intro e he
      simp only [List.mem_cons, List.mem_singleton, List.not_mem_nil, or_false] at he
      rcases he with rfl | rfl | rfl | rfl <;> decide)
    (by
      intro e he
      simp only [List.mem_cons, List.mem_singleton, List.not_mem_nil, or_false] at he
      rcases he with rfl | rfl | rfl | rfl <;> decide)

theorem weight_nonneg [LinearOrderedAddCommGroup W] {F : List (Edge W)}
    (hpos : ∀ e, e ∈ F → 0 ≤ e.w) : 0 ≤ weight F :=
  weight_le_of_sublist (List.nil_sublist F) hpos

/-- C9, as stated, fails: on the connected graph with edges `0-1`, `1-2`,
`2-3` of weight 3 and `0-3` of weight 4, and terminals `{0, 3}`, the pipeline
returns the three weight-3 edges, of cost 9, while the single edge `0-3` is a
tree of input edges joining the terminals of weight 4, and `9 > 2 * 4`. -/
theorem pipeline_not_two_approximation :
    InRange 4 [(⟨(3 : Int), 0, 1⟩ : Edge Int), ⟨3, 1, 2⟩, ⟨3, 2, 3⟩, ⟨4, 0, 3⟩] ∧
    Connected 4 [(⟨(3 : Int), 0, 1⟩ : Edge Int), ⟨3, 1, 2⟩, ⟨3, 2, 3⟩, ⟨4, 0, 3⟩] ∧
    (∀ e, e ∈ [(⟨(3 : Int), 0, 1⟩ : Edge Int), ⟨3, 1, 2⟩, ⟨3, 2, 3⟩, ⟨4, 0, 3⟩] → 0 ≤ e.w) ∧
    pipeline sortByWeight 4
      [(⟨(3 : Int), 0, 1⟩ : Edge Int), ⟨3, 1, 2⟩, ⟨3, 2, 3⟩, ⟨4, 0, 3⟩] {0, 3} =
        some ([⟨3, 0, 1⟩, ⟨3, 1, 2⟩, ⟨3, 2, 3⟩], 9) ∧
    (∀ e, e ∈ [(⟨(4 : Int), 0, 3⟩ : Edge Int)] →
      e ∈ [(⟨(3 : Int), 0, 1⟩ : Edge Int), ⟨3, 1, 2⟩, ⟨3, 2, 3⟩, ⟨4, 0, 3⟩]) ∧
    IsForest [(⟨(4 : Int), 0, 3⟩ : Edge Int)] ∧
    (∀ t1 t2, t1 ∈ ({0, 3} : Finset Nat) → t2 ∈ ({0, 3} : Finset Nat) →
      Conn [(⟨(4 : Int), 0, 3⟩ : Edge Int)] t1 t2) ∧
    weight [(⟨(4 : Int), 0, 3⟩ : Edge Int)] = 4 ∧
    ¬ ((9 : Int) ≤ 2 * 4) := by
  have h01 : Conn [(⟨(3 : Int), 0, 1⟩ : Edge Int), ⟨3, 1, 2⟩, ⟨3, 2, 3⟩, ⟨4, 0, 3⟩] 0 1 :=
    Conn.of_edge (e := ⟨3, 0, 1⟩) (by simp)
  have h12 : Conn [(⟨(3 : Int), 0, 1⟩ : Edge Int), ⟨3, 1, 2⟩, ⟨3, 2, 3⟩, ⟨4, 0, 3⟩] 1 2 :=
    Conn.of_edge (e := ⟨3, 1, 2⟩) (by simp)
  have h03 : Conn [(⟨(3 : Int), 0, 1⟩ : Edge Int), ⟨3, 1, 2⟩, ⟨3, 2, 3⟩, ⟨4, 0, 3⟩] 0 3 :=
    Conn.of_edge (e := ⟨4, 0, 3⟩) (by simp)
  have hs : Conn [(⟨(4 : Int), 0, 3⟩ : Edge Int)] 0 3 :=
    Conn.of_edge (e := ⟨4, 0, 3⟩) (by simp)
  refine ⟨?_, ?_, ?_, by decide, ?_, ?_, ?_, by decide, by decide⟩
  · intro e he
    simp only [List.mem_cons, List.mem_singleton, List.not_mem_nil, or_false] at he
    rcases he with rfl | rfl | rfl | rfl <;> decide
  · apply connected_of_conn_zero
    intro x hx
    interval_cases x
    · exact Conn.refl _ _
    · exact h01
    · exact h01.trans h12
    · exact h03
  · intro e he
    simp only [List.mem_cons, List.mem_singleton, List.not_mem_nil, or_false] at he
    rcases he with rfl | rfl | rfl | rfl <;> decide
  · intro e he
    simp only [List.mem_singleton] at he
    subst he
    simp
  · apply isForest_cons.mpr
    refine ⟨isForest_nil, fun h => ?_⟩
    have := Conn.nil h
    simp at this
  · intro t1 t2 h1 h2
    simp only [Finset.mem_insert, Finset.mem_singleton] at h1 h2
    rcases h1 with rfl | rfl <;> rcases h2 with rfl | rfl
    · exact Conn.refl _ _
    · exact hs
    · exact hs.symm
    · exact Conn.refl _ _

/-- C9, amended. For `n ≥ 1`, a connected graph with endpoints in `[0, n)`
and non-negative weights, and terminals in `[0, n)`, the pipeline returns a
forest of input edges that joins every two terminals and whose cost is at most
the weight of every spanning tree of the graph; when every vertex is a
terminal, the cost is at most (hence at most twice) the weight of every
forest of input edges that joins the terminals. -/
theorem pipeline_cost_le_spanning_tree [LinearOrderedAddCommGroup W]
    (sort : List (Edge W) → List (Edge W)) (hsort : SortsByWeight sort) (n : Nat)
    (edges : List (Edge W)) (T : Finset Nat) (hn : 1 ≤ n) (hr : InRange n edges)
    (hc : Connected n edges) (hpos : ∀ e, e ∈ edges → 0 ≤ e.w) (hT : ∀ t, t ∈ T → t < n) :
    ∃ pruned cost, pipeline sort n edges T = some (pruned, cost) ∧ cost = weight pruned ∧
      (∀ e, e ∈ pruned → e ∈ edges) ∧ IsForest pruned ∧
      (∀ t1 t2, t1 ∈ T → t2 ∈ T → Conn pruned t1 t2) ∧
      (∀ S, (∀ e, e ∈ S → e ∈ edges) → IsSpanningTree n S → cost ≤ weight S) ∧
      ((∀ x, x < n → x ∈ T) → ∀ S, (∀ e, e ∈ S → e ∈ edges) → IsForest S →
        (∀ t1 t2, t1 ∈ T → t2 ∈ T → Conn S t1 t2) → cost ≤ weight S + weight S) := by
  obtain ⟨D, s, hk, hg, _, inv, hpipe⟩ := pipeline_spec hsort T hr
  have hperm := (hsort edges).1
  have hsubD : ∀ e, e ∈ D → e ∈ edges :=
    fun e he => hperm.subset (hg.accepted_sublist.subset he)
  have hF : IsForest D := by simpa using hg.isForest isForest_nil
  have hDr : InRange n D := hr.of_subset hsubD
  have hcD : Connected n D := by
    intro x y hx hy
    have h1 : Conn ([] ++ sort edges) x y :=
      (hc x y hx hy).mono (fun e he => by simpa using hperm.symm.subset he)
    simpa using hg.conn h1
  have hlenD : D.length = n - 1 := by
    have h1 := hF.length_add_ncard hDr
    have h2 := ncard_compReps_of_connected (by omega) hcD
    omega
  have hle : weight (keepActive s D) ≤ weight D :=
    weight_le_of_sublist (keepActive_sublist s D) (fun e he => hpos e (hsubD e he))
  have hspan : ∀ S, (∀ e, e ∈ S → e ∈ edges) → IsSpanningTree n S →
      weight (keepActive s D) ≤ weight S := by
    intro S hS hST
    have hSr : InRange n S := hr.of_subset hS
    have h1 := hST.1.length_add_ncard hSr
    have h2 := ncard_compReps_of_connected (by omega) hST.2
    exact le_trans hle (hg.weight_le (hsort edges).2
      (hr.of_subset (fun e he => hperm.subset he)) hST.1
      (fun e he => hperm.symm.subset (hS e he)) (by omega))
  refine ⟨_, _, hpipe, rfl, fun e he => hsubD e ((keepActive_sublist s D).subset he),
    hF.of_sublist (keepActive_sublist s D), ?_, hspan, ?_⟩
  · intro t1 t2 h1 h2
    exact inv.conn_terminals h1 h2 (hcD t1 t2 (hT t1 h1) (hT t2 h2))
  · intro hall S hS hSF hSc
    have h1 := hspan S hS ⟨hSF, fun x y hx hy => hSc x y (hall x hx) (hall y hy)⟩
    have h2 : 0 ≤ weight S := weight_nonneg (fun e he => hpos e (hS e he))
    calc weight (keepActive s D) ≤ weight S := h1
      _ = 0 + weight S := (zero_add _).symm
      _ ≤ weight S + weight S := add_le_add_right h2 _

/-- Instance: the triangle with weights 2, 1 and 2 and terminals `0` and `1`. -/
theorem pipeline_cost_le_spanning_tree_witness :
    ∃ pruned cost, pipeline sortByWeight 3
        [(⟨(2 : Int), 0, 1⟩ : Edge Int), ⟨1, 1, 2⟩, ⟨2, 2, 0⟩] {0, 1} = some (pruned, cost) ∧
      cost = weight pruned ∧
      (∀ e, e ∈ pruned → e ∈ [(⟨(2 : Int), 0, 1⟩ : Edge Int), ⟨1, 1, 2⟩, ⟨2, 2, 0⟩]) ∧
      IsForest pruned ∧
      (∀ t1 t2, t1 ∈ ({0, 1} : Finset Nat) → t2 ∈ ({0, 1} : Finset Nat) → Conn pruned t1 t2) ∧
      (∀ S, (∀ e, e ∈ S → e ∈ [(⟨(2 : Int), 0, 1⟩ : Edge Int), ⟨1, 1, 2⟩, ⟨2, 2, 0⟩]) →
        IsSpanningTree 3 S → cost ≤ weight S) ∧
      ((∀ x, x < 3 → x ∈ ({0, 1} : Finset Nat)) → ∀ S,
        (∀ e, e ∈ S → e ∈ [(⟨(2 : Int), 0, 1⟩ : Edge Int), ⟨1, 1, 2⟩, ⟨2, 2, 0⟩]) →
        IsForest S →
        (∀ t1 t2, t1 ∈ ({0, 1} : Finset Nat) → t2 ∈ ({0, 1} : Finset Nat) → Conn S t1 t2) →
        cost ≤ weight S + weight S) :=
  pipeline_cost_le_spanning_tree sortByWeight sortByWeight_sorts 3
    [(⟨(2 : Int), 0, 1⟩ : Edge Int), ⟨1, 1, 2⟩, ⟨2, 2, 0⟩] {0, 1} (by decide)
    (by
      intro e he
      simp only [List.mem_cons, List.mem_singleton, List.not_mem_nil, or_false] at he
      rcases he with rfl | rfl | rfl <;> decide)
    (connected_of_conn_zero (by
      intro x hx
      have h01 : Conn [(⟨(2 : Int), 0, 1⟩ : Edge Int), ⟨1, 1, 2⟩, ⟨2, 2, 0⟩] 0 1 :=
        Conn.of_edge (e := ⟨2, 0, 1⟩) (by simp)
      have h20 : Conn [(⟨(2 : Int), 0, 1⟩ : Edge Int), ⟨1, 1, 2⟩, ⟨2, 2, 0⟩] 2 0 :=
        Conn.of_edge (e := ⟨2, 2, 0⟩) (by simp)
      interval_cases x
      · exact Conn.refl _ _
      · exact h01
      · exact h20.symm))
    (by
      intro e he
      simp only [List.mem_cons, List.mem_singleton, List.not_mem_nil, or_false] at he
      rcases he with rfl | rfl | rfl <;> decide)
    (by decide)

/-! ## Theorems: Dijkstra -/

theorem pqFold_spec [LinearOrder W] : ∀ (l : List (QEntry W)) (a : QEntry W),
    (l.foldl (fun m b => if entryLt b m then b else m) a ∈ a :: l) ∧
    (l.foldl (fun m b => if entryLt b m then b else m) a).1 ≤ a.1 ∧
    ∀ e, e ∈ l → (l.foldl (fun m b => if entryLt b m then b else m) a).1 ≤ e.1 := by
  intro l
  induction l with
  | nil => intro a; simp
  | cons b l ih =>
    intro a
    simp only [List.foldl_cons]
    obtain ⟨h1, h2, h3⟩ := ih (if entryLt b a then b else a)
    have hle : (if entryLt b a then b else a).1 ≤ a.1 ∧ (if entryLt b a then b else a).1 ≤ b.1 := by
      by_cases hlt : entryLt b a
      · simp only [hlt, if_true]
        refine ⟨?_, le_refl _⟩
        rcases hlt with h | ⟨h, _⟩
        · exact le_of_lt h
        · exact le_of_eq h
      · simp only [hlt, if_false]
        refine ⟨le_refl _, ?_⟩
        by_contra hc
        exact hlt (Or.inl (not_le.mp hc))
    refine ⟨?_, le_trans h2 hle.1, ?_⟩
    · rcases List.mem_cons.mp h1 with h | h
      · rw [h]
        split
        · exact List.mem_cons_of_mem _ (List.mem_cons_self _ _)
        · exact List.mem_cons_self _ _
      · exact List.mem_cons_of_mem _ (List.mem_cons_of_mem _ h)
    · intro e he
      rcases List.mem_cons.mp he with rfl | h
      · exact le_trans h2 hle.2
      · exact h3 e h

/-- The top of the queue is an entry of it with the least distance. -/
theorem pqTop_some [LinearOrder W] {pq : List (QEntry W)} {m : QEntry W} (h : pqTop pq = some m) :
    m ∈ pq ∧ ∀ e, e ∈ pq → m.1 ≤ e.1 := by
  cases pq with
  | nil => simp [pqTop] at h
  | cons a l =>
    simp only [pqTop, Option.some.injEq] at h
    obtain ⟨h1, h2, h3⟩ := pqFold_spec l a
    rw [h] at h1 h2 h3
    refine ⟨h1, fun e he => ?_⟩
    rcases List.mem_cons.mp he with rfl | h4
    · exact h2
    · exact h3 e h4

theorem pqTop_none [LinearOrder W] {pq : List (QEntry W)} (h : pqTop pq = none) : pq = [] := by
  cases pq with
  | nil => rfl
  | cons a l => simp [pqTop] at h

theorem getD_set_top (dist : List (WithTop W)) (v : Nat) (a : WithTop W) (x : Nat)
    (hv : v < dist.length) :
    (dist.set v a).getD x ⊤ = if x = v then a else dist.getD x ⊤ := by
  simp only [List.getD_eq_getElem?_getD, List.getElem?_set]
  by_cases h : x = v
  · subst h; simp [hv]
  · have h2 : ¬ v = x := fun e => h e.symm
    simp [h, h2]

theorem sum_outdeg_range (graph : AdjList W) :
    ∑ x in Finset.range graph.length, (graph.getD x []).length =
      (graph.map List.length).sum := by
  induction graph using List.reverseRecOn with
  | nil => simp
  | append_singleton l a ih =>
    simp only [List.length_append, List.length_singleton, Finset.sum_range_succ, List.map_append,
      List.map_cons, List.map_nil, List.sum_append, List.sum_cons, List.sum_nil, add_zero]
    congr 1
    · rw [← ih]
      apply Finset.sum_congr rfl
      intro x hx
      have hx2 : x < l.length := Finset.mem_range.mp hx
      simp [List.getD_eq_getElem?_getD, List.getElem?_append_left hx2]
    · simp [List.getD_eq_getElem?_getD]

theorem pending_le [DecidableEq W] (graph : AdjList W) (dist : List (WithTop W))
    (pq : List (QEntry W)) : pending graph dist pq ≤ (graph.map List.length).sum := by
  rw [← sum_outdeg_range]
  exact Finset.sum_le_sum_of_subset (Finset.filter_subset _ _)

theorem settled_push_iff [DecidableEq W] {dist : List (WithTop W)} {pq : List (QEntry W)}
    {v : Nat} (a : WithTop W) (hv : v < dist.length) (hnot : ¬ Settled dist pq v) (x : Nat) :
    Settled (dist.set v a) (pq ++ [(a, v)]) x ↔ Settled dist pq x := by
  unfold Settled
  rw [getD_set_top dist v a x hv]
  by_cases hx : x = v
  · subst hx
    simp only [if_true, List.mem_append, List.mem_singleton, or_true, not_true_eq_false,
      and_false, false_iff]
    exact hnot
  · simp only [hx, if_false, List.length_set, List.mem_append, List.mem_singleton,
      Prod.mk.injEq, and_false, or_false]

theorem pending_congr [DecidableEq W] (graph : AdjList W) {dist dist2 : List (WithTop W)}
    {pq pq2 : List (QEntry W)} (h : ∀ x, Settled dist2 pq2 x ↔ Settled dist pq x) :
    pending graph dist2 pq2 = pending graph dist pq := by
  unfold pending
  congr 1
  apply Finset.filter_congr
  intro x _
  rw [h x]

/-- An edge that does not improve `dist[v]` leaves the invariant in place. -/
theorem DInv.relax_skip [LinearOrderedAddCommGroup W] {graph : AdjList W} {source : Nat}
    {dist : List (WithTop W)} {pq : List (QEntry W)} {u v : Nat} {w : W}
    {rest : List (Nat × W)} (inv : DInv graph source dist pq u ((v, w) :: rest))
    (h : ¬ (dist.getD u ⊤ + (w : WithTop W) < dist.getD v ⊤)) :
    DInv graph source dist pq u rest := by
  refine ⟨inv.len, inv.src, inv.nonneg, inv.pqOK, inv.uniq, inv.settledLe,
    fun _ => inv.curOK (by simp), fun e he => inv.restOK e (List.mem_cons_of_mem _ he), ?_,
    inv.reach⟩
  intro x hx v1 w1 hmem
  rcases inv.relaxed x hx v1 w1 hmem with ⟨hxu, hin⟩ | hle
  · rcases List.mem_cons.mp hin with heq | hin2
    · right
      simp only [Prod.mk.injEq] at heq
      rw [heq.1, heq.2, hxu]
      exact not_lt.mp h
    · exact Or.inl ⟨hxu, hin2⟩
  · exact Or.inr hle

/-- An edge that improves `dist[v]`: the write and the push keep the
invariant and the settled vertices. -/
theorem DInv.relax_push [LinearOrderedAddCommGroup W] {graph : AdjList W} (hg : GraphOK graph)
    {source : Nat} {dist : List (WithTop W)} {pq : List (QEntry W)} {u v : Nat} {w : W}
    {rest : List (Nat × W)} (inv : DInv graph source dist pq u ((v, w) :: rest))
    (h : dist.getD u ⊤ + (w : WithTop W) < dist.getD v ⊤) :
    DInv graph source (dist.set v (dist.getD u ⊤ + (w : WithTop W)))
      (pq ++ [(dist.getD u ⊤ + (w : WithTop W), v)]) u rest ∧
    ∀ x, Settled (dist.set v (dist.getD u ⊤ + (w : WithTop W)))
      (pq ++ [(dist.getD u ⊤ + (w : WithTop W), v)]) x ↔ Settled dist pq x := by
  obtain ⟨hSu, hle_u⟩ := inv.curOK (by simp)
  have hedge : (v, w) ∈ graph.getD u [] := inv.restOK _ (List.mem_cons_self _ _)
  obtain ⟨hvn, hw⟩ := hg u v w hedge
  have hvl : v < dist.length := inv.len ▸ hvn
  have hw0 : (0 : WithTop W) ≤ (w : WithTop W) := by exact_mod_cast hw
  have hmono : dist.getD u ⊤ ≤ dist.getD u ⊤ + (w : WithTop W) := le_add_of_nonneg_right hw0
  have hndtop : dist.getD u ⊤ + (w : WithTop W) ≠ ⊤ := ne_top_of_lt h
  have hnd0 : (0 : WithTop W) ≤ dist.getD u ⊤ + (w : WithTop W) := add_nonneg (inv.nonneg u) hw0
  have hnotS : ¬ Settled dist pq v := by
    intro hS
    exact absurd (lt_of_le_of_lt (le_trans (hle_u v hS) hmono) h) (lt_irrefl _)
  have hset := settled_push_iff (dist.getD u ⊤ + (w : WithTop W)) hvl hnotS
  have hget := getD_set_top dist v (dist.getD u ⊤ + (w : WithTop W))
  have hdecr : ∀ x, (dist.set v (dist.getD u ⊤ + (w : WithTop W))).getD x ⊤ ≤ dist.getD x ⊤ := by
    intro x
    rw [hget x hvl]
    split
    · rename_i hx; rw [hx]; exact le_of_lt h
    · exact le_refl _
  have hsame : ∀ x, Settled dist pq x →
      (dist.set v (dist.getD u ⊤ + (w : WithTop W))).getD x ⊤ = dist.getD x ⊤ := by
    intro x hx
    rw [hget x hvl]
    have : x ≠ v := fun e => hnotS (e ▸ hx)
    simp only [this, if_false]
  refine ⟨⟨?_, ?_, ?_, ?_, ?_, ?_, ?_, ?_, ?_, ?_⟩, hset⟩
  · simpa using inv.len
  · rw [hget _ hvl]
    have : source ≠ v := by
      intro e
      rw [← e, inv.src] at h
      exact absurd (lt_of_le_of_lt hnd0 h) (lt_irrefl _)
    simp only [this, if_false]
    exact inv.src
  · intro x
    rw [hget x hvl]
    split
    · exact hnd0
    · exact inv.nonneg x
  · intro d y hmem
    rcases List.mem_append.mp hmem with h1 | h1
    · obtain ⟨h2, h3, h4⟩ := inv.pqOK d y h1
      exact ⟨h2, h3, le_trans (hdecr y) h4⟩
    · simp only [List.mem_singleton, Prod.mk.injEq] at h1
      rw [h1.1, h1.2, hget v hvl]
      simp only [if_true]
      exact ⟨hvn, hndtop, le_refl _⟩
  · intro y
    rw [List.count_append, hget y hvl]
    by_cases hy : y = v
    · subst hy
      simp only [if_true, List.count_singleton_self]
      have : pq.count (dist.getD u ⊤ + (w : WithTop W), y) = 0 := by
        rw [List.count_eq_zero]
        intro hmem
        have := (inv.pqOK _ _ hmem).2.2
        exact absurd (lt_of_lt_of_le h this) (lt_irrefl _)
      omega
    · simp only [hy, if_false]
      have h1 := inv.uniq y
      have h2 : [(dist.getD u ⊤ + (w : WithTop W), v)].count (dist.getD y ⊤, y) = 0 := by
        rw [List.count_eq_zero]
        simp only [List.mem_singleton, Prod.mk.injEq, not_and]
        exact fun _ => hy
      omega
  · intro x hx d y hmem
    have hx2 := (hset x).mp hx
    rw [hsame x hx2]
    rcases List.mem_append.mp hmem with h1 | h1
    · exact inv.settledLe x hx2 d y h1
    · simp only [List.mem_singleton, Prod.mk.injEq] at h1
      rw [h1.1]
      exact le_trans (hle_u x hx2) hmono
  · intro _
    refine ⟨(hset u).mpr hSu, fun x hx => ?_⟩
    have hx2 := (hset x).mp hx
    rw [hsame x hx2, hsame u hSu]
    exact hle_u x hx2
  · exact fun e he => inv.restOK e (List.mem_cons_of_mem _ he)
  · intro x hx v1 w1 hmem
    have hx2 := (hset x).mp hx
    rw [hsame x hx2]
    rcases inv.relaxed x hx2 v1 w1 hmem with ⟨hxu, hin⟩ | hle
    · rcases List.mem_cons.mp hin with heq | hin2
      · right
        simp only [Prod.mk.injEq] at heq
        rw [heq.1, heq.2, hxu, hget v hvl]
        simp only [if_true]
        exact le_refl _
      · exact Or.inl ⟨hxu, hin2⟩
    · exact Or.inr (le_trans (hdecr v1) hle)
  · intro x c hc
    rw [hget x hvl] at hc
    by_cases hx : x = v
    · subst hx
      simp only [if_true] at hc
      obtain ⟨c0, hc0⟩ := WithTop.ne_top_iff_exists.mp hSu.2.1
      rw [← hc0, ← WithTop.coe_add, WithTop.coe_eq_coe] at hc
      rw [← hc]
      exact PathW.snoc (inv.reach u c0 hc0.symm) hedge
    · simp only [hx, if_false] at hc
      exact inv.reach x c hc

/-- The `for` loop over the edges of `cur` keeps the invariant, relaxes all
its edges, and adds at most one queue entry for each edge. -/
theorem relaxEdges_spec [LinearOrderedAddCommGroup W] {graph : AdjList W} (hg : GraphOK graph)
    {source u : Nat} : ∀ (rest : List (Nat × W)) (dist : List (WithTop W))
    (pq : List (QEntry W)), DInv graph source dist pq u rest →
    ∃ dist2 pq2, relaxEdges u rest (dist, pq) = (dist2, pq2) ∧
      DInv graph source dist2 pq2 u [] ∧
      pq2.length + pending graph dist2 pq2 ≤ pq.length + pending graph dist pq + rest.length := by
  intro rest
  induction rest with
  | nil =>
    intro dist pq inv
    exact ⟨dist, pq, rfl, inv, by simp⟩
  | cons e rest ih =>
    intro dist pq inv
    obtain ⟨v, w⟩ := e
    by_cases h : dist.getD u ⊤ + (w : WithTop W) < dist.getD v ⊤
    · obtain ⟨inv2, hset⟩ := inv.relax_push hg h
      obtain ⟨dist2, pq2, h1, h2, h3⟩ := ih _ _ inv2
      refine ⟨dist2, pq2, ?_, h2, ?_⟩
      · simp only [relaxEdges, h, if_true]
        exact h1
      · rw [pending_congr graph hset] at h3
        simp only [List.length_append, List.length_singleton, List.length_cons, List.length_nil] at h3 ⊢
        omega
    · obtain ⟨dist2, pq2, h1, h2, h3⟩ := ih _ _ (inv.relax_skip h)
      refine ⟨dist2, pq2, ?_, h2, ?_⟩
      · simp only [relaxEdges, h, if_false]
        exact h1
      · simp only [List.length_cons]
        omega

/-- Popping a stale entry keeps the invariant and the settled vertices. -/
theorem DInv.pop_stale [LinearOrderedAddCommGroup W] {graph : AdjList W} {source : Nat}
    {dist : List (WithTop W)} {pq : List (QEntry W)} {cur u : Nat} {d : WithTop W}
    (inv : DInv graph source dist pq cur []) (hst : dist.getD u ⊤ < d) :
    DInv graph source dist (pq.erase (d, u)) cur [] ∧
    ∀ x, Settled dist (pq.erase (d, u)) x ↔ Settled dist pq x := by
  have hset : ∀ x, Settled dist (pq.erase (d, u)) x ↔ Settled dist pq x := by
    intro x
    unfold Settled
    have hne : (dist.getD x ⊤, x) ≠ (d, u) := by
      intro e
      simp only [Prod.mk.injEq] at e
      rw [← e.2, e.1] at hst
      exact lt_irrefl _ hst
    rw [List.mem_erase_of_ne hne]
  refine ⟨⟨inv.len, inv.src, inv.nonneg, ?_, ?_, ?_, fun h => absurd rfl h, ?_, ?_, inv.reach⟩,
    hset⟩
  · exact fun d1 y hmem => inv.pqOK d1 y (List.mem_of_mem_erase hmem)
  · exact fun y => le_trans ((List.erase_sublist _ _).count_le _) (inv.uniq y)
  · exact fun x hx d1 y hmem => inv.settledLe x ((hset x).mp hx) d1 y (List.mem_of_mem_erase hmem)
  · intro e he; simp at he
  · exact fun x hx v w hmem => inv.relaxed x ((hset x).mp hx) v w hmem

/-- Popping the entry of a vertex with its current distance settles the
vertex; all its edges are then to be relaxed. -/
theorem DInv.pop_fresh [LinearOrderedAddCommGroup W] {graph : AdjList W} {source : Nat}
    {dist : List (WithTop W)} {pq : List (QEntry W)} {cur u : Nat} {d : WithTop W}
    (inv : DInv graph source dist pq cur []) (hmem : (d, u) ∈ pq)
    (hmin : ∀ e, e ∈ pq → d ≤ e.1) (hns : ¬ dist.getD u ⊤ < d) :
    DInv graph source dist (pq.erase (d, u)) u (graph.getD u []) ∧
    (pq.erase (d, u)).length + pending graph dist (pq.erase (d, u)) +
      (graph.getD u []).length + 1 = pq.length + pending graph dist pq := by
  obtain ⟨hun, hdtop, hle⟩ := inv.pqOK d u hmem
  have hd : dist.getD u ⊤ = d := le_antisymm hle (not_lt.mp hns)
  have hnotS : ¬ Settled dist pq u := fun h => h.2.2 (hd ▸ hmem)
  have hnotmem : (dist.getD u ⊤, u) ∉ pq.erase (d, u) := by
    rw [hd, ← List.count_eq_zero, List.count_erase_self]
    have := inv.uniq u
    rw [hd] at this
    omega
  have hSu : Settled dist (pq.erase (d, u)) u := ⟨inv.len ▸ hun, hd ▸ hdtop, hnotmem⟩
  have hset : ∀ x, Settled dist (pq.erase (d, u)) x ↔ (Settled dist pq x ∨ x = u) := by
    intro x
    by_cases hx : x = u
    · subst hx
      exact ⟨fun _ => Or.inr rfl, fun _ => hSu⟩
    · have hne : (dist.getD x ⊤, x) ≠ (d, u) := by
        intro e
        simp only [Prod.mk.injEq] at e
        exact hx e.2
      unfold Settled
      rw [List.mem_erase_of_ne hne]
      simp [hx]
  constructor
  · refine ⟨inv.len, inv.src, inv.nonneg, ?_, ?_, ?_, ?_, fun e he => he, ?_, inv.reach⟩
    · exact fun d1 y hm => inv.pqOK d1 y (List.mem_of_mem_erase hm)
    · exact fun y => le_trans ((List.erase_sublist _ _).count_le _) (inv.uniq y)
    · intro x hx d1 y hm
      have hm2 := List.mem_of_mem_erase hm
      rcases (hset x).mp hx with h | h
      · exact inv.settledLe x h d1 y hm2
      · rw [h, hd]; exact hmin _ hm2
    · intro _
      refine ⟨hSu, fun x hx => ?_⟩
      rcases (hset x).mp hx with h | h
      · rw [hd]; exact inv.settledLe x h d u hmem
      · rw [h]
    · intro x hx v w hm
      rcases (hset x).mp hx with h | h
      · rcases inv.relaxed x h v w hm with ⟨_, h2⟩ | h2
        · simp at h2
        · exact Or.inr h2
      · subst h; exact Or.inl ⟨rfl, hm⟩
  · have hlen : (pq.erase (d, u)).length + 1 = pq.length := by
      rw [List.length_erase_of_mem hmem]
      have := List.length_pos_of_mem hmem
      omega
    have hfilter : (Finset.range graph.length).filter
        (fun x => ¬ Settled dist (pq.erase (d, u)) x) =
        ((Finset.range graph.length).filter (fun x => ¬ Settled dist pq x)).erase u := by
      ext x
      simp only [Finset.mem_filter, Finset.mem_range, Finset.mem_erase, hset]
      tauto
    have humem : u ∈ (Finset.range graph.length).filter (fun x => ¬ Settled dist pq x) := by
      simp only [Finset.mem_filter, Finset.mem_range]
      exact ⟨hun, hnotS⟩
    have hsum := Finset.add_sum_erase _ (fun x => (graph.getD x []).length) humem
    unfold pending
    rw [hfilter]
    simp only at hsum
    omega

/-- The `while` loop ends within its budget whenever the budget exceeds the
queue length plus the number of edges leaving unsettled vertices; it ends
with an empty queue and the invariant. -/
theorem dijkstraLoop_spec [LinearOrderedAddCommGroup W] {graph : AdjList W} (hg : GraphOK graph)
    {source : Nat} : ∀ (fuel : Nat) (dist : List (WithTop W)) (pq : List (QEntry W)) (cur : Nat),
    DInv graph source dist pq cur [] → pq.length + pending graph dist pq < fuel →
    ∃ out cur2, dijkstraLoop graph fuel dist pq = some out ∧ DInv graph source out [] cur2 [] := by
  intro fuel
  induction fuel with
  | zero => intro _ _ _ _ h; omega
  | succ fuel ih =>
    intro dist pq cur inv hlt
    cases htop : pqTop pq with
    | none =>
      have := pqTop_none htop
      subst this
      exact ⟨dist, cur, by simp [dijkstraLoop, htop], inv⟩
    | some m =>
      obtain ⟨d, u⟩ := m
      obtain ⟨hmem, hmin⟩ := pqTop_some htop
      by_cases hst : dist.getD u ⊤ < d
      · obtain ⟨inv2, hset⟩ := inv.pop_stale (d := d) hst
        have hlen : (pq.erase (d, u)).length + 1 = pq.length := by
          rw [List.length_erase_of_mem hmem]
          have := List.length_pos_of_mem hmem
          omega
        obtain ⟨out, cur2, h1, h2⟩ := ih dist (pq.erase (d, u)) cur inv2 (by
          rw [pending_congr graph hset]; omega)
        refine ⟨out, cur2, ?_, h2⟩
        simp only [dijkstraLoop, htop, hst, if_true]
        exact h1
      · obtain ⟨inv2, hmeasure⟩ := inv.pop_fresh hmem hmin hst
        obtain ⟨dist2, pq2, hrel, inv3, hle⟩ := relaxEdges_spec hg _ _ _ inv2
        obtain ⟨out, cur2, h1, h2⟩ := ih dist2 pq2 u inv3 (by omega)
        refine ⟨out, cur2, ?_, h2⟩
        simp only [dijkstraLoop, htop, hst, if_false, hrel]
        exact h1

/-- The state before the `while` loop satisfies the invariant. -/
theorem DInv.start [LinearOrderedAddCommGroup W] (graph : AdjList W) {source : Nat}
    (hs : source < graph.length) :
    DInv graph source ((List.replicate graph.length (⊤ : WithTop W)).set source 0)
      [(0, source)] source [] := by
  have hget : ∀ x, ((List.replicate graph.length (⊤ : WithTop W)).set source 0).getD x ⊤ =
      if x = source then 0 else ⊤ := by
    intro x
    rw [getD_set_top _ _ _ _ (by simpa using hs)]
    split
    · rfl
    · simp only [List.getD_eq_getElem?_getD, List.getElem?_replicate]
      split <;> rfl
  have hnoS : ∀ x, ¬ Settled ((List.replicate graph.length (⊤ : WithTop W)).set source 0)
      [(0, source)] x := by
    intro x hx
    obtain ⟨_, h2, h3⟩ := hx
    rw [hget] at h2 h3
    by_cases hxs : x = source
    · simp [hxs] at h3
    · simp [hxs] at h2
  refine ⟨by simp, ?_, ?_, ?_, ?_, ?_, fun h => absurd rfl h, ?_, ?_, ?_⟩
  · rw [hget]; simp
  · intro v
    rw [hget]
    split
    · exact le_refl _
    · exact le_top
  · intro d y hmem
    simp only [List.mem_singleton, Prod.mk.injEq] at hmem
    rw [hmem.1, hmem.2, hget]
    simp only [if_true]
    exact ⟨hs, WithTop.zero_ne_top, le_refl _⟩
  · intro y
    exact le_trans (List.count_le_length _ _) (by simp)
  · exact fun x hx => absurd hx (hnoS x)
  · intro e he; simp at he
  · exact fun x hx => absurd hx (hnoS x)
  · intro v c hc
    rw [hget] at hc
    by_cases hv : v = source
    · simp only [hv, if_true] at hc
      have : c = 0 := by exact_mod_cast hc.symm
      rw [hv, this]
      exact PathW.nil
    · simp only [hv, if_false] at hc
      exact absurd hc.symm WithTop.coe_ne_top

/-- With the queue empty, no path is shorter than the recorded distance. -/
theorem DInv.le_path [LinearOrderedAddCommGroup W] {graph : AdjList W} {source cur : Nat}
    {dist : List (WithTop W)} (inv : DInv graph source dist [] cur []) {v : Nat} {c : W}
    (hp : PathW graph source v c) : dist.getD v ⊤ ≤ (c : WithTop W) := by
  induction hp with
  | nil => rw [inv.src]; exact le_of_eq WithTop.coe_zero.symm
  | @snoc u v c w _ hedge ih =>
    have hfin : dist.getD u ⊤ ≠ ⊤ := ne_top_of_le_ne_top WithTop.coe_ne_top ih
    have hul : u < dist.length := by
      by_contra hge
      apply hfin
      simp [List.getD_eq_getElem?_getD, List.getElem?_eq_none (Nat.le_of_not_lt hge)]
    have hS : Settled dist [] u := ⟨hul, hfin, by simp⟩
    rcases inv.relaxed u hS v w hedge with ⟨_, h⟩ | h
    · simp at h
    · rw [WithTop.coe_add]
      exact le_trans h (add_le_add_right ih _)

theorem graphOK_of_forall [LinearOrderedAddCommGroup W] {graph : AdjList W}
    (h : ∀ l, l ∈ graph → ∀ e, e ∈ l → e.1 < graph.length ∧ 0 ≤ e.2) : GraphOK graph := by
  intro u v w hmem
  by_cases hu : u < graph.length
  · have hl : graph.getD u [] ∈ graph := by
      simp only [List.getD_eq_getElem?_getD, List.getElem?_eq_getElem hu, Option.getD_some]
      exact List.getElem_mem hu
    exact h _ hl (v, w) hmem
  · simp [List.getD_eq_getElem?_getD, List.getElem?_eq_none (Nat.le_of_not_lt hu)] at hmem

/-- C8. For a graph with neighbour indices in `[0, n)` and non-negative
weights and a source in `[0, n)`, `dijkstra` returns a vector of length `n`
with `dist[source] = 0`, in which a finite entry `dist[v]` is the weight of a
path from the source to `v`, no path from the source to `v` weighs less than
`dist[v]`, and `dist[v]` is the infinite sentinel exactly when there is no
path from the source to `v`. -/
theorem dijkstra_correct [LinearOrderedAddCommGroup W] (graph : AdjList W) (source : Nat)
    (hg : GraphOK graph) (hs : source < graph.length) :
    ∃ dist, dijkstra graph source = some dist ∧ dist.length = graph.length ∧
      dist.getD source ⊤ = 0 ∧
      (∀ (v : Nat) (c : W), dist.getD v ⊤ = (c : WithTop W) → PathW graph source v c) ∧
      (∀ (v : Nat) (c : W), PathW graph source v c → dist.getD v ⊤ ≤ (c : WithTop W)) ∧
      (∀ v : Nat, dist.getD v ⊤ = ⊤ ↔ ¬ ∃ c : W, PathW graph source v c) := by
  have hfuel : [((0 : WithTop W), source)].length +
      pending graph ((List.replicate graph.length (⊤ : WithTop W)).set source 0)
        [(0, source)] < (graph.map List.length).sum + 2 := by
    have := pending_le graph ((List.replicate graph.length (⊤ : WithTop W)).set source 0)
      [(0, source)]
    simp only [List.length_singleton]
    omega
  obtain ⟨out, cur2, h1, inv⟩ := dijkstraLoop_spec hg _ _ _ source (DInv.start graph hs) hfuel
  refine ⟨out, h1, inv.len, inv.src, inv.reach, fun v c hp => inv.le_path hp, fun v => ?_⟩
  constructor
  · rintro htop ⟨c, hp⟩
    have := inv.le_path hp
    rw [htop] at this
    exact WithTop.coe_ne_top (top_le_iff.mp this)
  · intro hno
    by_contra hne
    obtain ⟨c, hc⟩ := WithTop.ne_top_iff_exists.mp hne
    exact hno ⟨c, inv.reach v c hc.symm⟩

/-- Instance: five vertices, vertex `4` unreachable from the source `0`. -/
theorem dijkstra_correct_witness :
    ∃ dist, dijkstra ([[(1, 4), (2, 1)], [(3, 1)], [(1, 2), (3, 5)], [], [(0, 1)]] : AdjList Int)
        0 = some dist ∧
      dist.length =
        ([[(1, 4), (2, 1)], [(3, 1)], [(1, 2), (3, 5)], [], [(0, 1)]] : AdjList Int).length ∧
      dist.getD 0 ⊤ = 0 ∧
      (∀ (v : Nat) (c : Int), dist.getD v ⊤ = (c : WithTop Int) →
        PathW ([[(1, 4), (2, 1)], [(3, 1)], [(1, 2), (3, 5)], [], [(0, 1)]] : AdjList Int)
          0 v c) ∧
      (∀ (v : Nat) (c : Int),
        PathW ([[(1, 4), (2, 1)], [(3, 1)], [(1, 2), (3, 5)], [], [(0, 1)]] : AdjList Int)
          0 v c → dist.getD v ⊤ ≤ (c : WithTop Int)) ∧
      (∀ v : Nat, dist.getD v ⊤ = ⊤ ↔ ¬ ∃ c : Int,
        PathW ([[(1, 4), (2, 1)], [(3, 1)], [(1, 2), (3, 5)], [], [(0, 1)]] : AdjList Int)
          0 v c) :=
  dijkstra_correct ([[(1, 4), (2, 1)], [(3, 1)], [(1, 2), (3, 5)], [], [(0, 1)]] : AdjList Int) 0
    (graphOK_of_forall (by decide))
    (by decide)

/-! ## Theorems: the accepted edges on arbitrary input -/

/-- In a forest no edge is a self-loop. -/
theorem IsForest.no_self_loop {F : List (Edge W)} (hF : IsForest F) :
    ∀ e, e ∈ F → e.u ≠ e.v := by
  induction F with
  | nil => intro e he; simp at he
  | cons a F ih =>
    obtain ⟨h1, h2⟩ := isForest_cons.mp hF
    intro e he
    rcases List.mem_cons.mp he with rfl | h
    · intro heq
      apply h2
      rw [heq]
      exact Conn.refl _ _
    · exact ih h1 e h

/-- In a forest no two edges (at different positions) have the same two
endpoints. -/
theorem IsForest.no_parallel {F : List (Edge W)} (hF : IsForest F) :
    F.Pairwise (fun a b => ¬ ((a.u = b.u ∧ a.v = b.v) ∨ (a.u = b.v ∧ a.v = b.u))) := by
  induction F with
  | nil => exact List.Pairwise.nil
  | cons a F ih =>
    obtain ⟨h1, h2⟩ := isForest_cons.mp hF
    refine List.Pairwise.cons (fun b hb hpar => h2 ?_) (ih h1)
    rcases hpar with ⟨hu, hv⟩ | ⟨hu, hv⟩
    · rw [hu, hv]; exact Conn.of_edge hb
    · rw [hu, hv]; exact (Conn.of_edge hb).symm

/-- Everything the claims use about `kruskal_mst` on arbitrary in-range
input, for one returned list. -/
theorem kruskal_mst_greedy_forest [LinearOrderedAddCommGroup W]
    {sort : List (Edge W) → List (Edge W)} (hsort : SortsByWeight sort) {n : Nat}
    {edges : List (Edge W)} (hr : InRange n edges) :
    ∃ D, kruskal_mst sort n edges = some { edges := D, total_cost := weight D } ∧
      Greedy [] (sort edges) D ∧ IsForest D ∧ InRange n D ∧
      (∀ x y, Conn D x y ↔ Conn edges x y) ∧
      D.length + (compReps n edges).ncard = n := by
  obtain ⟨D, hk, hg⟩ := kruskal_mst_spec hsort hr
  obtain ⟨D2, hk2, _, hF, hDr, hconn, hcount⟩ := kruskal_mst_forest hsort hr
  have hD : D2 = D := by
    rw [hk] at hk2
    simp only [Option.some.injEq, MstResult.mk.injEq] at hk2
    exact hk2.1.symm
  subst hD
  exact ⟨D2, hk, hg, hF, hDr, hconn, hcount⟩

/-- C11. For every `n` and every edge list with endpoints in `[0, n)`
(parallel edges and self-loops allowed), `kruskal_mst` returns, and the
accepted edges, a sublist of the sorted input, form a forest: no edge has its
endpoints joined by the other accepted edges, no accepted edge is a
self-loop, and no two accepted edges have the same pair of endpoints. -/
theorem kruskal_mst_accepts_forest [LinearOrderedAddCommGroup W]
    (sort : List (Edge W) → List (Edge W)) (hsort : SortsByWeight sort) (n : Nat)
    (edges : List (Edge W)) (hr : InRange n edges) :
    ∃ res, kruskal_mst sort n edges = some res ∧ res.edges.Sublist (sort edges) ∧
      IsForest res.edges ∧ (∀ e, e ∈ res.edges → e.u ≠ e.v) ∧
      res.edges.Pairwise
        (fun a b => ¬ ((a.u = b.u ∧ a.v = b.v) ∨ (a.u = b.v ∧ a.v = b.u))) := by
  obtain ⟨D, hk, hg, hF, _, _, _⟩ := kruskal_mst_greedy_forest hsort hr
  exact ⟨_, hk, hg.accepted_sublist, hF, hF.no_self_loop, hF.no_parallel⟩

/-- Instance: a self-loop, two pairs of parallel edges and a triangle. -/
theorem kruskal_mst_accepts_forest_witness :
    ∃ res, kruskal_mst sortByWeight 3
        [(⟨(0 : Int), 1, 1⟩ : Edge Int), ⟨2, 0, 1⟩, ⟨2, 1, 0⟩, ⟨3, 1, 2⟩, ⟨1, 2, 1⟩,
          ⟨1, 0, 2⟩] = some res ∧
      res.edges.Sublist (sortByWeight
        [(⟨(0 : Int), 1, 1⟩ : Edge Int), ⟨2, 0, 1⟩, ⟨2, 1, 0⟩, ⟨3, 1, 2⟩, ⟨1, 2, 1⟩,
          ⟨1, 0, 2⟩]) ∧
      IsForest res.edges ∧ (∀ e, e ∈ res.edges → e.u ≠ e.v) ∧
      res.edges.Pairwise
        (fun a b => ¬ ((a.u = b.u ∧ a.v = b.v) ∨ (a.u = b.v ∧ a.v = b.u))) :=
  kruskal_mst_accepts_forest sortByWeight sortByWeight_sorts 3
    [(⟨(0 : Int), 1, 1⟩ : Edge Int), ⟨2, 0, 1⟩, ⟨2, 1, 0⟩, ⟨3, 1, 2⟩, ⟨1, 2, 1⟩, ⟨1, 0, 2⟩]
    (by
      intro e he
      simp only [List.mem_cons, List.mem_singleton, List.not_mem_nil, or_false] at he
      rcases he with rfl | rfl | rfl | rfl | rfl | rfl <;> decide)

/-- C12. For two edge lists with endpoints in `[0, n)` that are permutations
of each other, and any two admissible orderings of equal-weight edges by the
sort, the two results of `kruskal_mst` have equal `total_cost`, the same
number of edges, and join the same pairs of vertices. -/
theorem kruskal_mst_perm_invariant [LinearOrderedAddCommGroup W]
    (sort1 sort2 : List (Edge W) → List (Edge W)) (h1 : SortsByWeight sort1)
    (h2 : SortsByWeight sort2) (n : Nat) (edges1 edges2 : List (Edge W))
    (hr : InRange n edges1) (hperm : edges1.Perm edges2) :
    ∃ r1 r2, kruskal_mst sort1 n edges1 = some r1 ∧ kruskal_mst sort2 n edges2 = some r2 ∧
      r1.total_cost = r2.total_cost ∧ r1.edges.length = r2.edges.length ∧
      ∀ x y, Conn r1.edges x y ↔ Conn r2.edges x y := by
  have hr2 : InRange n edges2 := hr.of_subset (fun e he => hperm.symm.subset he)
  obtain ⟨D1, hk1, hg1, hF1, hDr1, hc1, hn1⟩ := kruskal_mst_greedy_forest h1 hr
  obtain ⟨D2, hk2, hg2, hF2, hDr2, hc2, hn2⟩ := kruskal_mst_greedy_forest h2 hr2
  have hcc : ∀ x y, Conn edges1 x y ↔ Conn edges2 x y :=
    conn_congr (fun e => ⟨fun h => hperm.subset h, fun h => hperm.symm.subset h⟩)
  have hcard : (compReps n edges1).ncard = (compReps n edges2).ncard :=
    Nat.le_antisymm (ncard_compReps_anti (fun x y h => (hcc x y).mpr h))
      (ncard_compReps_anti (fun x y h => (hcc x y).mp h))
  have hlen : D1.length = D2.length := by omega
  have hp1 := (h1 edges1).1
  have hp2 := (h2 edges2).1
  have hs1 : InRange n (sort1 edges1) := hr.of_subset (fun e he => hp1.subset he)
  have hs2 : InRange n (sort2 edges2) := hr2.of_subset (fun e he => hp2.subset he)
  have hle1 : weight D1 ≤ weight D2 :=
    hg1.weight_le (h1 edges1).2 hs1 hF2
      (fun e he => hp1.symm.subset (hperm.symm.subset (hp2.subset
        (hg2.accepted_sublist.subset he)))) hlen
  have hle2 : weight D2 ≤ weight D1 :=
    hg2.weight_le (h2 edges2).2 hs2 hF1
      (fun e he => hp2.symm.subset (hperm.subset (hp1.subset
        (hg1.accepted_sublist.subset he)))) hlen.symm
  exact ⟨_, _, hk1, hk2, le_antisymm hle1 hle2, hlen,
    fun x y => ((hc1 x y).trans (hcc x y)).trans (hc2 x y).symm⟩

/-- Instance: a square with a diagonal, all but one edge of weight 1, given in
two orders and sorted by the same sort. -/
theorem kruskal_mst_perm_invariant_witness :
    ∃ r1 r2,
      kruskal_mst sortByWeight 4
        [(⟨(1 : Int), 0, 1⟩ : Edge Int), ⟨1, 1, 2⟩, ⟨1, 2, 3⟩, ⟨1, 3, 0⟩, ⟨2, 0, 2⟩] = some r1 ∧
      kruskal_mst sortByWeight 4
        [(⟨(2 : Int), 0, 2⟩ : Edge Int), ⟨1, 3, 0⟩, ⟨1, 2, 3⟩, ⟨1, 1, 2⟩, ⟨1, 0, 1⟩] = some r2 ∧
      r1.total_cost = r2.total_cost ∧ r1.edges.length = r2.edges.length ∧
      ∀ x y, Conn r1.edges x y ↔ Conn r2.edges x y :=
  kruskal_mst_perm_invariant sortByWeight sortByWeight sortByWeight_sorts sortByWeight_sorts 4
    [(⟨(1 : Int), 0, 1⟩ : Edge Int), ⟨1, 1, 2⟩, ⟨1, 2, 3⟩, ⟨1, 3, 0⟩, ⟨2, 0, 2⟩]
    [(⟨(2 : Int), 0, 2⟩ : Edge Int), ⟨1, 3, 0⟩, ⟨1, 2, 3⟩, ⟨1, 1, 2⟩, ⟨1, 0, 1⟩]
    (by
      intro e he
      simp only [List.mem_cons, List.mem_singleton, List.not_mem_nil, or_false] at he
      rcases he with rfl | rfl | rfl | rfl | rfl <;> decide)
    (by decide)

/-! ## Theorems: leaves of forests -/

theorem degreeIn_cons (e : Edge W) (F : List (Edge W)) (x : Nat) :
    degreeIn (e :: F) x =
      degreeIn F x + (if e.u = x then 1 else 0) + (if e.v = x then 1 else 0) := by
  simp only [degreeIn, List.countP_cons, decide_eq_true_eq]
  omega

/-- Handshake: the degrees add up to twice the number of edges. -/
theorem sum_degreeIn {n : Nat} (F : List (Edge W)) (hr : InRange n F) :
    ∑ x in Finset.range n, degreeIn F x = 2 * F.length := by
  induction F with
  | nil => simp [degreeIn]
  | cons e F ih =>
    have he := hr e (List.mem_cons_self _ _)
    have ih2 := ih (fun a ha => hr a (List.mem_cons_of_mem _ ha))
    simp only [degreeIn_cons, Finset.sum_add_distrib, ih2, Finset.sum_ite_eq, Finset.mem_range,
      he.1, he.2, if_true, List.length_cons]
    omega

theorem degreeIn_pos_of_adj {F : List (Edge W)} {x c : Nat} (h : Adj F x c) :
    1 ≤ degreeIn F x := by
  obtain ⟨e, he, ⟨h1, _⟩ | ⟨_, h2⟩⟩ := h
  · have : 0 < F.countP (fun e => decide (e.u = x)) :=
      List.countP_pos_iff.mpr ⟨e, he, by simpa using h1⟩
    unfold degreeIn; omega
  · have : 0 < F.countP (fun e => decide (e.v = x)) :=
      List.countP_pos_iff.mpr ⟨e, he, by simpa using h2⟩
    unfold degreeIn; omega

theorem adj_of_degreeIn_pos {F : List (Edge W)} {x : Nat} (h : 1 ≤ degreeIn F x) :
    ∃ c, Adj F x c := by
  unfold degreeIn at h
  by_cases h1 : 0 < F.countP (fun e => decide (e.u = x))
  · obtain ⟨e, he, hx⟩ := List.countP_pos_iff.mp h1
    simp only [decide_eq_true_eq] at hx
    exact ⟨e.v, e, he, Or.inl ⟨hx, rfl⟩⟩
  · have h2 : 0 < F.countP (fun e => decide (e.v = x)) := by omega
    obtain ⟨e, he, hx⟩ := List.countP_pos_iff.mp h2
    simp only [decide_eq_true_eq] at hx
    exact ⟨e.u, e, he, Or.inr ⟨rfl, hx⟩⟩

/-- A nonempty edge list has more components than isolated vertices. -/
theorem card_isolated_lt_ncard_compReps {n : Nat} {F : List (Edge W)} (hr : InRange n F)
    (hne : F ≠ []) :
    ((Finset.range n).filter (fun x => degreeIn F x = 0)).card + 1 ≤ (compReps n F).ncard := by
  obtain ⟨e, he⟩ := List.exists_mem_of_ne_nil F hne
  obtain ⟨m, hmle, hmc, hmin⟩ := exists_rep F e.u
  have hmdeg : 1 ≤ degreeIn F m := by
    by_cases hm : m = e.u
    · rw [hm]; exact degreeIn_pos_of_adj ⟨e, he, Or.inl ⟨rfl, rfl⟩⟩
    · obtain ⟨c, hc⟩ := hmc.exists_adj hm
      exact degreeIn_pos_of_adj hc
  have hsub : insert m (((Finset.range n).filter (fun x => degreeIn F x = 0) : Finset Nat) :
      Set Nat) ⊆ compReps n F := by
    intro x hx
    rcases hx with rfl | hx
    · exact ⟨lt_of_le_of_lt hmle (hr e he).1, hmin⟩
    · simp only [Finset.coe_filter, Finset.mem_range, Set.mem_setOf_eq] at hx
      refine ⟨hx.1, fun y hy hc => ?_⟩
      obtain ⟨c, hc2⟩ := hc.symm.exists_adj (by omega)
      have := degreeIn_pos_of_adj hc2
      omega
  have hnot : m ∉ (((Finset.range n).filter (fun x => degreeIn F x = 0) : Finset Nat) :
      Set Nat) := by
    simp only [Finset.coe_filter, Finset.mem_range, Set.mem_setOf_eq, not_and]
    intro _; omega
  have h1 := Set.ncard_le_ncard hsub (compReps_finite n F)
  rw [Set.ncard_insert_of_not_mem hnot (Finset.finite_toSet _), Set.ncard_coe_Finset] at h1
  exact h1

/-- A nonempty forest has a vertex of degree one other than any given
vertex (it has at least two leaves). -/
theorem IsForest.exists_leaf_ne {n : Nat} {F : List (Edge W)} (hF : IsForest F)
    (hr : InRange n F) (hne : F ≠ []) (t : Nat) : ∃ x, x ≠ t ∧ degreeIn F x = 1 := by
  by_contra hno
  push_neg at hno
  have h1 := hF.length_add_ncard hr
  have h2 := card_isolated_lt_ncard_compReps hr hne
  have h3 := Finset.filter_card_add_filter_neg_card_eq_card (s := Finset.range n)
    (fun x => degreeIn F x = 0)
  rw [Finset.card_range] at h3
  have h4 := sum_degreeIn F hr
  have h5 : ∑ x in (Finset.range n).filter (fun x => ¬ degreeIn F x = 0), degreeIn F x ≤
      ∑ x in Finset.range n, degreeIn F x :=
    Finset.sum_le_sum_of_subset (Finset.filter_subset _ _)
  have h6 : ∑ x in (Finset.range n).filter (fun x => ¬ degreeIn F x = 0), 2 ≤
      ∑ x in (Finset.range n).filter (fun x => ¬ degreeIn F x = 0),
        (degreeIn F x + if x = t then 1 else 0) := by
    apply Finset.sum_le_sum
    intro x hx
    simp only [Finset.mem_filter] at hx
    by_cases hxt : x = t
    · simp only [hxt, if_true]
      have := hx.2
      rw [hxt] at this
      omega
    · simp only [hxt, if_false]
      have := hno x hxt
      have := hx.2
      omega
  have h7 : ∑ x in (Finset.range n).filter (fun x => ¬ degreeIn F x = 0),
      (if x = t then 1 else 0) ≤ 1 := by
    rw [Finset.sum_ite_eq']
    split <;> omega
  rw [Finset.sum_add_distrib] at h6
  simp only [Finset.sum_const, smul_eq_mul] at h6
  omega

theorem keepActive_inRange {n : Nat} {E : List (Edge W)} (hr : InRange n E) (s : PruneState) :
    InRange n (keepActive s E) :=
  hr.of_subset (fun _ he => (keepActive_sublist s E).subset he)

/-- Pruning a forest with at most one terminal removes every edge. -/
theorem prune_steiner_leaves_forest_nil {n : Nat} {E : List (Edge W)} {T : Finset Nat}
    (hr : InRange n E) (hF : IsForest E) (hT : ∀ t1 t2, t1 ∈ T → t2 ∈ T → t1 = t2) :
    prune_steiner_leaves n E T = some [] := by
  obtain ⟨s, _, hout, inv, hno⟩ := prune_steiner_leaves_spec T hr
  rw [hout]
  by_contra hne
  have hne2 : keepActive s E ≠ [] := fun h => hne (by rw [h])
  have hF2 : IsForest (keepActive s E) := hF.of_sublist (keepActive_sublist s E)
  have hr2 := keepActive_inRange hr s
  by_cases hem : ∃ t, t ∈ T
  · obtain ⟨t, ht⟩ := hem
    obtain ⟨x, hxt, hx⟩ := hF2.exists_leaf_ne hr2 hne2 t
    exact inv.degreeIn_ne_one hr hno (fun hxT => hxt (hT x t hxT ht)) hx
  · obtain ⟨x, _, hx⟩ := hF2.exists_leaf_ne hr2 hne2 0
    exact inv.degreeIn_ne_one hr hno (fun hxT => hem ⟨x, hxT⟩) hx

/-! ## Theorems: pruning forests, terminals -/

/-- A list returned by `kruskal_mst` is a forest. -/
theorem isForest_of_kruskal_mst [LinearOrderedAddCommGroup W]
    (sort : List (Edge W) → List (Edge W)) (n : Nat) (edges : List (Edge W))
    (res : MstResult W) (hsort : SortsByWeight sort) (hr : InRange n edges)
    (h : kruskal_mst sort n edges = some res) : IsForest res.edges := by
  obtain ⟨D, hk, _, hF, _, _, _⟩ := kruskal_mst_greedy_forest hsort hr
  rw [hk] at h
  simp only [Option.some.injEq] at h
  rw [← h]
  exact hF

/-- C13. For every `n` and every acyclic edge list with endpoints in
`[0, n)`, `prune_steiner_leaves` with the empty terminal set returns the
empty edge list. -/
theorem prune_steiner_leaves_no_terminals (n : Nat) (E : List (Edge W)) (hr : InRange n E)
    (hF : IsForest E) : prune_steiner_leaves n E ∅ = some [] :=
  prune_steiner_leaves_forest_nil hr hF (fun t1 _ h1 _ => absurd h1 (Finset.not_mem_empty t1))

/-- Instance: a star with centre `1` and a separate edge, a forest returned by
`kruskal_mst`. -/
theorem prune_steiner_leaves_no_terminals_witness :
    prune_steiner_leaves 6
      [(⟨(1 : Int), 0, 1⟩ : Edge Int), ⟨2, 1, 2⟩, ⟨3, 1, 3⟩, ⟨4, 4, 5⟩] ∅ = some [] :=
  prune_steiner_leaves_no_terminals 6
    [(⟨(1 : Int), 0, 1⟩ : Edge Int), ⟨2, 1, 2⟩, ⟨3, 1, 3⟩, ⟨4, 4, 5⟩]
    (by
      intro e he
      simp only [List.mem_cons, List.mem_singleton, List.not_mem_nil, or_false] at he
      rcases he with rfl | rfl | rfl | rfl <;> decide)
    (isForest_of_kruskal_mst sortByWeight 6
      [(⟨(1 : Int), 0, 1⟩ : Edge Int), ⟨2, 1, 2⟩, ⟨3, 1, 3⟩, ⟨4, 4, 5⟩]
      (MstResult.mk [(⟨(1 : Int), 0, 1⟩ : Edge Int), ⟨2, 1, 2⟩, ⟨3, 1, 3⟩, ⟨4, 4, 5⟩] 10)
      sortByWeight_sorts
      (by
        intro e he
        simp only [List.mem_cons, List.mem_singleton, List.not_mem_nil, or_false] at he
        rcases he with rfl | rfl | rfl | rfl <;> decide)
      (by decide))

/-- C17. For every `n`, every edge list with endpoints in `[0, n)` and every
terminal set, the pruning loop ends, and every terminal with degree at least
one in the input is marked active in the final state. -/
theorem prune_steiner_leaves_terminal_active (n : Nat) (E : List (Edge W)) (T : Finset Nat)
    (hr : InRange n E) :
    ∃ s, pruneFinal n E T = some s ∧
      ∀ t, t ∈ T → 1 ≤ degreeIn E t → s.active.getD t false = true := by
  obtain ⟨s, hs, inv, _⟩ := pruneFinal_spec T hr
  refine ⟨s, hs, fun t ht hdeg => ?_⟩
  obtain ⟨c, hc⟩ := adj_of_degreeIn_pos hdeg
  exact inv.termOK t c ht hc

/-- Instance: the path `0-1-2` with terminal `1`, whose degree drops to 0. -/
theorem prune_steiner_leaves_terminal_active_witness :
    ∃ s, pruneFinal 3 [(⟨(1 : Int), 0, 1⟩ : Edge Int), ⟨1, 1, 2⟩] {1} = some s ∧
      ∀ t, t ∈ ({1} : Finset Nat) →
        1 ≤ degreeIn [(⟨(1 : Int), 0, 1⟩ : Edge Int), ⟨1, 1, 2⟩] t →
        s.active.getD t false = true :=
  prune_steiner_leaves_terminal_active 3 [(⟨(1 : Int), 0, 1⟩ : Edge Int), ⟨1, 1, 2⟩] {1}
    (by
      intro e he
      simp only [List.mem_cons, List.mem_singleton, List.not_mem_nil, or_false] at he
      rcases he with rfl | rfl <;> decide)

/-! ## Theorems: the pruner and the order of the edge list -/

theorem list_eq_of_getD_eq : ∀ (l1 l2 : List Int), l1.length = l2.length →
    (∀ x, x < l1.length → l1.getD x 0 = l2.getD x 0) → l1 = l2 := by
  intro l1 l2 hlen h
  apply List.ext_getElem hlen
  intro i h1 h2
  have := h i h1
  simpa [List.getD_eq_getElem?_getD, List.getElem?_eq_getElem h1,
    List.getElem?_eq_getElem h2] using this

/-- The decrements of `degree` depend only on how often each neighbour
occurs, not on the order of the adjacency list. -/
theorem decrNeighbors_perm (a : List Bool) (deg : List Int) {L1 L2 : List Nat}
    (h : L1.Perm L2) : decrNeighbors a deg L1 = decrNeighbors a deg L2 := by
  apply list_eq_of_getD_eq
  · rw [decrNeighbors_length, decrNeighbors_length]
  · intro x hx
    rw [decrNeighbors_length] at hx
    rw [decrNeighbors_getD a L1 x deg hx, decrNeighbors_getD a L2 x deg hx, h.count_eq]

theorem buildAdj_perm {n : Nat} {E1 E2 : List (Edge W)} (hr : InRange n E1)
    (h : E1.Perm E2) (u : Nat) :
    ((buildAdj n E1).getD u []).Perm ((buildAdj n E2).getD u []) := by
  have hr2 : InRange n E2 := hr.of_subset (fun e he => h.symm.subset he)
  rw [List.perm_iff_count]
  intro a
  have h1 := buildAdj_countP hr u (fun z => z == a)
  have h2 := buildAdj_countP hr2 u (fun z => z == a)
  rw [List.count, h1, h2, h.countP_eq, h.countP_eq]

theorem pruneVisit_congr {adj1 adj2 : List (List Nat)}
    (h : ∀ u, (adj1.getD u []).Perm (adj2.getD u [])) (T : Finset Nat)
    (st : PruneState × Bool) (u : Nat) : pruneVisit adj1 T st u = pruneVisit adj2 T st u := by
  unfold pruneVisit
  split
  · simp only [decrNeighbors_perm _ _ (h u)]
  · rfl

theorem pruneFold_congr {adj1 adj2 : List (List Nat)}
    (h : ∀ u, (adj1.getD u []).Perm (adj2.getD u [])) (T : Finset Nat) :
    ∀ (L : List Nat) (st : PruneState × Bool),
    L.foldl (pruneVisit adj1 T) st = L.foldl (pruneVisit adj2 T) st := by
  intro L
  induction L with
  | nil => intro st; rfl
  | cons u L ih =>
    intro st
    simp only [List.foldl_cons]
    rw [pruneVisit_congr h, ih]

theorem prunePass_congr {adj1 adj2 : List (List Nat)}
    (h : ∀ u, (adj1.getD u []).Perm (adj2.getD u [])) (n : Nat) (T : Finset Nat)
    (s : PruneState) : prunePass n adj1 T s = prunePass n adj2 T s :=
  pruneFold_congr h T _ _

theorem pruneLoop_congr {adj1 adj2 : List (List Nat)}
    (h : ∀ u, (adj1.getD u []).Perm (adj2.getD u [])) (n : Nat) (T : Finset Nat) :
    ∀ (fuel : Nat) (s : PruneState),
    pruneLoop n adj1 T fuel s = pruneLoop n adj2 T fuel s := by
  intro fuel
  induction fuel with
  | zero => intro s; rfl
  | succ fuel ih =>
    intro s
    simp only [pruneLoop, prunePass_congr h]
    split
    · exact ih _
    · rfl

theorem pruneInit_congr {adj1 adj2 : List (List Nat)}
    (h : ∀ u, (adj1.getD u []).Perm (adj2.getD u [])) (n : Nat) :
    pruneInit n adj1 = pruneInit n adj2 := by
  unfold pruneInit
  simp only [(h _).length_eq]

/-- The states of the pruning loop do not depend on the order of the edge
list. -/
theorem pruneFinal_perm {n : Nat} {E1 E2 : List (Edge W)} (hr : InRange n E1)
    (h : E1.Perm E2) (T : Finset Nat) : pruneFinal n E1 T = pruneFinal n E2 T := by
  unfold pruneFinal
  rw [pruneInit_congr (buildAdj_perm hr h), pruneLoop_congr (buildAdj_perm hr h)]

theorem degreeIn_perm {E1 E2 : List (Edge W)} (h : E1.Perm E2) (x : Nat) :
    degreeIn E1 x = degreeIn E2 x := by
  unfold degreeIn
  rw [h.countP_eq, h.countP_eq]

theorem weight_perm [AddCommMonoid W] {E1 E2 : List (Edge W)} (h : E1.Perm E2) :
    weight E1 = weight E2 := by
  unfold weight
  exact (h.map _).sum_eq

theorem degreeIn_eq_zero_of_ge {n : Nat} {E : List (Edge W)} (hr : InRange n E) {x : Nat}
    (hx : n ≤ x) : degreeIn E x = 0 := by
  by_contra hne
  obtain ⟨c, hc⟩ := adj_of_degreeIn_pos (Nat.one_le_iff_ne_zero.mpr hne)
  have := (hc.endpoints_lt hr).1
  omega

/-! ## Theorems: the documented end-to-end input -/

theorem scenarioEdges_inRange : InRange 5 scenarioEdges := by
  intro e he
  simp only [scenarioEdges, List.mem_cons, List.mem_singleton, List.not_mem_nil, or_false] at he
  rcases he with rfl | rfl | rfl | rfl | rfl | rfl <;> decide

theorem scenarioPath_connected : Connected 5 scenarioPath := by
  have h01 : Conn scenarioPath 0 1 := Conn.of_edge (e := ⟨1, 0, 1⟩) (by simp [scenarioPath])
  have h12 : Conn scenarioPath 1 2 := Conn.of_edge (e := ⟨1, 1, 2⟩) (by simp [scenarioPath])
  have h23 : Conn scenarioPath 2 3 := Conn.of_edge (e := ⟨1, 2, 3⟩) (by simp [scenarioPath])
  have h34 : Conn scenarioPath 3 4 := Conn.of_edge (e := ⟨1, 3, 4⟩) (by simp [scenarioPath])
  apply connected_of_conn_zero
  intro x hx
  interval_cases x
  · exact Conn.refl _ _
  · exact h01
  · exact h01.trans h12
  · exact (h01.trans h12).trans h23
  · exact ((h01.trans h12).trans h23).trans h34

/-- On the documented input, whatever the order the sort gives to the edges
of equal weight, `kruskal_mst` accepts exactly the four edges of the path. -/
theorem scenario_mst (sort : List (Edge Int) → List (Edge Int)) (hsort : SortsByWeight sort) :
    ∃ D, kruskal_mst sort 5 scenarioEdges = some { edges := D, total_cost := 4 } ∧
      D.Perm scenarioPath := by
  obtain ⟨D, hk, hg, hF, hDr, hconn, hcount⟩ :=
    kruskal_mst_greedy_forest hsort scenarioEdges_inRange
  have hperm := (hsort scenarioEdges).1
  have hsorted := (hsort scenarioEdges).2
  have hsubD : ∀ e, e ∈ D → e ∈ scenarioEdges :=
    fun e he => hperm.subset (hg.accepted_sublist.subset he)
  -- the accepted edges of weight at most 1 already connect the five vertices
  have hfilter : scenarioEdges.filter (fun e => decide (e.w ≤ 1)) = scenarioPath := by decide
  have hcL : Connected 5 (D.filter (fun e => decide (e.w ≤ 1))) := by
    intro x y hx hy
    have h1 : Conn ([] ++ (sort scenarioEdges).filter (fun e => decide (e.w ≤ 1))) x y := by
      refine (scenarioPath_connected x y hx hy).mono (fun e he => ?_)
      rw [List.nil_append]
      rw [← hfilter] at he
      exact (hperm.filter _).symm.subset he
    simpa using hg.conn_threshold hsorted 1 h1
  have hLr : InRange 5 (D.filter (fun e => decide (e.w ≤ 1))) :=
    hDr.of_subset (fun e he => (List.mem_filter.mp he).1)
  have hLlen := (hF.of_sublist (List.filter_sublist D)).length_add_ncard hLr
  rw [ncard_compReps_of_connected (by decide) hcL] at hLlen
  have hcD : Connected 5 D :=
    fun x y hx hy => (hcL x y hx hy).mono (fun e he => (List.mem_filter.mp he).1)
  have hDlen := hF.length_add_ncard hDr
  rw [ncard_compReps_of_connected (by decide) hcD] at hDlen
  have hLD : D.filter (fun e => decide (e.w ≤ 1)) = D :=
    (List.filter_sublist D).eq_of_length (by omega)
  have hsubP : ∀ e, e ∈ D → e ∈ scenarioPath := by
    intro e he
    rw [← hfilter]
    rw [← hLD] at he
    exact List.mem_filter.mpr ⟨hsubD e (List.mem_filter.mp he).1, (List.mem_filter.mp he).2⟩
  have hnodup : D.Nodup := by
    have h1 : scenarioEdges.Nodup := by decide
    exact (hperm.nodup_iff.mpr h1).sublist hg.accepted_sublist
  have hDP : D.Perm scenarioPath :=
    (List.subperm_of_subset hnodup hsubP).perm_of_length_le (by
      have : scenarioPath.length = 4 := rfl
      omega)
  refine ⟨D, ?_, hDP⟩
  rw [hk, weight_perm hDP]
  rfl

theorem scenarioPath_inRange : InRange 5 scenarioPath :=
  scenarioEdges_inRange.of_subset (fun e he => by
    simp only [scenarioPath, List.mem_cons, List.mem_singleton, List.not_mem_nil,
      or_false] at he
    rcases he with rfl | rfl | rfl | rfl <;> simp [scenarioEdges])

/-- C14. On the documented input with terminals `{0, 4}`, whatever the order
the sort gives to the edges of equal weight: `kruskal_mst` returns exactly
the four weight-1 edges of the path `0-1-2-3-4` with `total_cost = 4`,
`prune_steiner_leaves` returns them unchanged, and the summed cost of the
pruned list is 4. -/
theorem scenario_terminals_0_4 (sort : List (Edge Int) → List (Edge Int))
    (hsort : SortsByWeight sort) :
    ∃ mst, kruskal_mst sort 5 scenarioEdges = some mst ∧ mst.edges.Perm scenarioPath ∧
      mst.total_cost = 4 ∧ prune_steiner_leaves 5 mst.edges {0, 4} = some mst.edges ∧
      pipeline sort 5 scenarioEdges {0, 4} = some (mst.edges, 4) := by
  obtain ⟨D, hk, hDP⟩ := scenario_mst sort hsort
  have hDr : InRange 5 D := scenarioPath_inRange.of_subset (fun e he => hDP.subset he)
  have hprune : prune_steiner_leaves 5 D {0, 4} = some D := by
    apply prune_steiner_leaves_fixed hDr
    intro x hx
    rw [degreeIn_perm hDP]
    by_cases hx5 : x < 5
    · simp only [Finset.mem_insert, Finset.mem_singleton, not_or] at hx
      interval_cases x
      · exact absurd rfl hx.1
      · decide
      · decide
      · decide
      · exact absurd rfl hx.2
    · rw [degreeIn_eq_zero_of_ge scenarioPath_inRange (Nat.le_of_not_lt hx5)]
      decide
  refine ⟨_, hk, hDP, rfl, hprune, ?_⟩
  simp only [pipeline, hk, hprune, foldl_add_weight, zero_add]
  rw [weight_perm hDP]
  rfl

/-- Instance: the insertion sort; the edges come out in input order. -/
theorem scenario_terminals_0_4_witness :
    (∃ mst, kruskal_mst sortByWeight 5 scenarioEdges = some mst ∧
      mst.edges.Perm scenarioPath ∧ mst.total_cost = 4 ∧
      prune_steiner_leaves 5 mst.edges {0, 4} = some mst.edges ∧
      pipeline sortByWeight 5 scenarioEdges {0, 4} = some (mst.edges, 4)) ∧
    pipeline sortByWeight 5 scenarioEdges {0, 4} =
      some ([⟨1, 0, 1⟩, ⟨1, 1, 2⟩, ⟨1, 2, 3⟩, ⟨1, 3, 4⟩], 4) :=
  ⟨scenario_terminals_0_4 sortByWeight sortByWeight_sorts, by decide⟩

/-- C15. On the documented input with terminal `0` only, whatever the order
the sort gives to the edges of equal weight: the pruner, applied to the
edges returned by `kruskal_mst`, deactivates vertex 4 in its first pass,
vertex 3 in the second, vertex 2 in the third and vertex 1 in the fourth,
removes nothing in the fifth, and returns the empty edge list; the summed
cost is 0. -/
theorem scenario_terminal_0 (sort : List (Edge Int) → List (Edge Int))
    (hsort : SortsByWeight sort) :
    ∃ mst, kruskal_mst sort 5 scenarioEdges = some mst ∧ mst.edges.Perm scenarioPath ∧
      prunePass 5 (buildAdj 5 mst.edges) {0} (pruneInit 5 (buildAdj 5 mst.edges)) =
        ({ degree := [1, 2, 2, 1, 0], active := [true, true, true, true, false] }, true) ∧
      prunePass 5 (buildAdj 5 mst.edges) {0}
          { degree := [1, 2, 2, 1, 0], active := [true, true, true, true, false] } =
        ({ degree := [1, 2, 1, 0, 0], active := [true, true, true, false, false] }, true) ∧
      prunePass 5 (buildAdj 5 mst.edges) {0}
          { degree := [1, 2, 1, 0, 0], active := [true, true, true, false, false] } =
        ({ degree := [1, 1, 0, 0, 0], active := [true, true, false, false, false] }, true) ∧
      prunePass 5 (buildAdj 5 mst.edges) {0}
          { degree := [1, 1, 0, 0, 0], active := [true, true, false, false, false] } =
        ({ degree := [0, 0, 0, 0, 0], active := [true, false, false, false, false] }, true) ∧
      prunePass 5 (buildAdj 5 mst.edges) {0}
          { degree := [0, 0, 0, 0, 0], active := [true, false, false, false, false] } =
        ({ degree := [0, 0, 0, 0, 0], active := [true, false, false, false, false] }, false) ∧
      pruneFinal 5 mst.edges {0} =
        some { degree := [0, 0, 0, 0, 0], active := [true, false, false, false, false] } ∧
      prune_steiner_leaves 5 mst.edges {0} = some [] ∧
      pipeline sort 5 scenarioEdges {0} = some ([], 0) := by
  obtain ⟨D, hk, hDP⟩ := scenario_mst sort hsort
  have hDr : InRange 5 D := scenarioPath_inRange.of_subset (fun e he => hDP.subset he)
  have hadj := buildAdj_perm hDr hDP
  have hfinal : pruneFinal 5 D {0} =
      some { degree := [0, 0, 0, 0, 0], active := [true, false, false, false, false] } := by
    rw [pruneFinal_perm hDr hDP]
    decide
  have hprune : prune_steiner_leaves 5 D {0} = some [] := by
    have h1 : keepActive
        { degree := [0, 0, 0, 0, 0], active := [true, false, false, false, false] } D = [] := by
      have h2 := hDP.filter (fun e =>
        [true, false, false, false, false].getD e.u false &&
          [true, false, false, false, false].getD e.v false)
      have h3 : scenarioPath.filter (fun e =>
        [true, false, false, false, false].getD e.u false &&
          [true, false, false, false, false].getD e.v false) = [] := by decide
      rw [h3] at h2
      exact h2.eq_nil
    simp only [prune_steiner_leaves, hfinal, Option.map_some', h1]
  refine ⟨_, hk, hDP, ?_, ?_, ?_, ?_, ?_, hfinal, hprune, ?_⟩
  · rw [prunePass_congr hadj, pruneInit_congr hadj]; decide
  · rw [prunePass_congr hadj]; decide
  · rw [prunePass_congr hadj]; decide
  · rw [prunePass_congr hadj]; decide
  · rw [prunePass_congr hadj]; decide
  · simp only [pipeline, hk, hprune]
    rfl

/-- Instance: the insertion sort. -/
theorem scenario_terminal_0_witness :
    ∃ mst, kruskal_mst sortByWeight 5 scenarioEdges = some mst ∧
      mst.edges.Perm scenarioPath ∧
      prunePass 5 (buildAdj 5 mst.edges) {0} (pruneInit 5 (buildAdj 5 mst.edges)) =
        ({ degree := [1, 2, 2, 1, 0], active := [true, true, true, true, false] }, true) ∧
      prunePass 5 (buildAdj 5 mst.edges) {0}
          { degree := [1, 2, 2, 1, 0], active := [true, true, true, true, false] } =
        ({ degree := [1, 2, 1, 0, 0], active := [true, true, true, false, false] }, true) ∧
      prunePass 5 (buildAdj 5 mst.edges) {0}
          { degree := [1, 2, 1, 0, 0], active := [true, true, true, false, false] } =
        ({ degree := [1, 1, 0, 0, 0], active := [true, true, false, false, false] }, true) ∧
      prunePass 5 (buildAdj 5 mst.edges) {0}
          { degree := [1, 1, 0, 0, 0], active := [true, true, false, false, false] } =
        ({ degree := [0, 0, 0, 0, 0], active := [true, false, false, false, false] }, true) ∧
      prunePass 5 (buildAdj 5 mst.edges) {0}
          { degree := [0, 0, 0, 0, 0], active := [true, false, false, false, false] } =
        ({ degree := [0, 0, 0, 0, 0], active := [true, false, false, false, false] }, false) ∧
      pruneFinal 5 mst.edges {0} =
        some { degree := [0, 0, 0, 0, 0], active := [true, false, false, false, false] } ∧
      prune_steiner_leaves 5 mst.edges {0} = some [] ∧
      pipeline sortByWeight 5 scenarioEdges {0} = some ([], 0) :=
  scenario_terminal_0 sortByWeight sortByWeight_sorts
/-! ## Theorems: sequences of DSU calls -/

/-- The edge list (with trivial weights) of a list of united pairs. -/
theorem conn_pairs_iff (ops : List (Nat × Nat)) (a b : Nat) :
    Conn (ops.map (fun p => (⟨(), p.1, p.2⟩ : Edge Unit))) a b ↔
      Relation.EqvGen (fun x y => (x, y) ∈ ops) a b := by
  constructor
  · intro h
    induction h with
    | refl => exact Relation.EqvGen.refl _
    | tail _ hadj ih =>
      refine Relation.EqvGen.trans _ _ _ ih ?_
      obtain ⟨e, he, h1⟩ := hadj
      obtain ⟨p, hp, rfl⟩ := List.mem_map.mp he
      rcases h1 with ⟨h2, h3⟩ | ⟨h2, h3⟩
      · simp only at h2 h3
        subst h2; subst h3
        exact Relation.EqvGen.rel _ _ hp
      · simp only at h2 h3
        subst h2; subst h3
        exact Relation.EqvGen.symm _ _ (Relation.EqvGen.rel _ _ hp)
  · intro h
    induction h with
    | rel x y hxy =>
      exact Conn.of_edge (e := (⟨(), x, y⟩ : Edge Unit)) (List.mem_map.mpr ⟨(x, y), hxy, rfl⟩)
    | refl x => exact Conn.refl _ _
    | symm _ _ _ ih => exact ih.symm
    | trans _ _ _ _ _ ih1 ih2 => exact ih1.trans ih2

/-- One `unite` call keeps the invariant, with the united pair added. -/
theorem KInv.unite {n : Nat} {d : DSU} {K : List (Edge Unit)} (inv : KInv n d K) {a b : Nat}
    (ha : a < n) (hb : b < n) :
    ∃ ok d1, d.unite a b = some (ok, d1) ∧ KInv n d1 (⟨(), a, b⟩ :: K) ∧
      (ok = true ↔ ¬ Conn K a b) := by
  obtain ⟨wf, hK, hsame⟩ := inv
  obtain ⟨ok, d1, hu, wf1, hok, hmerge⟩ := DSU.unite_spec wf ha hb
  refine ⟨ok, d1, hu, ⟨wf1, ?_, ?_⟩, ?_⟩
  · intro e he
    rcases List.mem_cons.mp he with rfl | h1
    · exact ⟨ha, hb⟩
    · exact hK e h1
  · intro x y hx hy
    rw [hmerge, conn_cons, hsame x y hx hy, hsame x a hx ha, hsame b y hb hy,
      hsame x b hx hb, hsame a y ha hy]
  · rw [← hsame a b ha hb, ← hok]
    cases ok <;> simp

/-- A sequence of `unite` calls with in-range arguments returns and keeps
the invariant, with the united pairs added. -/
theorem DSU.uniteAll_spec {n : Nat} : ∀ (ops pre : List (Nat × Nat)) (d : DSU),
    KInv n d (pre.map (fun p => (⟨(), p.1, p.2⟩ : Edge Unit))) →
    (∀ p, p ∈ ops → p.1 < n ∧ p.2 < n) →
    ∃ oks d1, d.uniteAll ops = some (oks, d1) ∧
      KInv n d1 ((pre ++ ops).map (fun p => (⟨(), p.1, p.2⟩ : Edge Unit))) := by
  intro ops
  induction ops with
  | nil =>
    intro pre d inv _
    exact ⟨[], d, rfl, by simpa using inv⟩
  | cons p ops ih =>
    intro pre d inv hr
    have hp := hr p (List.mem_cons_self _ _)
    obtain ⟨ok, d1, hu, inv1, _⟩ := inv.unite hp.1 hp.2
    have inv2 : KInv n d1 ((pre ++ [p]).map (fun p => (⟨(), p.1, p.2⟩ : Edge Unit))) := by
      refine ⟨inv1.1, ?_, fun x y hx hy => ?_⟩
      · intro e he
        apply inv1.2.1 e
        simp only [List.map_append, List.map_cons, List.map_nil, List.mem_append,
          List.mem_singleton] at he
        rcases he with h | h
        · exact List.mem_cons_of_mem _ h
        · rw [h]; exact List.mem_cons_self _ _
      · rw [inv1.2.2 x y hx hy]
        exact conn_congr (fun e => by simp [or_comm]) x y
    obtain ⟨oks, d2, hall, inv3⟩ := ih (pre ++ [p]) d1 inv2
      (fun q hq => hr q (List.mem_cons_of_mem _ hq))
    refine ⟨ok :: oks, d2, ?_, ?_⟩
    · simp only [DSU.uniteAll, hu, hall]
    · simpa using inv3

/-- A sequence of calls followed by one more call. -/
theorem DSU.uniteAll_append : ∀ (ops : List (Nat × Nat)) (d d1 d2 : DSU) (oks : List Bool)
    (a b : Nat) (ok : Bool), d.uniteAll ops = some (oks, d1) → d1.unite a b = some (ok, d2) →
    d.uniteAll (ops ++ [(a, b)]) = some (oks ++ [ok], d2) := by
  intro ops
  induction ops with
  | nil =>
    intro d d1 d2 oks a b ok h1 h2
    simp only [DSU.uniteAll, Option.some.injEq, Prod.mk.injEq] at h1
    obtain ⟨rfl, rfl⟩ := h1
    simp [DSU.uniteAll, h2]
  | cons p ops ih =>
    intro d d1 d2 oks a b ok h1 h2
    simp only [DSU.uniteAll] at h1
    cases hu : d.unite p.1 p.2 with
    | none => simp [hu] at h1
    | some r =>
      obtain ⟨ok0, d0⟩ := r
      simp only [hu] at h1
      cases hall : d0.uniteAll ops with
      | none => simp [hall] at h1
      | some r2 =>
        obtain ⟨oks0, d3⟩ := r2
        simp only [hall, Option.some.injEq, Prod.mk.injEq] at h1
        obtain ⟨rfl, rfl⟩ := h1
        simp [DSU.uniteAll, hu, ih d0 d3 d2 oks0 a b ok hall h2]

/-- The test `find(a) == find(b)` on a state satisfying the invariant. -/
theorem DSU.sameSet_spec {n : Nat} {d : DSU} (wf : d.WF n) {a b : Nat} (ha : a < n) (hb : b < n) :
    ∃ r d2, d.sameSet a b = some (r, d2) ∧ (r = true ↔ d.Same a b) ∧ d2.WF n ∧
      (∀ y s, d2.Root y s ↔ d.Root y s) ∧ d2.rank = d.rank := by
  obtain ⟨ra, d1, hfa, hra, wf1, hroot1, hrank1⟩ := DSU.find_spec wf ha
  obtain ⟨rb, d2, hfb, hrb1, wf2, hroot2, hrank2⟩ := DSU.find_spec wf1 hb
  have hrb : d.Root b rb := (hroot1 b rb).mp hrb1
  refine ⟨decide (ra = rb), d2, by simp [DSU.sameSet, hfa, hfb], ?_, wf2,
    fun y s => (hroot2 y s).trans (hroot1 y s), hrank2.trans hrank1⟩
  simp only [decide_eq_true_eq]
  constructor
  · intro h
    exact ⟨rb, h ▸ hra, hrb⟩
  · rintro ⟨r, h1, h2⟩
    exact (hra.unique h1).trans (h2.unique hrb)

/-- C16. After every finite sequence `ops` of `unite` calls on `DSU(n)` with
arguments in `[0, n)`: the calls return; for `a, b` in `[0, n)` the test
`find(a) == find(b)` holds exactly when `a` and `b` are related by the
reflexive, symmetric and transitive closure of the united pairs; and one
more call `unite(a, b)` returns `true` exactly when the test was false
before it, that is, when `a` and `b` were in different sets. -/
theorem DSU.uniteAll_sets (n : Nat) (ops : List (Nat × Nat))
    (hops : ∀ p, p ∈ ops → p.1 < n ∧ p.2 < n) :
    ∃ oks d, (DSU.new n).uniteAll ops = some (oks, d) ∧ oks.length = ops.length ∧
      ∀ a b, a < n → b < n →
        (∃ r d1, d.sameSet a b = some (r, d1) ∧
          (r = true ↔ Relation.EqvGen (fun x y => (x, y) ∈ ops) a b) ∧
          ∃ ok d2, d.unite a b = some (ok, d2) ∧
            (DSU.new n).uniteAll (ops ++ [(a, b)]) = some (oks ++ [ok], d2) ∧
            (ok = true ↔ r = false) ∧
            (ok = true ↔ ¬ Relation.EqvGen (fun x y => (x, y) ∈ ops) a b)) := by
  obtain ⟨oks, d, hall, inv⟩ := DSU.uniteAll_spec ops [] (DSU.new n) (KInv.new n) hops
  simp only [List.nil_append] at inv
  have hlen : ∀ (ops : List (Nat × Nat)) (d d1 : DSU) (oks : List Bool),
      d.uniteAll ops = some (oks, d1) → oks.length = ops.length := by
    intro ops
    induction ops with
    | nil =>
      intro d d1 oks h
      simp only [DSU.uniteAll, Option.some.injEq, Prod.mk.injEq] at h
      rw [← h.1]
      rfl
    | cons p ops ih =>
      intro d d1 oks h
      simp only [DSU.uniteAll] at h
      cases hu : d.unite p.1 p.2 with
      | none => simp [hu] at h
      | some r =>
        obtain ⟨ok0, d0⟩ := r
        simp only [hu] at h
        cases hall : d0.uniteAll ops with
        | none => simp [hall] at h
        | some r2 =>
          obtain ⟨oks0, d3⟩ := r2
          simp only [hall, Option.some.injEq, Prod.mk.injEq] at h
          rw [← h.1]
          simp [ih d0 d3 oks0 hall]
  refine ⟨oks, d, hall, hlen _ _ _ _ hall, fun a b ha hb => ?_⟩
  obtain ⟨r, d1, hs, hr, _⟩ := DSU.sameSet_spec inv.1 ha hb
  obtain ⟨ok, d2, hu, _, hok⟩ := inv.unite ha hb
  have hsame := inv.2.2 a b ha hb
  refine ⟨r, d1, hs, ?_, ok, d2, hu, DSU.uniteAll_append ops _ _ _ _ a b ok hall hu, ?_, ?_⟩
  · rw [hr, hsame, conn_pairs_iff]
  · rw [hok, ← hsame, ← hr]
    cases r <;> simp
  · rw [hok, conn_pairs_iff]

/-- Instance: `unite(0,1)`, `unite(2,3)`, `unite(1,0)` on `DSU(4)`. -/
theorem DSU.uniteAll_sets_witness :
    ∃ oks d, (DSU.new 4).uniteAll [(0, 1), (2, 3), (1, 0)] = some (oks, d) ∧
      oks.length = [(0, 1), (2, 3), (1, 0)].length ∧
      ∀ a b, a < 4 → b < 4 →
        (∃ r d1, d.sameSet a b = some (r, d1) ∧
          (r = true ↔
            Relation.EqvGen (fun x y => (x, y) ∈ [(0, 1), (2, 3), (1, 0)]) a b) ∧
          ∃ ok d2, d.unite a b = some (ok, d2) ∧
            (DSU.new 4).uniteAll ([(0, 1), (2, 3), (1, 0)] ++ [(a, b)]) =
              some (oks ++ [ok], d2) ∧
            (ok = true ↔ r = false) ∧
            (ok = true ↔
              ¬ Relation.EqvGen (fun x y => (x, y) ∈ [(0, 1), (2, 3), (1, 0)]) a b)) :=
  DSU.uniteAll_sets 4 [(0, 1), (2, 3), (1, 0)] (by decide)

/-- Path compression only repoints entries to the root of their vertex. -/
theorem DSU.findAux_par {n : Nat} : ∀ (fuel : Nat) (d : DSU) (x : Nat), d.WF n → x < n →
    n - d.rk x < fuel → ∀ r d1, DSU.findAux fuel d x = some (r, d1) →
    ∀ y, d1.par y = d.par y ∨ d.Root y (d1.par y) := by
  intro fuel
  induction fuel with
  | zero => intro d x _ _ h; omega
  | succ f ih =>
    intro d x wf hx hf r d1 hfind y
    have hxl : x < d.parent.length := wf.plen ▸ hx
    rw [DSU.findAux, DSU.get_of_lt hxl] at hfind
    by_cases hp : d.par x = x
    · simp only [hp, if_true, Option.some.injEq, Prod.mk.injEq] at hfind
      rw [← hfind.2]
      exact Or.inl rfl
    · simp only [hp, if_false] at hfind
      have h1 := wf.rankInc x hx hp
      have h2 := wf.rankBound _ (wf.pbound x hx)
      obtain ⟨r0, d0, he, hr, wf1, hroot1, _⟩ :=
        DSU.findAux_spec f d (d.par x) wf (wf.pbound x hx) (by omega)
      have hpar := ih d (d.par x) wf (wf.pbound x hx) (by omega) r0 d0 he y
      rw [he] at hfind
      simp only [Option.some.injEq, Prod.mk.injEq] at hfind
      obtain ⟨rfl, rfl⟩ := hfind
      have hxr : d.Root x r0 := DSU.Root.step hxl hp hr
      rw [DSU.par_set d0 x r0 y (wf1.plen.trans wf.plen.symm ▸ hxl)]
      by_cases hy : y = x
      · simp only [hy, if_true]
        exact Or.inr hxr
      · simp only [hy, if_false]
        exact hpar

theorem DSU.find_par {n : Nat} {d : DSU} (wf : d.WF n) {x : Nat} (hx : x < n) {r : Nat}
    {d1 : DSU} (h : d.find x = some (r, d1)) (y : Nat) :
    d1.par y = d.par y ∨ d.Root y (d1.par y) := by
  unfold DSU.find at h
  refine DSU.findAux_par _ d x wf hx ?_ r d1 h y
  rw [wf.plen]
  omega

/-- On a vertex that is a root or the child of a root, `find` changes
nothing. -/
theorem DSU.find_flat {n : Nat} {d : DSU} (wf : d.WF n) {x : Nat} (hx : x < n)
    (hflat : d.par (d.par x) = d.par x) : d.find x = some (d.par x, d) := by
  have hxl : x < d.parent.length := wf.plen ▸ hx
  have hpl : d.par x < d.parent.length := wf.plen ▸ wf.pbound x hx
  obtain ⟨m, hm⟩ : ∃ m, d.parent.length = m + 1 := ⟨d.parent.length - 1, by omega⟩
  unfold DSU.find
  rw [hm, DSU.findAux, DSU.get_of_lt hxl]
  by_cases hp : d.par x = x
  · simp only [hp, if_true]
  · simp only [hp, if_false]
    rw [DSU.findAux, DSU.get_of_lt hpl]
    simp only [hflat, if_true]
    have : d.parent.set x (d.par x) = d.parent := by
      apply List.ext_getElem?
      intro i
      rw [List.getElem?_set]
      by_cases hi : x = i
      · subst hi
        simp [hxl, DSU.get_of_lt hxl]
      · simp [hi]
    rw [this]

/-- C20, as claimed, fails: on the state reached from `DSU(4)` by
`unite(0,1)`, `unite(2,3)`, `unite(0,2)`, vertices 3 and 1 are in one set
(`find(3) == find(1)`), and `unite(3,1)` returns `false` but compresses the
path of vertex 3, so that `parent[3]` changes from 2 to 0. -/
theorem DSU.unite_joined_changes_parent :
    (DSU.new 4).uniteAll [(0, 1), (2, 3), (0, 2)] =
      some ([true, true, true], { parent := [0, 0, 0, 2], rank := [2, 0, 1, 0] }) ∧
    (DSU.sameSet { parent := [0, 0, 0, 2], rank := [2, 0, 1, 0] } 3 1).map Prod.fst =
      some true ∧
    DSU.unite { parent := [0, 0, 0, 2], rank := [2, 0, 1, 0] } 3 1 =
      some (false, { parent := [0, 0, 0, 0], rank := [2, 0, 1, 0] }) ∧
    DSU.unite { parent := [0, 0, 0, 2], rank := [2, 0, 1, 0] } 3 1 ≠
      some (false, { parent := [0, 0, 0, 2], rank := [2, 0, 1, 0] }) := by
  decide

/-- C20, amended. On every state reached from `DSU(n)` by `unite` calls with
arguments in `[0, n)`, and for `a, b` in `[0, n)` with `find(a) == find(b)`,
the call `unite(a, b)` returns `false`; the rank array is unchanged; the
parent array keeps its length, and each entry is unchanged or now holds the
root of its vertex, so that every vertex keeps its root and the sets are
unchanged; and if `a` and `b` are each a root or the child of a root, the
state after the call is identical to the state before. -/
theorem DSU.unite_joined_frame (n : Nat) (ops : List (Nat × Nat))
    (hops : ∀ p, p ∈ ops → p.1 < n ∧ p.2 < n) (oks : List Bool) (d : DSU)
    (hd : (DSU.new n).uniteAll ops = some (oks, d)) (a b : Nat) (ha : a < n) (hb : b < n)
    (h : (d.sameSet a b).map Prod.fst = some true) :
    ∃ d1, d.unite a b = some (false, d1) ∧ d1.rank = d.rank ∧
      d1.parent.length = d.parent.length ∧
      (∀ x, d1.par x = d.par x ∨ d.Root x (d1.par x)) ∧
      (∀ x r, d1.Root x r ↔ d.Root x r) ∧
      (∀ x y, d1.Same x y ↔ d.Same x y) ∧
      (d.par (d.par a) = d.par a → d.par (d.par b) = d.par b → d1 = d) := by
  obtain ⟨oks0, d0, hall, inv⟩ := DSU.uniteAll_spec ops [] (DSU.new n) (KInv.new n) hops
  rw [hd] at hall
  simp only [Option.some.injEq, Prod.mk.injEq] at hall
  obtain ⟨_, rfl⟩ := hall
  have wf := inv.1
  obtain ⟨ra, d1, hfa, hra, wf1, hroot1, hrank1⟩ := DSU.find_spec wf ha
  obtain ⟨rb, d2, hfb, hrb1, wf2, hroot2, hrank2⟩ := DSU.find_spec wf1 hb
  have hab : ra = rb := by
    simpa [DSU.sameSet, hfa, hfb] using h
  have hroot : ∀ y s, d2.Root y s ↔ d.Root y s := fun y s => (hroot2 y s).trans (hroot1 y s)
  have hu : d.unite a b = some (false, d2) := by
    unfold DSU.unite
    rw [hfa]
    simp only [hfb, hab, if_true]
  refine ⟨d2, hu, hrank2.trans hrank1, wf2.plen.trans wf.plen.symm, fun x => ?_, hroot,
    DSU.same_congr hroot, fun h1 h2 => ?_⟩
  · rcases DSU.find_par wf1 hb hfb x with h2 | h2
    · rw [h2]
      exact DSU.find_par wf ha hfa x
    · exact Or.inr ((hroot1 _ _).mp h2)
  · have e1 := DSU.find_flat wf ha h1
    rw [hfa] at e1
    simp only [Option.some.injEq, Prod.mk.injEq] at e1
    obtain ⟨_, rfl⟩ := e1
    have e2 := DSU.find_flat wf1 hb h2
    rw [hfb] at e2
    simp only [Option.some.injEq, Prod.mk.injEq] at e2
    exact e2.2

/-- Instance: `unite(3, 1)` after `unite(0,1)`, `unite(2,3)`, `unite(0,2)` on
`DSU(4)`. -/
theorem DSU.unite_joined_frame_witness :
    ∃ d1, DSU.unite { parent := [0, 0, 0, 2], rank := [2, 0, 1, 0] } 3 1 = some (false, d1) ∧
      d1.rank = [2, 0, 1, 0] ∧
      d1.parent.length = [0, 0, 0, 2].length ∧
      (∀ x, d1.par x = DSU.par { parent := [0, 0, 0, 2], rank := [2, 0, 1, 0] } x ∨
        DSU.Root { parent := [0, 0, 0, 2], rank := [2, 0, 1, 0] } x (d1.par x)) ∧
      (∀ x r, d1.Root x r ↔ DSU.Root { parent := [0, 0, 0, 2], rank := [2, 0, 1, 0] } x r) ∧
      (∀ x y, d1.Same x y ↔ DSU.Same { parent := [0, 0, 0, 2], rank := [2, 0, 1, 0] } x y) ∧
      (DSU.par { parent := [0, 0, 0, 2], rank := [2, 0, 1, 0] }
          (DSU.par { parent := [0, 0, 0, 2], rank := [2, 0, 1, 0] } 3) =
          DSU.par { parent := [0, 0, 0, 2], rank := [2, 0, 1, 0] } 3 →
        DSU.par { parent := [0, 0, 0, 2], rank := [2, 0, 1, 0] }
          (DSU.par { parent := [0, 0, 0, 2], rank := [2, 0, 1, 0] } 1) =
          DSU.par { parent := [0, 0, 0, 2], rank := [2, 0, 1, 0] } 1 →
        d1 = { parent := [0, 0, 0, 2], rank := [2, 0, 1, 0] }) :=
  DSU.unite_joined_frame 4 [(0, 1), (2, 3), (0, 2)] (by decide) [true, true, true]
    { parent := [0, 0, 0, 2], rank := [2, 0, 1, 0] } (by decide) 3 1 (by decide) (by decide)
    (by decide)
/-! ## Theorems: the number of passes of the pruning loop -/

theorem getD_set_false (l : List Bool) (u x : Nat) :
    (l.set u false).getD x false = if x = u then false else l.getD x false := by
  simp only [List.getD_eq_getElem?_getD, List.getElem?_set]
  by_cases hx : x = u
  · subst hx
    by_cases hl : x < l.length
    · simp [hl]
    · simp [hl, List.getElem?_eq_none (Nat.le_of_not_lt hl)]
  · have : ¬ u = x := fun e => hx e.symm
    simp [hx, this]

/-- The state after the removal of `u` (lines 57-66). -/
theorem pruneVisit_act (adj : List (List Nat)) {T : Finset Nat} {s : PruneState} {u : Nat}
    (h : removable T s u = true) (x : Nat) :
    (pruneVisit adj T (s, false) u).1.act x = if x = u then false else s.act x := by
  rw [pruneVisit_of_removable h]
  exact getD_set_false _ _ _

/-- A removable vertex has an active neighbour other than itself. -/
theorem PInv.active_neighbour {n : Nat} {E : List (Edge W)} {T : Finset Nat} {s : PruneState}
    (hr : InRange n E) (inv : PInv n E T s) {u : Nat} (hrem : removable T s u = true) :
    ∃ v, v ∈ (buildAdj n E).getD u [] ∧ v ≠ u ∧ s.act v = true := by
  obtain ⟨hact, hdeg, _⟩ := removable_iff.mp hrem
  have hcount1 : ((buildAdj n E).getD u []).countP s.act = 1 := by
    have := inv.degOK u hact
    rw [hdeg] at this
    exact_mod_cast this.symm
  have h1 := countP_split_at (p := s.act) (q := fun x => if x = u then false else s.act x)
    (u := u) hact (fun _ => rfl) ((buildAdj n E).getD u [])
  have h2 := buildAdj_countP hr u (fun z => z == u)
  have h3 : E.countP (fun e => decide (e.v = u) && (e.u == u)) =
      E.countP (fun e => decide (e.u = u) && (e.v == u)) := by
    apply List.countP_congr
    intro e _
    simp only [Bool.and_eq_true, decide_eq_true_eq, beq_iff_eq]
    tauto
  have h4 : ((buildAdj n E).getD u []).count u =
      2 * E.countP (fun e => decide (e.u = u) && (e.v == u)) := by
    rw [List.count, h2, h3]
    omega
  have h5 : 0 < ((buildAdj n E).getD u []).countP (fun x => if x = u then false else s.act x) := by
    omega
  obtain ⟨v, hv, hq⟩ := List.countP_pos_iff.mp h5
  by_cases hvu : v = u
  · simp [hvu] at hq
  · simp only [hvu, if_false] at hq
    exact ⟨v, hv, hvu, hq⟩

theorem count_true_pos_of_getD {l : List Bool} {v : Nat} (h : l.getD v false = true) :
    1 ≤ l.count true := by
  have hv : v < l.length := by
    by_contra hx
    simp [List.getD_eq_getElem?_getD, List.getElem?_eq_none (Nat.le_of_not_lt hx)] at h
  have : true ∈ l := by
    rw [List.getD_eq_getElem?_getD, List.getElem?_eq_getElem hv] at h
    simp only [Option.getD_some] at h
    exact h ▸ List.getElem_mem hv
  exact List.count_pos_iff.mpr this

/-- After a removal an active vertex is left. -/
theorem PInv.remove_count_pos {n : Nat} {E : List (Edge W)} {T : Finset Nat} {s : PruneState}
    (hr : InRange n E) (inv : PInv n E T s) {u : Nat} (hrem : removable T s u = true) :
    1 ≤ (s.active.set u false).count true := by
  obtain ⟨v, _, hvu, hv⟩ := inv.active_neighbour hr hrem
  apply count_true_pos_of_getD (v := v)
  rw [getD_set_false]
  simp only [hvu, if_false]
  exact hv

/-- A scan that removes a vertex leaves an active vertex. -/
theorem pruneFold_count_pos {n : Nat} {E : List (Edge W)} {T : Finset Nat} (hr : InRange n E) :
    ∀ (L : List Nat) (s : PruneState) (b : Bool), PInv n E T s →
    (b = true → 1 ≤ s.active.count true) → ∀ s1,
    L.foldl (pruneVisit (buildAdj n E) T) (s, b) = (s1, true) → 1 ≤ s1.active.count true := by
  intro L
  induction L with
  | nil =>
    intro s b _ hb s1 h
    simp only [List.foldl_nil, Prod.mk.injEq] at h
    rw [← h.1]
    exact hb h.2
  | cons u L ih =>
    intro s b inv hb s1 h
    simp only [List.foldl_cons] at h
    by_cases hrem : removable T s u = true
    · rw [pruneVisit_of_removable hrem] at h
      exact ih _ true (inv.remove hr hrem).1 (fun _ => inv.remove_count_pos hr hrem) s1 h
    · have hrem2 : removable T s u = false := by simpa using hrem
      rw [pruneVisit_of_not_removable hrem2] at h
      exact ih s b inv hb s1 h

/-- The counted loop is the loop, and the number of its passes is at most the
number of active vertices, or one if there is none. -/
theorem pruneLoopCount_spec {n : Nat} {E : List (Edge W)} {T : Finset Nat} (hr : InRange n E) :
    ∀ (fuel : Nat) (s : PruneState), PInv n E T s → s.active.count true < fuel →
    ∃ s1 k, pruneLoopCount n (buildAdj n E) T fuel s = some (s1, k) ∧
      pruneLoop n (buildAdj n E) T fuel s = some s1 ∧ 1 ≤ k ∧
      k ≤ max (s.active.count true) 1 := by
  intro fuel
  induction fuel with
  | zero => intro s _ h; omega
  | succ fuel ih =>
    intro s inv hlt
    obtain ⟨s1, b1, hfold, inv1, _, _, hdec, _⟩ := pruneFold_spec hr (List.range n) s false inv
    have hpass : prunePass n (buildAdj n E) T s = (s1, b1) := hfold
    cases b1 with
    | true =>
      have h1 := hdec rfl rfl
      have h2 := pruneFold_count_pos hr (List.range n) s false inv
        (fun h => absurd h (by decide)) s1 hfold
      obtain ⟨s2, k, hc, hl, hk1, hk2⟩ := ih s1 inv1 (by omega)
      refine ⟨s2, k + 1, ?_, ?_, by omega, ?_⟩
      · simp only [pruneLoopCount, hpass, hc]
      · simp only [pruneLoop, hpass]
        exact hl
      · rw [max_eq_left h2] at hk2
        have : k + 1 ≤ s.active.count true := by omega
        exact le_trans this (le_max_left _ _)
    | false =>
      refine ⟨s1, 1, ?_, ?_, le_refl _, le_max_right _ _⟩
      · simp only [pruneLoopCount, hpass]
      · simp only [pruneLoop, hpass]

/-- C19, as claimed, fails: with `n = 0` (no vertex, no edge, no terminal) the
`while` loop executes one pass, which is more than `n`. -/
theorem prunePassCount_no_vertex :
    ∃ k, prunePassCount 0 ([] : List (Edge Int)) ∅ = some k ∧ ¬ k ≤ 0 :=
  ⟨1, by decide, by decide⟩

/-- C19, amended. For every `n`, edge list with endpoints in `[0, n)` and
terminal set, the `while` loop of `prune_steiner_leaves` ends, and the number
of passes it executes (the last one, which removes nothing, included) is at
least 1 and at most `max n 1`: at most `n` whenever `n ≥ 1`. -/
theorem prunePassCount_le (n : Nat) (E : List (Edge W)) (T : Finset Nat)
    (hr : InRange n E) :
    ∃ s k, pruneLoopCount n (buildAdj n E) T (n + 1) (pruneInit n (buildAdj n E)) =
        some (s, k) ∧
      pruneFinal n E T = some s ∧ prunePassCount n E T = some k ∧
      1 ≤ k ∧ k ≤ max n 1 ∧ (1 ≤ n → k ≤ n) := by
  have h1 : (pruneInit n (buildAdj n E)).active.length = n := by simp [pruneInit]
  have h2 := List.count_le_length true (pruneInit n (buildAdj n E)).active
  obtain ⟨s, k, hc, hl, hk1, hk2⟩ :=
    pruneLoopCount_spec hr (n + 1) _ (PInv.init T hr) (by omega)
  have hk3 : k ≤ max n 1 := le_trans hk2 (max_le_max (by omega) (le_refl _))
  refine ⟨s, k, hc, hl, by simp [prunePassCount, hc], hk1, hk3, fun hn => ?_⟩
  rw [max_eq_left hn] at hk3
  exact hk3

/-- Instance: the path `0-1-2-3-4` with terminal `0` takes exactly `n = 5`
passes. -/
theorem prunePassCount_le_witness :
    (∃ s k, pruneLoopCount 5 (buildAdj 5 scenarioPath) {0} (5 + 1)
          (pruneInit 5 (buildAdj 5 scenarioPath)) = some (s, k) ∧
        pruneFinal 5 scenarioPath {0} = some s ∧ prunePassCount 5 scenarioPath {0} = some k ∧
        1 ≤ k ∧ k ≤ max 5 1 ∧ (1 ≤ 5 → k ≤ 5)) ∧
      prunePassCount 5 scenarioPath {0} = some 5 :=
  ⟨prunePassCount_le 5 scenarioPath {0} scenarioPath_inRange, by decide⟩
/-! ## Theorems: the order of the removals -/

/-- The kept edges after the removal of `u`: those that do not touch `u`. -/
theorem keepActive_remove (adj : List (List Nat)) {T : Finset Nat} {s : PruneState} {u : Nat}
    (h : removable T s u = true) (E : List (Edge W)) :
    keepActive (pruneVisit adj T (s, false) u).1 E =
      (keepActive s E).filter (fun e => decide (e.u ≠ u) && decide (e.v ≠ u)) := by
  unfold keepActive
  rw [List.filter_filter]
  apply List.filter_congr
  intro e _
  have h1 := pruneVisit_act adj h e.u
  have h2 := pruneVisit_act adj h e.v
  simp only [PruneState.act] at h1 h2
  rw [h1, h2]
  by_cases hu : e.u = u <;> by_cases hv : e.v = u <;> simp [hu, hv]

theorem filter_of_degreeIn_eq_zero {X : List (Edge W)} {u : Nat} (h : degreeIn X u = 0) :
    X.filter (fun e => decide (e.u ≠ u) && decide (e.v ≠ u)) = X := by
  unfold degreeIn at h
  have h1 : X.countP (fun e => decide (e.u = u)) = 0 := by omega
  have h2 : X.countP (fun e => decide (e.v = u)) = 0 := by omega
  rw [List.countP_eq_zero] at h1 h2
  rw [List.filter_eq_self]
  intro e he
  have := h1 e he
  have := h2 e he
  simp_all

theorem degreeIn_le_of_sublist {X Y : List (Edge W)} (h : X.Sublist Y) (x : Nat) :
    degreeIn X x ≤ degreeIn Y x := by
  unfold degreeIn
  exact Nat.add_le_add (h.countP_le _) (h.countP_le _)

/-- A removable vertex has degree one in the kept edges. -/
theorem PInv.degreeIn_removable {n : Nat} {E : List (Edge W)} {T : Finset Nat} {s : PruneState}
    (hr : InRange n E) (inv : PInv n E T s) {u : Nat} (hrem : removable T s u = true) :
    degreeIn (keepActive s E) u = 1 := by
  obtain ⟨hact, hdeg, _⟩ := removable_iff.mp hrem
  rw [degreeIn_keepActive hr]
  simp only [hact, if_true]
  have := inv.degOK u hact
  rw [hdeg] at this
  exact_mod_cast this.symm

/-- Any number of removals keeps the loop invariant, only drops kept edges,
and keeps every sublist of the kept edges in which no non-terminal has
degree one. -/
theorem LeafRemovals.spec {n : Nat} {E : List (Edge W)} {T : Finset Nat} (hr : InRange n E)
    {s s2 : PruneState} (h : LeafRemovals (buildAdj n E) T s s2) :
    PInv n E T s → PInv n E T s2 ∧ (keepActive s2 E).Sublist (keepActive s E) ∧
      ∀ X : List (Edge W), X.Sublist (keepActive s E) → (∀ x, x ∉ T → degreeIn X x ≠ 1) →
        X.Sublist (keepActive s2 E) := by
  induction h with
  | done s => exact fun inv => ⟨inv, List.Sublist.refl _, fun X hX _ => hX⟩
  | @step s0 s3 u hrem _ ih =>
    intro inv
    have inv1 : PInv n E T (pruneVisit (buildAdj n E) T (s0, false) u).1 := by
      rw [pruneVisit_of_removable hrem]
      exact (inv.remove hr hrem).1
    obtain ⟨inv2, hsub, hX⟩ := ih inv1
    have hstep := keepActive_remove (buildAdj n E) hrem E
    refine ⟨inv2, ?_, fun X hXs hst => ?_⟩
    · refine hsub.trans ?_
      rw [hstep]
      exact List.filter_sublist _
    · apply hX X _ hst
      rw [hstep]
      have h1 := degreeIn_le_of_sublist hXs u
      rw [inv.degreeIn_removable hr hrem] at h1
      have h2 := hst u (removable_iff.mp hrem).2.2
      have h3 : degreeIn X u = 0 := by omega
      rw [← filter_of_degreeIn_eq_zero h3]
      exact hXs.filter _

theorem LeafRemovals.append {adj : List (List Nat)} {T : Finset Nat} {s s1 s2 : PruneState}
    (h : LeafRemovals adj T s s1) (h2 : LeafRemovals adj T s1 s2) : LeafRemovals adj T s s2 := by
  induction h with
  | done s => exact h2
  | step u hrem _ ih => exact LeafRemovals.step u hrem (ih h2)

/-- Two sequences of removals that both end in a state without removable
vertex keep the same edges. -/
theorem LeafRemovals.keepActive_eq {n : Nat} {E : List (Edge W)} {T : Finset Nat}
    (hr : InRange n E) {s s1 s2 : PruneState} (inv : PInv n E T s)
    (h1 : LeafRemovals (buildAdj n E) T s s1) (h2 : LeafRemovals (buildAdj n E) T s s2)
    (hno1 : ∀ u, removable T s1 u = false) (hno2 : ∀ u, removable T s2 u = false) :
    keepActive s1 E = keepActive s2 E := by
  obtain ⟨inv1, hsub1, hX1⟩ := h1.spec hr inv
  obtain ⟨inv2, hsub2, hX2⟩ := h2.spec hr inv
  apply List.Sublist.antisymm
  · exact hX2 _ hsub1 (fun x hx => inv1.degreeIn_ne_one hr hno1 hx)
  · exact hX1 _ hsub2 (fun x hx => inv2.degreeIn_ne_one hr hno2 hx)

/-- A scan of any list of vertices is a sequence of removals. -/
theorem pruneFold_removals (adj : List (List Nat)) (T : Finset Nat) :
    ∀ (L : List Nat) (s : PruneState) (b : Bool),
    LeafRemovals adj T s (L.foldl (pruneVisit adj T) (s, b)).1 := by
  intro L
  induction L with
  | nil => intro s b; exact LeafRemovals.done s
  | cons u L ih =>
    intro s b
    simp only [List.foldl_cons]
    by_cases hrem : removable T s u = true
    · have : pruneVisit adj T (s, b) u = ((pruneVisit adj T (s, false) u).1, true) := by
        rw [pruneVisit_of_removable hrem, pruneVisit_of_removable hrem]
      rw [this]
      exact LeafRemovals.step u hrem (ih _ true)
    · have hrem2 : removable T s u = false := by simpa using hrem
      rw [pruneVisit_of_not_removable hrem2]
      exact ih s b

/-- The loop of the source is a sequence of removals. -/
theorem pruneLoop_removals (n : Nat) (adj : List (List Nat)) (T : Finset Nat) :
    ∀ (fuel : Nat) (s s1 : PruneState), pruneLoop n adj T fuel s = some s1 →
    LeafRemovals adj T s s1 := by
  intro fuel
  induction fuel with
  | zero => intro s s1 h; simp [pruneLoop] at h
  | succ fuel ih =>
    intro s s1 h
    have hfold := pruneFold_removals adj T (List.range n) s false
    cases hp : prunePass n adj T s with
    | mk s2 b =>
      have hp2 : (List.range n).foldl (pruneVisit adj T) (s, false) = (s2, b) := hp
      rw [hp2] at hfold
      cases b with
      | true =>
        simp only [pruneLoop, hp] at h
        exact hfold.append (ih s2 s1 h)
      | false =>
        simp only [pruneLoop, hp, Option.some.injEq] at h
        exact h ▸ hfold

/-- The loop with any scan orders ends within its budget, in a state without
removable vertex reached by a sequence of removals. -/
theorem pruneLoopIn_spec {n : Nat} {E : List (Edge W)} {T : Finset Nat} (hr : InRange n E)
    (orders : Nat → List Nat) (hord : ∀ k, (orders k).Perm (List.range n)) :
    ∀ (fuel k : Nat) (s : PruneState), PInv n E T s → s.active.count true < fuel →
    ∃ s1, pruneLoopIn (buildAdj n E) T orders fuel k s = some s1 ∧
      LeafRemovals (buildAdj n E) T s s1 ∧ ∀ u, removable T s1 u = false := by
  intro fuel
  induction fuel with
  | zero => intro k s _ h; omega
  | succ fuel ih =>
    intro k s inv hlt
    obtain ⟨s1, b1, hfold, inv1, _, _, hdec, hfix⟩ := pruneFold_spec hr (orders k) s false inv
    have hrm := pruneFold_removals (buildAdj n E) T (orders k) s false
    rw [hfold] at hrm
    cases b1 with
    | true =>
      have := hdec rfl rfl
      obtain ⟨s2, h2, hrm2, hno⟩ := ih (k + 1) s1 inv1 (by omega)
      refine ⟨s2, ?_, hrm.append hrm2, hno⟩
      simp only [pruneLoopIn, hfold]
      exact h2
    | false =>
      obtain ⟨heq, hno⟩ := hfix rfl
      refine ⟨s1, ?_, hrm, fun u => ?_⟩
      · simp only [pruneLoopIn, hfold]
      · rw [heq]
        by_cases hu : u < n
        · exact hno u ((hord k).mem_iff.mpr (List.mem_range.mpr hu))
        · by_contra hne
          have h1 : removable T s u = true := by simpa using hne
          have := PruneState.lt_of_act (removable_iff.mp h1).1
          rw [inv.alen] at this
          exact hu this

/-- The recorded degree of another vertex after the removal of `u`. -/
theorem pruneVisit_deg {adj : List (List Nat)} {T : Finset Nat} {s : PruneState} {u : Nat}
    (h : removable T s u = true) {x : Nat} (hx : x < s.degree.length) (hxu : x ≠ u) :
    (pruneVisit adj T (s, false) u).1.deg x =
      s.deg x - (if s.act x = true then ((adj.getD u []).count x : Int) else 0) := by
  rw [pruneVisit_of_removable h]
  have h1 : ¬ u = x := fun e => hxu e.symm
  simp only [PruneState.deg, List.getD_eq_getElem?_getD, List.getElem?_set, h1, if_false]
  have := decrNeighbors_getD (s.active.set u false) (adj.getD u []) x s.degree hx
  simp only [List.getD_eq_getElem?_getD] at this
  rw [this]
  have h3 := getD_set_false s.active u x
  simp only [List.getD_eq_getElem?_getD, hxu, if_false] at h3
  rw [h3]
  simp only [PruneState.act, List.getD_eq_getElem?_getD]

/-- The work-queue ends within its budget, in a state without removable
vertex reached by a sequence of removals, provided every removable vertex is
in the queue. -/
theorem pruneQueueLoop_spec {n : Nat} {E : List (Edge W)} {T : Finset Nat} (hr : InRange n E) :
    ∀ (fuel : Nat) (q : List Nat) (s : PruneState), PInv n E T s →
    (∀ x, removable T s x = true → x ∈ q) → q.length + s.active.count true < fuel →
    ∃ s1, pruneQueueLoop (buildAdj n E) T fuel q s = some s1 ∧
      LeafRemovals (buildAdj n E) T s s1 ∧ ∀ u, removable T s1 u = false := by
  intro fuel
  induction fuel with
  | zero => intro q s _ _ h; omega
  | succ fuel ih =>
    intro q s inv hq hlt
    cases q with
    | nil =>
      refine ⟨s, by simp [pruneQueueLoop], LeafRemovals.done s, fun u => ?_⟩
      by_contra hne
      have h1 : removable T s u = true := by simpa using hne
      exact absurd (hq u h1) (List.not_mem_nil _)
    | cons u q =>
      rw [pruneQueueLoop]
      simp only [List.length_cons] at hlt
      by_cases hrem : removable T s u = true
      · simp only [hrem, if_true]
        have hs1 : (pruneVisit (buildAdj n E) T (s, false) u).1.active = s.active.set u false := by
          rw [pruneVisit_of_removable hrem]
        have inv1 : PInv n E T (pruneVisit (buildAdj n E) T (s, false) u).1 := by
          rw [pruneVisit_of_removable hrem]
          exact (inv.remove hr hrem).1
        have hcnt := (inv.remove hr hrem).2
        obtain ⟨hact, hdeg, hT⟩ := removable_iff.mp hrem
        have hcount1 : ((buildAdj n E).getD u []).countP s.act = 1 := by
          have := inv.degOK u hact
          rw [hdeg] at this
          exact_mod_cast this.symm
        have hsplit := countP_split_at (p := s.act)
          (q := (pruneVisit (buildAdj n E) T (s, false) u).1.act) (u := u) hact
          (fun x => pruneVisit_act _ hrem x) ((buildAdj n E).getD u [])
        have hfl : (((buildAdj n E).getD u []).filter
            (removable T (pruneVisit (buildAdj n E) T (s, false) u).1)).length ≤ 1 := by
          rw [← List.countP_eq_length_filter]
          have : ((buildAdj n E).getD u []).countP
                (removable T (pruneVisit (buildAdj n E) T (s, false) u).1) ≤
              ((buildAdj n E).getD u []).countP
                (pruneVisit (buildAdj n E) T (s, false) u).1.act :=
            List.countP_mono_left (fun x _ hx => (removable_iff.mp hx).1)
          omega
        have hq1 : ∀ x, removable T (pruneVisit (buildAdj n E) T (s, false) u).1 x = true →
            x ∈ q ++ ((buildAdj n E).getD u []).filter
              (removable T (pruneVisit (buildAdj n E) T (s, false) u).1) := by
          intro x hx
          by_cases hmem : x ∈ (buildAdj n E).getD u []
          · exact List.mem_append_right _ (List.mem_filter.mpr ⟨hmem, hx⟩)
          · obtain ⟨hax, hdx, hTx⟩ := removable_iff.mp hx
            rw [pruneVisit_act _ hrem] at hax
            have hxu : x ≠ u := by
              intro e
              simp [e] at hax
            simp only [hxu, if_false] at hax
            have hxn : x < s.degree.length := by
              rw [inv.dlen, ← inv.alen]
              exact PruneState.lt_of_act hax
            rw [pruneVisit_deg hrem hxn hxu, List.count_eq_zero.mpr hmem] at hdx
            simp only [hax, if_true, Nat.cast_zero, sub_zero] at hdx
            have hxq := hq x (removable_iff.mpr ⟨hax, hdx, hTx⟩)
            rcases List.mem_cons.mp hxq with e | hxq2
            · exact absurd e hxu
            · exact List.mem_append_left _ hxq2
        have hlt1 : (q ++ ((buildAdj n E).getD u []).filter
              (removable T (pruneVisit (buildAdj n E) T (s, false) u).1)).length +
            (pruneVisit (buildAdj n E) T (s, false) u).1.active.count true < fuel := by
          rw [List.length_append, hs1]
          omega
        obtain ⟨s1, h1, hrm, hno⟩ := ih _ _ inv1 hq1 hlt1
        exact ⟨s1, h1, LeafRemovals.step u hrem hrm, hno⟩
      · have hrem2 : removable T s u = false := by simpa using hrem
        simp only [hrem2, Bool.false_eq_true, if_false]
        apply ih q s inv _ (by omega)
        intro x hx
        rcases List.mem_cons.mp (hq x hx) with e | hxq
        · rw [e, hrem2] at hx
          exact absurd hx (by decide)
        · exact hxq

/-- C18. For every `n`, edge list with endpoints in `[0, n)` and terminal
set, `prune_steiner_leaves` returns an edge list `L`, and the same list `L` is
returned (a) when each pass scans the vertices in any permutation of
`0..n-1` in place of the ascending order, (b) when a work-queue of the
vertices that currently have degree one and are no terminals replaces the
passes, and (c) by any sequence of removals of vertices that are active, of
degree one and no terminals at the time they are removed, carried on until
no such vertex is left. -/
theorem prune_steiner_leaves_order_independent (n : Nat) (E : List (Edge W)) (T : Finset Nat)
    (hr : InRange n E) :
    ∃ L, prune_steiner_leaves n E T = some L ∧
      (∀ orders : Nat → List Nat, (∀ k, (orders k).Perm (List.range n)) →
        pruneInOrder n E T orders = some L) ∧
      pruneWithQueue n E T = some L ∧
      (∀ s, LeafRemovals (buildAdj n E) T (pruneInit n (buildAdj n E)) s →
        (∀ u, removable T s u = false) → keepActive s E = L) := by
  obtain ⟨s0, hfin, hprune, _, hno0⟩ := prune_steiner_leaves_spec T hr
  have inv := PInv.init T hr
  have hrm0 : LeafRemovals (buildAdj n E) T (pruneInit n (buildAdj n E)) s0 :=
    pruneLoop_removals n _ T _ _ _ hfin
  have hlen : (pruneInit n (buildAdj n E)).active.length = n := by simp [pruneInit]
  have hcnt := List.count_le_length true (pruneInit n (buildAdj n E)).active
  refine ⟨keepActive s0 E, hprune, fun orders hord => ?_, ?_, fun s hrm hno => ?_⟩
  · obtain ⟨s1, h1, hrm1, hno1⟩ :=
      pruneLoopIn_spec hr orders hord (n + 1) 0 _ inv (by omega)
    simp only [pruneInOrder, h1, Option.map_some']
    rw [LeafRemovals.keepActive_eq hr inv hrm1 hrm0 hno1 hno0]
  · obtain ⟨s1, h1, hrm1, hno1⟩ := pruneQueueLoop_spec hr (2 * n + 1)
      ((List.range n).filter (removable T (pruneInit n (buildAdj n E)))) _ inv
      (fun x hx => List.mem_filter.mpr
        ⟨List.mem_range.mpr (hlen ▸ PruneState.lt_of_act (removable_iff.mp hx).1), hx⟩)
      (by
        have := List.length_filter_le (removable T (pruneInit n (buildAdj n E))) (List.range n)
        rw [List.length_range] at this
        omega)
    simp only [pruneWithQueue, h1, Option.map_some']
    rw [LeafRemovals.keepActive_eq hr inv hrm1 hrm0 hno1 hno0]
  · exact LeafRemovals.keepActive_eq hr inv hrm hrm0 hno hno0

/-- Instance: the tree `0-1`, `1-2`, `1-3`, `3-4` with terminals `{0, 2}`;
the ascending passes, the descending passes and the work-queue all return
the edges `0-1` and `1-2`. -/
theorem prune_steiner_leaves_order_independent_witness :
    (∃ L, prune_steiner_leaves 5 ([⟨1, 0, 1⟩, ⟨1, 1, 2⟩, ⟨1, 1, 3⟩, ⟨1, 3, 4⟩] : List (Edge Int))
          {0, 2} = some L ∧
        (∀ orders : Nat → List Nat, (∀ k, (orders k).Perm (List.range 5)) →
          pruneInOrder 5 ([⟨1, 0, 1⟩, ⟨1, 1, 2⟩, ⟨1, 1, 3⟩, ⟨1, 3, 4⟩] : List (Edge Int))
            {0, 2} orders = some L) ∧
        pruneWithQueue 5 ([⟨1, 0, 1⟩, ⟨1, 1, 2⟩, ⟨1, 1, 3⟩, ⟨1, 3, 4⟩] : List (Edge Int))
          {0, 2} = some L ∧
        (∀ s, LeafRemovals
            (buildAdj 5 ([⟨1, 0, 1⟩, ⟨1, 1, 2⟩, ⟨1, 1, 3⟩, ⟨1, 3, 4⟩] : List (Edge Int))) {0, 2}
            (pruneInit 5
              (buildAdj 5 ([⟨1, 0, 1⟩, ⟨1, 1, 2⟩, ⟨1, 1, 3⟩, ⟨1, 3, 4⟩] : List (Edge Int)))) s →
          (∀ u, removable {0, 2} s u = false) →
          keepActive s ([⟨1, 0, 1⟩, ⟨1, 1, 2⟩, ⟨1, 1, 3⟩, ⟨1, 3, 4⟩] : List (Edge Int)) = L)) ∧
      prune_steiner_leaves 5 ([⟨1, 0, 1⟩, ⟨1, 1, 2⟩, ⟨1, 1, 3⟩, ⟨1, 3, 4⟩] : List (Edge Int))
        {0, 2} = some [⟨1, 0, 1⟩, ⟨1, 1, 2⟩] ∧
      pruneInOrder 5 ([⟨1, 0, 1⟩, ⟨1, 1, 2⟩, ⟨1, 1, 3⟩, ⟨1, 3, 4⟩] : List (Edge Int))
        {0, 2} (fun _ => [4, 3, 2, 1, 0]) = some [⟨1, 0, 1⟩, ⟨1, 1, 2⟩] ∧
      pruneWithQueue 5 ([⟨1, 0, 1⟩, ⟨1, 1, 2⟩, ⟨1, 1, 3⟩, ⟨1, 3, 4⟩] : List (Edge Int))
        {0, 2} = some [⟨1, 0, 1⟩, ⟨1, 1, 2⟩] :=
  ⟨prune_steiner_leaves_order_independent 5 [⟨1, 0, 1⟩, ⟨1, 1, 2⟩, ⟨1, 1, 3⟩, ⟨1, 3, 4⟩] {0, 2}
      (by unfold InRange; decide),
    by decide, by decide, by decide⟩

/-- The final `active` vector, unlike the returned edge list, does depend on
the scan order: on the single edge `0-1` without terminals the ascending
passes leave vertex 1 active and the descending passes leave vertex 0
active; both return the empty edge list. -/
theorem pruneFinal_active_order_dependent :
    pruneFinal 2 ([⟨1, 0, 1⟩] : List (Edge Int)) ∅ =
        some { degree := [0, 0], active := [false, true] } ∧
      pruneLoopIn (buildAdj 2 ([⟨1, 0, 1⟩] : List (Edge Int))) ∅ (fun _ => [1, 0]) 3 0
          (pruneInit 2 (buildAdj 2 ([⟨1, 0, 1⟩] : List (Edge Int)))) =
        some { degree := [0, 0], active := [true, false] } ∧
      prune_steiner_leaves 2 ([⟨1, 0, 1⟩] : List (Edge Int)) ∅ = some [] ∧
      pruneInOrder 2 ([⟨1, 0, 1⟩] : List (Edge Int)) ∅ (fun _ => [1, 0]) = some [] := by
  decide

end Steiner
